import Mathlib

/-!
Verification of the flight optimiser of maxxc, `track.c`.

Shallow embedding of the search routines of `src/track.c`.

Modelling conventions
* A C `double` is an exact rational (`ℚ`); rounding is not modelled.
* A C `int` is an unbounded `Int`; the sentinel index is `-1`.
* A C array is a function from indexes to values.
* `coord_delta` (sines, cosines and `acos`) is not computed: a track carries the
  distance function `delta i j` that `track_delta` returns for the fixes `i`, `j`.
* A `while`/`for` loop is a structural recursion over a counter that starts at
  the number of indexes left to visit.  A loop that advances by exactly one has
  that many iterations at most; for the loops that skip ahead, the section "The
  loop counters suffice" shows that the counter never runs out first.
* `(int) (d / max_delta)` with `max_delta = 0` converts an infinite quotient or
  a NaN, which C leaves undefined (the most negative `int` on x86, hence a step
  of one); here the quotient by zero is zero, with the same step of one.
* An output parameter `double *out` is returned next to the result.
* The earth radius `R` of `maxxc.h` is a parameter of the league functions; a
  result is the list of its routes in the order they were pushed.
* For termination, the skips and the scans are also given with a budget of
  iterations (`…_run`), returning `none` when the budget is used up before the
  loop has ended; the section on termination relates them to the counters.
* A `const char *` is `none` (null) or `some s`, `s` being the characters
  before the terminating NUL; `*p` past them reads NUL.  The C library function
  `mktime` is a parameter of `match_b_record`, and the exit through `DIE` is a
  result of its own.
-/

namespace Maxxc

/-! ## Definitions -/

/-- The `limit_t` record of `maxxc.h`: an index and the distance to it. -/
structure limit_t where
  index : Int
  distance : ℚ
  deriving DecidableEq

/-- The fields of `track_t` that the searches read.  `delta i j` stands for
`coord_delta (coords + i) (coords + j)`. -/
structure track_t where
  ntrkpts : Int
  delta : Int → Int → ℚ
  max_delta : ℚ
  sigma_delta : Int → ℚ
  before : Int → limit_t
  after : Int → limit_t
  best_start : Int → Int
  last_finish : Int → Int

/-- The conversion `(int) x` of a double: truncation toward zero. -/
def double_to_int (x : ℚ) : Int :=
  if 0 ≤ x then ⌊x⌋ else ⌈x⌉

/-- The function `track_delta`. -/
def track_delta (t : track_t) (i j : Int) : ℚ :=
  t.delta i j

/-- The function `track_forward`: jump `(int) (d / max_delta)` indexes ahead,
at least one.  With a zero `max_delta` the step is one. -/
def track_forward (t : track_t) (i : Int) (d : ℚ) : Int :=
  let step := double_to_int (d / t.max_delta)
  if step > 0 then i + step else i + 1

/-- The `while (1)` loop of `track_fast_forward`, entered with `i < ntrkpts`. -/
def track_fast_forward_loop (t : track_t) (target : ℚ) : Nat → Int → Int
  | 0, i => i
  | fuel + 1, i =>
    let error := target - t.sigma_delta i
    if error ≤ 0 then i
    else
      let i' := track_forward t i error
      if i' ≥ t.ntrkpts then i'
      else track_fast_forward_loop t target fuel i'

/-- The function `track_fast_forward`. -/
def track_fast_forward (t : track_t) (i : Int) (d : ℚ) : Int :=
  let target := t.sigma_delta i + d
  let i' := track_forward t i d
  if i' ≥ t.ntrkpts then i'
  else track_fast_forward_loop t target (t.ntrkpts - i').toNat i'

/-- The function `track_backward`. -/
def track_backward (t : track_t) (i : Int) (d : ℚ) : Int :=
  let step := double_to_int (d / t.max_delta)
  if step > 0 then i - step else i - 1

/-- The `while (1)` loop of `track_fast_backward`, entered with `0 ≤ i`. -/
def track_fast_backward_loop (t : track_t) (target : ℚ) : Nat → Int → Int
  | 0, i => i
  | fuel + 1, i =>
    let error := t.sigma_delta i - target
    if error ≤ 0 then i
    else
      let i' := track_backward t i error
      if i' < 0 then i'
      else track_fast_backward_loop t target fuel i'

/-- The function `track_fast_backward`. -/
def track_fast_backward (t : track_t) (i : Int) (d : ℚ) : Int :=
  let target := t.sigma_delta i - d
  let i' := track_backward t i d
  if i' < 0 then i'
  else track_fast_backward_loop t target (i' + 1).toNat i'

/-- The `for` loop of `track_furthest_from`; the state is `j`, `bound`,
`result` and the cell `*out`. -/
def track_furthest_from_loop (t : track_t) (i end_ : Int) :
    Nat → Int → ℚ → Int → ℚ → Int × ℚ
  | 0, _, _, result, out => (result, out)
  | fuel + 1, j, bound, result, out =>
    if j < end_ then
      let d := track_delta t i j
      if d > bound then track_furthest_from_loop t i end_ fuel (j + 1) d j d
      else track_furthest_from_loop t i end_ fuel (track_fast_forward t j (bound - d)) bound result out
    else (result, out)

/-- The function `track_furthest_from`: the returned index and the final
content of `*out` (`out` is its content on entry). -/
def track_furthest_from (t : track_t) (i begin_ end_ : Int) (bound out : ℚ) : Int × ℚ :=
  track_furthest_from_loop t i end_ (end_ - begin_).toNat begin_ bound (-1) out

/-- The `for` loop of `track_furthest_from2`. -/
def track_furthest_from2_loop (t : track_t) (i j end_ : Int) :
    Nat → Int → ℚ → Int → ℚ → Int × ℚ
  | 0, _, _, result, out => (result, out)
  | fuel + 1, k, bound, result, out =>
    if k < end_ then
      let d := track_delta t i k + track_delta t k j
      if d > bound then track_furthest_from2_loop t i j end_ fuel (k + 1) d k d
      else
        track_furthest_from2_loop t i j end_ fuel
          (track_fast_forward t k ((bound - d) / 2.0)) bound result out
    else (result, out)

/-- The function `track_furthest_from2`: the returned index and the final content of `*out`. -/
def track_furthest_from2 (t : track_t) (i j begin_ end_ : Int) (bound out : ℚ) : Int × ℚ :=
  track_furthest_from2_loop t i j end_ (end_ - begin_).toNat begin_ bound (-1) out

/-- The `for` loop of `track_first_at_least`. -/
def track_first_at_least_loop (t : track_t) (i end_ : Int) (bound : ℚ) : Nat → Int → Int
  | 0, _ => -1
  | fuel + 1, j =>
    if j < end_ then
      let d := track_delta t i j
      if d > bound then j
      else track_first_at_least_loop t i end_ bound fuel (track_fast_forward t j (bound - d))
    else -1

/-- The function `track_first_at_least`. -/
def track_first_at_least (t : track_t) (i begin_ end_ : Int) (bound : ℚ) : Int :=
  track_first_at_least_loop t i end_ bound (end_ - begin_).toNat begin_

/-- The `for` loop of `track_last_at_least`. -/
def track_last_at_least_loop (t : track_t) (i begin_ : Int) (bound : ℚ) : Nat → Int → Int
  | 0, _ => -1
  | fuel + 1, j =>
    if j ≥ begin_ then
      let d := track_delta t i j
      if d > bound then j
      else track_last_at_least_loop t i begin_ bound fuel (track_fast_backward t j (bound - d))
    else -1

/-- The function `track_last_at_least`. -/
def track_last_at_least (t : track_t) (i begin_ end_ : Int) (bound : ℚ) : Int :=
  track_last_at_least_loop t i begin_ bound (end_ - begin_).toNat (end_ - 1)

/-- Array store `a[i] = v`. -/
def store {α : Type} (a : Int → α) (i : Int) (v : α) : Int → α :=
  fun k => if k = i then v else a k

/-- The loop of `track_initialize` that fills `sigma_delta` and `max_delta`. -/
def track_initialize_sigma_loop (t : track_t) :
    Nat → Int → (Int → ℚ) → ℚ → (Int → ℚ) × ℚ
  | 0, _, sigma, m => (sigma, m)
  | fuel + 1, i, sigma, m =>
    if i < t.ntrkpts then
      let delta := track_delta t (i - 1) i
      track_initialize_sigma_loop t fuel (i + 1)
        (store sigma i (sigma (i - 1) + delta)) (if delta > m then delta else m)
    else (sigma, m)

/-- The loop of `track_initialize` that fills `before[1 ..]`. -/
def track_initialize_before_loop (t : track_t) :
    Nat → Int → (Int → limit_t) → (Int → limit_t)
  | 0, _, before => before
  | fuel + 1, i, before =>
    if i < t.ntrkpts then
      let r := track_furthest_from t i 0 i
        ((before (i - 1)).distance - t.max_delta) (before i).distance
      track_initialize_before_loop t fuel (i + 1) (store before i ⟨r.1, r.2⟩)
    else before

/-- The loop of `track_initialize` that fills `after[1 .. ntrkpts - 2]`. -/
def track_initialize_after_loop (t : track_t) :
    Nat → Int → (Int → limit_t) → (Int → limit_t)
  | 0, _, after => after
  | fuel + 1, i, after =>
    if i < t.ntrkpts - 1 then
      let r := track_furthest_from t i (i + 1) t.ntrkpts
        ((after (i - 1)).distance - t.max_delta) (after i).distance
      track_initialize_after_loop t fuel (i + 1) (store after i ⟨r.1, r.2⟩)
    else after

/-- Modelled from the spec: `alloc` is declared in `maxxc.h` and defined outside
`track.c`; the arrays it returns are taken to be zero-filled, so an entry that
is never written reads as zero. -/
def alloc {α : Type} (zero : α) : Int → α :=
  fun _ => zero

/-- The function `track_initialize`, from the point where `coords` is filled: computes
`max_delta`, `sigma_delta`, `before` and `after`.  The two OpenMP sections are
independent and run here one after the other. -/
def track_initialize (t : track_t) : track_t :=
  let sm := track_initialize_sigma_loop t (t.ntrkpts - 1).toNat 1 (store (alloc 0) 0 0) 0
  let t1 : track_t := { t with max_delta := sm.2, sigma_delta := sm.1 }
  let before := track_initialize_before_loop t1 (t.ntrkpts - 1).toNat 1
    (store (alloc ⟨0, 0⟩) 0 ⟨0, 0⟩)
  let r0 := track_furthest_from t1 0 1 t.ntrkpts 0 ((alloc (⟨0, 0⟩ : limit_t)) 0).distance
  let after0 := store (alloc ⟨0, 0⟩) 0 ⟨r0.1, r0.2⟩
  let after1 := track_initialize_after_loop t1 (t.ntrkpts - 2).toNat 1 after0
  let after := store after1 (t.ntrkpts - 1) ⟨t.ntrkpts - 1, 0⟩
  { t1 with before := before, after := after }

/-- The inner `for (j = ntrkpts - 1; j >= i; )` loop of
`track_compute_circuit_tables`: `some j` when it breaks after storing `j`,
`none` when it runs out without storing. -/
def last_finish_loop (t : track_t) (i : Int) (circuit_bound : ℚ) : Nat → Int → Option Int
  | 0, _ => none
  | fuel + 1, j =>
    if j ≥ i then
      let error := track_delta t i j
      if error < circuit_bound then some j
      else last_finish_loop t i circuit_bound fuel (track_fast_backward t j (error - circuit_bound))
    else none

/-- The rescan `for (j = 1; j <= i; ++j)` of `track_compute_circuit_tables`. -/
def best_start_rescan_loop (last_finish : Int → Int) (i : Int) : Nat → Int → Int → Int
  | 0, _, current_best_start => current_best_start
  | fuel + 1, j, current_best_start =>
    if j ≤ i then
      best_start_rescan_loop last_finish i fuel (j + 1)
        (if last_finish j > last_finish current_best_start then j else current_best_start)
    else current_best_start

/-- The outer loop of `track_compute_circuit_tables`; the state is
`last_finish`, `best_start` and `current_best_start`. -/
def track_compute_circuit_tables_loop (t : track_t) (circuit_bound : ℚ) :
    Nat → Int → (Int → Int) → (Int → Int) → Int → (Int → Int) × (Int → Int)
  | 0, _, last_finish, best_start, _ => (last_finish, best_start)
  | fuel + 1, i, last_finish, best_start, current_best_start =>
    if i < t.ntrkpts then
      let last_finish1 :=
        match last_finish_loop t i circuit_bound (t.ntrkpts - i).toNat (t.ntrkpts - 1) with
        | some j => store last_finish i j
        | none => last_finish
      let cbs1 :=
        if last_finish1 i > last_finish1 current_best_start then i else current_best_start
      let cbs2 :=
        if last_finish1 cbs1 < i then best_start_rescan_loop last_finish1 i i.toNat 1 0
        else cbs1
      track_compute_circuit_tables_loop t circuit_bound fuel (i + 1)
        last_finish1 (store best_start i cbs2) cbs2
    else (last_finish, best_start)

/-- The function `track_compute_circuit_tables`. -/
def track_compute_circuit_tables (t : track_t) (circuit_bound : ℚ) : track_t :=
  let r := track_compute_circuit_tables_loop t circuit_bound t.ntrkpts.toNat 0
    (alloc 0) (alloc 0) 0
  { t with last_finish := r.1, best_start := r.2 }

/-- The `for` loop of `track_open_distance`.  The call passes `&bound` as
`out`, so after it `bound` holds the content of `*out`. -/
def track_open_distance_loop (t : track_t) : Nat → Int → ℚ → List Int → ℚ × List Int
  | 0, _, bound, indexes => (bound, indexes)
  | fuel + 1, start, bound, indexes =>
    if start < t.ntrkpts - 1 then
      let r := track_furthest_from t start (start + 1) t.ntrkpts bound bound
      track_open_distance_loop t fuel (start + 1) r.2
        (if r.1 ≠ -1 then [start, r.1] else indexes)
    else (bound, indexes)

/-- The function `track_open_distance`: the returned bound and `indexes[0 .. 1]`. -/
def track_open_distance (t : track_t) (bound : ℚ) : ℚ × List Int :=
  track_open_distance_loop t (t.ntrkpts - 1).toNat 0 bound [-1, -1]

/-- The `for` loop of `track_open_distance1`. -/
def track_open_distance1_loop (t : track_t) : Nat → Int → ℚ → List Int → ℚ × List Int
  | 0, _, bound, indexes => (bound, indexes)
  | fuel + 1, tp1, bound, indexes =>
    if tp1 < t.ntrkpts - 1 then
      let total := (t.before tp1).distance + (t.after tp1).distance
      if total > bound then
        track_open_distance1_loop t fuel (tp1 + 1) total
          [(t.before tp1).index, tp1, (t.after tp1).index]
      else
        track_open_distance1_loop t fuel
          (track_fast_forward t tp1 (0.5 * (bound - total))) bound indexes
    else (bound, indexes)

/-- The function `track_open_distance1`: the returned bound and `indexes[0 .. 2]`. -/
def track_open_distance1 (t : track_t) (bound : ℚ) : ℚ × List Int :=
  track_open_distance1_loop t (t.ntrkpts - 2).toNat 1 bound [-1, -1, -1]

/-- The inner `for (tp2 = tp1 + 1; tp2 < ntrkpts - 1; )` loop of
`track_open_distance2`. -/
def track_open_distance2_inner (t : track_t) (tp1 : Int) (leg1 : ℚ) :
    Nat → Int → ℚ → List Int → ℚ × List Int
  | 0, _, bound, indexes => (bound, indexes)
  | fuel + 1, tp2, bound, indexes =>
    if tp2 < t.ntrkpts - 1 then
      let distance := leg1 + track_delta t tp1 tp2 + (t.after tp2).distance
      if distance > bound then
        track_open_distance2_inner t tp1 leg1 fuel (tp2 + 1) distance
          [(t.before tp1).index, tp1, tp2, (t.after tp2).index]
      else
        track_open_distance2_inner t tp1 leg1 fuel
          (track_fast_forward t tp2 (0.5 * (bound - distance))) bound indexes
    else (bound, indexes)

/-- The outer `for (tp1 = 1; tp1 < ntrkpts - 2; ++tp1)` loop of
`track_open_distance2`, its iterations run in order. -/
def track_open_distance2_outer (t : track_t) : Nat → Int → ℚ → List Int → ℚ × List Int
  | 0, _, bound, indexes => (bound, indexes)
  | fuel + 1, tp1, bound, indexes =>
    if tp1 < t.ntrkpts - 2 then
      let leg1 := (t.before tp1).distance
      let r := track_open_distance2_inner t tp1 leg1
        (t.ntrkpts - 1 - (tp1 + 1)).toNat (tp1 + 1) bound indexes
      track_open_distance2_outer t fuel (tp1 + 1) r.1 r.2
    else (bound, indexes)

/-- The function `track_open_distance2` executed sequentially: the returned bound and
`indexes[0 .. 3]`. -/
def track_open_distance2 (t : track_t) (bound : ℚ) : ℚ × List Int :=
  track_open_distance2_outer t (t.ntrkpts - 3).toNat 1 bound [-1, -1, -1, -1]

/-- The `for` loop of `track_frcfd_aller_retour`, its iterations run in order
(`local_bound` is then `bound`). -/
def track_frcfd_aller_retour_loop (t : track_t) : Nat → Int → ℚ → List Int → ℚ × List Int
  | 0, _, bound, indexes => (bound, indexes)
  | fuel + 1, tp1, bound, indexes =>
    if tp1 < t.ntrkpts - 2 then
      let start := t.best_start tp1
      let finish := t.last_finish start
      if finish < 0 then track_frcfd_aller_retour_loop t fuel (tp1 + 1) bound indexes
      else
        let local_bound := bound
        let r := track_furthest_from t tp1 (tp1 + 1) (finish + 1) local_bound 0.0
        if r.1 ≥ 0 ∧ r.2 > bound then
          track_frcfd_aller_retour_loop t fuel (tp1 + 1) r.2 [start, tp1, r.1, finish]
        else track_frcfd_aller_retour_loop t fuel (tp1 + 1) bound indexes
    else (bound, indexes)

/-- The function `track_frcfd_aller_retour` executed sequentially: the returned bound and
`indexes[0 .. 3]`. -/
def track_frcfd_aller_retour (t : track_t) (bound : ℚ) : ℚ × List Int :=
  let r := track_frcfd_aller_retour_loop t (t.ntrkpts - 2).toNat 0 (bound / 2.0)
    [-1, -1, -1, -1]
  (2.0 * r.1, r.2)

/-- The variables `bound`, `legbound` and `indexes[0 .. 4]` that the loops of
`track_frcfd_triangle_fai` update. -/
structure fai_state where
  bound : ℚ
  legbound : ℚ
  indexes : List Int

/-- The `for (tp2 = tp2first; tp2 <= tp2last; )` loop of
`track_frcfd_triangle_fai`. -/
def track_frcfd_triangle_fai_tp2 (t : track_t) (start tp1 tp3 finish : Int)
    (leg3 shortestlegbound longestlegbound : ℚ) (tp2last : Int) :
    Nat → Int → fai_state → fai_state
  | 0, _, st => st
  | fuel + 1, tp2, st =>
    if tp2 ≤ tp2last then
      let d : ℚ := 0.0
      let leg1 := track_delta t tp1 tp2
      let d := if leg1 < shortestlegbound then shortestlegbound - leg1 else d
      let d := if leg1 > longestlegbound ∧ leg1 - longestlegbound > d
        then leg1 - longestlegbound else d
      let leg2 := track_delta t tp2 tp3
      let d := if leg2 < shortestlegbound ∧ shortestlegbound - leg2 > d
        then shortestlegbound - leg2 else d
      let d := if leg2 > longestlegbound ∧ leg2 - longestlegbound > d
        then leg2 - longestlegbound else d
      if d > 0.0 then
        track_frcfd_triangle_fai_tp2 t start tp1 tp3 finish leg3 shortestlegbound
          longestlegbound tp2last fuel (track_fast_forward t tp2 d) st
      else
        let total := leg1 + leg2 + leg3
        let thislegbound := 0.28 * total
        let d := if leg1 < thislegbound then thislegbound - leg1 else d
        let d := if leg2 < thislegbound ∧ thislegbound - leg2 > d
          then thislegbound - leg2 else d
        let d := if leg3 < thislegbound ∧ thislegbound - leg3 > d
          then thislegbound - leg3 else d
        if d > 0.0 then
          track_frcfd_triangle_fai_tp2 t start tp1 tp3 finish leg3 shortestlegbound
            longestlegbound tp2last fuel (track_fast_forward t tp2 (0.5 * d)) st
        else if total < st.bound then
          track_frcfd_triangle_fai_tp2 t start tp1 tp3 finish leg3 shortestlegbound
            longestlegbound tp2last fuel
            (track_fast_forward t tp2 (0.5 * (st.bound - total))) st
        else
          track_frcfd_triangle_fai_tp2 t start tp1 tp3 finish leg3 shortestlegbound
            longestlegbound tp2last fuel (tp2 + 1)
            ⟨total, thislegbound, [start, tp1, tp2, tp3, finish]⟩
    else st

/-- The `for (tp3 = tp3last; tp3 >= tp3first; )` loop of
`track_frcfd_triangle_fai`. -/
def track_frcfd_triangle_fai_tp3 (t : track_t) (start tp1 finish tp3first : Int) :
    Nat → Int → fai_state → fai_state
  | 0, _, st => st
  | fuel + 1, tp3, st =>
    if tp3 ≥ tp3first then
      let leg3 := track_delta t tp3 tp1
      if leg3 < st.legbound then
        track_frcfd_triangle_fai_tp3 t start tp1 finish tp3first fuel
          (track_fast_backward t tp3 (st.legbound - leg3)) st
      else
        let shortestlegbound := 0.28 * leg3 / 0.44
        let tp2first := track_first_at_least t tp1 (tp1 + 1) (tp3 - 1) shortestlegbound
        if tp2first < 0 then
          track_frcfd_triangle_fai_tp3 t start tp1 finish tp3first fuel (tp3 - 1) st
        else
          let tp2last := track_last_at_least t tp3 tp2first tp3 shortestlegbound
          if tp2last < 0 then
            track_frcfd_triangle_fai_tp3 t start tp1 finish tp3first fuel (tp3 - 1) st
          else
            let longestlegbound := 0.44 * leg3 / 0.28
            let st' := track_frcfd_triangle_fai_tp2 t start tp1 tp3 finish leg3
              shortestlegbound longestlegbound tp2last
              (tp2last + 1 - tp2first).toNat tp2first st
            track_frcfd_triangle_fai_tp3 t start tp1 finish tp3first fuel (tp3 - 1) st'
    else st

/-- The `for (tp1 = 0; tp1 < ntrkpts - 2; ++tp1)` loop of
`track_frcfd_triangle_fai`. -/
def track_frcfd_triangle_fai_tp1 (t : track_t) : Nat → Int → fai_state → fai_state
  | 0, _, st => st
  | fuel + 1, tp1, st =>
    if tp1 < t.ntrkpts - 2 then
      let start := t.best_start tp1
      let finish := t.last_finish start
      if finish < 0 then track_frcfd_triangle_fai_tp1 t fuel (tp1 + 1) st
      else
        let tp3first := track_first_at_least t tp1 (tp1 + 2) (finish + 1) st.legbound
        if tp3first < 0 then track_frcfd_triangle_fai_tp1 t fuel (tp1 + 1) st
        else
          let tp3last := track_last_at_least t tp1 tp3first (finish + 1) st.legbound
          if tp3last < 0 then track_frcfd_triangle_fai_tp1 t fuel (tp1 + 1) st
          else
            let st' := track_frcfd_triangle_fai_tp3 t start tp1 finish tp3first
              (tp3last + 1 - tp3first).toNat tp3last st
            track_frcfd_triangle_fai_tp1 t fuel (tp1 + 1) st'
    else st

/-- The function `track_frcfd_triangle_fai`: the returned bound and `indexes[0 .. 4]`. -/
def track_frcfd_triangle_fai (t : track_t) (bound : ℚ) : ℚ × List Int :=
  let st := track_frcfd_triangle_fai_tp1 t (t.ntrkpts - 2).toNat 0
    ⟨bound, 0.28 * bound, [-1, -1, -1, -1, -1]⟩
  (st.bound, st.indexes)

/-- The `for (tp3 = finish; tp3 > tp1 + 1; --tp3)` loop of
`track_frcfd_triangle_plat`. -/
def track_frcfd_triangle_plat_tp3 (t : track_t) (start tp1 finish : Int) :
    Nat → Int → ℚ → List Int → ℚ × List Int
  | 0, _, bound, indexes => (bound, indexes)
  | fuel + 1, tp3, bound, indexes =>
    if tp3 > tp1 + 1 then
      let leg31 := track_delta t tp3 tp1
      let bound123 := bound - leg31
      let r := track_furthest_from2 t tp1 tp3 (tp1 + 1) tp3 bound123 0.0
      if r.1 > 0 then
        track_frcfd_triangle_plat_tp3 t start tp1 finish fuel (tp3 - 1) (leg31 + r.2)
          [start, tp1, r.1, tp3, finish]
      else track_frcfd_triangle_plat_tp3 t start tp1 finish fuel (tp3 - 1) bound indexes
    else (bound, indexes)

/-- The `for (tp1 = 0; tp1 < ntrkpts - 1; ++tp1)` loop of
`track_frcfd_triangle_plat`. -/
def track_frcfd_triangle_plat_tp1 (t : track_t) : Nat → Int → ℚ → List Int → ℚ × List Int
  | 0, _, bound, indexes => (bound, indexes)
  | fuel + 1, tp1, bound, indexes =>
    if tp1 < t.ntrkpts - 1 then
      if t.sigma_delta (t.ntrkpts - 1) - t.sigma_delta tp1 < bound then (bound, indexes)
      else
        let start := t.best_start tp1
        let finish := t.last_finish start
        if finish < 0 ∨ t.sigma_delta finish - t.sigma_delta tp1 < bound then
          track_frcfd_triangle_plat_tp1 t fuel (tp1 + 1) bound indexes
        else
          let r := track_frcfd_triangle_plat_tp3 t start tp1 finish
            (finish - (tp1 + 1)).toNat finish bound indexes
          track_frcfd_triangle_plat_tp1 t fuel (tp1 + 1) r.1 r.2
    else (bound, indexes)

/-- The function `track_frcfd_triangle_plat`: the returned bound and `indexes[0 .. 4]`. -/
def track_frcfd_triangle_plat (t : track_t) (bound : ℚ) : ℚ × List Int :=
  track_frcfd_triangle_plat_tp1 t (t.ntrkpts - 1).toNat 0 bound [-1, -1, -1, -1, -1]

/-- The inner `for (tp3 = tp2 + 1; tp3 < ntrkpts - 1; )` loop of
`track_open_distance3`. -/
def track_open_distance3_tp3 (t : track_t) (tp1 tp2 : Int) (leg1 leg2 : ℚ) :
    Nat → Int → ℚ → List Int → ℚ × List Int
  | 0, _, bound, indexes => (bound, indexes)
  | fuel + 1, tp3, bound, indexes =>
    if tp3 < t.ntrkpts - 1 then
      let distance := leg1 + leg2 + track_delta t tp2 tp3 + (t.after tp3).distance
      if distance > bound then
        track_open_distance3_tp3 t tp1 tp2 leg1 leg2 fuel (tp3 + 1) distance
          [(t.before tp1).index, tp1, tp2, tp3, (t.after tp3).index]
      else
        track_open_distance3_tp3 t tp1 tp2 leg1 leg2 fuel
          (track_fast_forward t tp3 (0.5 * (bound - distance))) bound indexes
    else (bound, indexes)

/-- The `for (tp2 = tp1 + 1; tp2 < ntrkpts - 2; ++tp2)` loop of
`track_open_distance3`. -/
def track_open_distance3_tp2 (t : track_t) (tp1 : Int) (leg1 : ℚ) :
    Nat → Int → ℚ → List Int → ℚ × List Int
  | 0, _, bound, indexes => (bound, indexes)
  | fuel + 1, tp2, bound, indexes =>
    if tp2 < t.ntrkpts - 2 then
      let leg2 := track_delta t tp1 tp2
      let r := track_open_distance3_tp3 t tp1 tp2 leg1 leg2
        (t.ntrkpts - 1 - (tp2 + 1)).toNat (tp2 + 1) bound indexes
      track_open_distance3_tp2 t tp1 leg1 fuel (tp2 + 1) r.1 r.2
    else (bound, indexes)

/-- The outer `for (tp1 = 1; tp1 < ntrkpts - 3; ++tp1)` loop of
`track_open_distance3`, its iterations run in order. -/
def track_open_distance3_tp1 (t : track_t) : Nat → Int → ℚ → List Int → ℚ × List Int
  | 0, _, bound, indexes => (bound, indexes)
  | fuel + 1, tp1, bound, indexes =>
    if tp1 < t.ntrkpts - 3 then
      let leg1 := (t.before tp1).distance
      let r := track_open_distance3_tp2 t tp1 leg1
        (t.ntrkpts - 2 - (tp1 + 1)).toNat (tp1 + 1) bound indexes
      track_open_distance3_tp1 t fuel (tp1 + 1) r.1 r.2
    else (bound, indexes)

/-- The function `track_open_distance3` executed sequentially: the returned
bound and `indexes[0 .. 4]`. -/
def track_open_distance3 (t : track_t) (bound : ℚ) : ℚ × List Int :=
  track_open_distance3_tp1 t (t.ntrkpts - 4).toNat 1 bound [-1, -1, -1, -1, -1]

/-- The array `int indexes[6]` of the league functions holding the list that a
search has written: entry `i` of the list, `-1` beyond it (the callers read only
entries that the search wrote). -/
def index_array (l : List Int) : Int → Int :=
  fun i => l.getD i.toNat (-1)

/-- The `for (i = 1; i < n - 2; ++i)` loop of `track_frcfd_circuit_distance`. -/
def track_frcfd_circuit_distance_loop (t : track_t) (n : Int) (indexes : Int → Int) :
    Nat → Int → ℚ → ℚ
  | 0, _, distance => distance
  | fuel + 1, i, distance =>
    if i < n - 2 then
      track_frcfd_circuit_distance_loop t n indexes fuel (i + 1)
        (distance + track_delta t (indexes i) (indexes (i + 1)))
    else distance

/-- The function `track_frcfd_circuit_distance`; the earth radius `R` of
`maxxc.h` is a parameter. -/
def track_frcfd_circuit_distance (t : track_t) (R : ℚ) (n : Int) (indexes : Int → Int) : ℚ :=
  R * track_frcfd_circuit_distance_loop t n indexes (n - 3).toNat 1
    (track_delta t (indexes (n - 2)) (indexes 1))

/-- Modelled from the spec: `route_t` is declared in `maxxc.h`, outside
`track.c`.  A route carries the league name, the route-type label, the distance
in km, the score multiplier, the `circuit` flag, the `declared` flag and its
waypoints; a waypoint is kept as the index of its fix and its name. -/
structure route_t where
  league : String
  name : String
  distance : ℚ
  multiplier : ℚ
  circuit : Int
  declared : Int
  wpts : List (Int × String)
  deriving DecidableEq

/-- Modelled from the spec: `result_push_new_route` is defined outside
`track.c`; it appends to the result a new route with the given league, label,
distance, multiplier and flags and no waypoint yet, and returns that route.
Here the new route alone is returned and the caller appends it. -/
def result_push_new_route (league name : String) (distance multiplier : ℚ)
    (circuit declared : Int) : route_t :=
  { league := league, name := name, distance := distance, multiplier := multiplier,
    circuit := circuit, declared := declared, wpts := [] }

/-- Modelled from the spec: `route_push_trkpts` is defined outside `track.c`;
it appends to the route the `n` fixes `trkpts[indexes[0 .. n - 1]]` with the
given names. -/
def route_push_trkpts (route : route_t) (n : Nat) (indexes : List Int) (names : List String) :
    route_t :=
  { route with wpts := route.wpts ++ (indexes.take n).zip names }

/-- The test `indexes[0] != -1` of the league functions. -/
def indexes_written (indexes : List Int) : Prop :=
  indexes.headD (-1) ≠ -1

instance (indexes : List Int) : Decidable (indexes_written indexes) := by
  unfold indexes_written; infer_instance

/-- The routes and the successive values of the variable `bound` of a league
function. -/
structure league_run where
  result : List route_t
  bounds : List ℚ

/-- The body of `track_optimize_frcfd`; the earth radius `R` of `maxxc.h` is a
parameter, `declaration` is not used.  Next to the result, the values that the
searches return into `bound` are listed in order. -/
def track_optimize_frcfd_run (t : track_t) (R : ℚ) (complexity : Int) : league_run :=
  let league := "Coupe Fédérale de Distance (France)"
  let result : List route_t := []
  let s0 := track_open_distance t 0.0
  let result := if indexes_written s0.2 then
      result ++ [route_push_trkpts (result_push_new_route league
        "distance libre sans point de contournement" (R * s0.1) 1.0 0 0) 2 s0.2 ["BD", "BA"]]
    else result
  if complexity ≠ -1 ∧ complexity < 1 then ⟨result, [s0.1]⟩
  else
    let s1 := track_open_distance1 t s0.1
    let result := if indexes_written s1.2 then
        result ++ [route_push_trkpts (result_push_new_route league
          "distance libre avec un point de contournement" (R * s1.1) 1.0 0 0) 3 s1.2
          ["BD", "B1", "BA"]]
      else result
    if complexity ≠ -1 ∧ complexity < 2 then ⟨result, [s0.1, s1.1]⟩
    else
      let s2 := track_open_distance2 t s1.1
      let result := if indexes_written s2.2 then
          result ++ [route_push_trkpts (result_push_new_route league
            "distance libre avec deux points de contournement" (R * s2.1) 1.0 0 0) 4 s2.2
            ["BD", "B1", "B2", "BA"]]
        else result
      let t := track_compute_circuit_tables t (3.0 / R)
      let s3 := track_frcfd_aller_retour t (15.0 / R)
      let result := if indexes_written s3.2 then
          result ++ [route_push_trkpts (result_push_new_route league
            "parcours en aller-retour"
            (track_frcfd_circuit_distance t R 4 (index_array s3.2)) 1.2 1 0) 4 s3.2
            ["BD", "B1", "B2", "BA"]]
        else result
      if complexity ≠ -1 ∧ complexity < 3 then ⟨result, [s0.1, s1.1, s2.1, s3.1]⟩
      else
        let s4 := track_frcfd_triangle_fai t s3.1
        let result := if indexes_written s4.2 then
            result ++ [route_push_trkpts (result_push_new_route league
              "triangle FAI"
              (track_frcfd_circuit_distance t R 5 (index_array s4.2)) 1.4 1 0) 5 s4.2
              ["BD", "B1", "B2", "B3", "BA"]]
          else result
        let s5 := track_frcfd_triangle_plat t s4.1
        let result := if indexes_written s5.2 then
            result ++ [route_push_trkpts (result_push_new_route league
              "triangle plat"
              (track_frcfd_circuit_distance t R 5 (index_array s5.2)) 1.2 1 0) 5 s5.2
              ["BD", "B1", "B2", "B3", "BA"]]
          else result
        ⟨result, [s0.1, s1.1, s2.1, s3.1, s4.1, s5.1]⟩

/-- The function `track_optimize_frcfd`: the result, as the list of its routes
in the order they were pushed. -/
def track_optimize_frcfd (t : track_t) (R : ℚ) (complexity : Int) : List route_t :=
  (track_optimize_frcfd_run t R complexity).result

/-- The body of `track_optimize_uknxcl`, with the result and the values that
the searches return into `bound`. -/
def track_optimize_uknxcl_run (t : track_t) (R : ℚ) (complexity : Int) : league_run :=
  let league := "UK National XC League"
  let result : List route_t := []
  let s0 := track_open_distance t 0.0
  let result := if indexes_written s0.2 then
      result ++ [route_push_trkpts (result_push_new_route league
        "open distance" (R * s0.1) 1.0 0 0) 2 s0.2 ["Start", "Finish"]]
    else result
  if complexity ≠ -1 ∧ complexity < 1 then ⟨result, [s0.1]⟩
  else
    let s1 := track_open_distance1 t s0.1
    let result := if indexes_written s1.2 then
        result ++ [route_push_trkpts (result_push_new_route league
          "open distance via a turnpoint" (R * s1.1) 1.0 0 0) 3 s1.2
          ["Start", "TP1", "Finish"]]
      else result
    if complexity ≠ -1 ∧ complexity < 2 then ⟨result, [s0.1, s1.1]⟩
    else
      let s2 := track_open_distance2 t s1.1
      let result := if indexes_written s2.2 then
          result ++ [route_push_trkpts (result_push_new_route league
            "open distance via two turnpoints" (R * s2.1) 1.0 0 0) 4 s2.2
            ["Start", "TP1", "TP2", "Finish"]]
        else result
      let t := track_compute_circuit_tables t (0.4 / R)
      let s3 := track_frcfd_aller_retour t (15.0 / R)
      let result := if indexes_written s3.2 then
          result ++ [route_push_trkpts (result_push_new_route league
            "out and return via a turnpoint"
            (track_frcfd_circuit_distance t R 4 (index_array s3.2)) 2.0 1 0) 4 s3.2
            ["Start", "TP1", "TP2", "Finish"]]
        else result
      if complexity ≠ -1 ∧ complexity < 3 then ⟨result, [s0.1, s1.1, s2.1, s3.1]⟩
      else
        let s4 := track_frcfd_triangle_fai t s3.1
        let result := if indexes_written s4.2 then
            result ++ [route_push_trkpts (result_push_new_route league
              "FAI triangle"
              (track_frcfd_circuit_distance t R 5 (index_array s4.2)) 2.5 1 0) 5 s4.2
              ["Start", "TP1", "TP2", "TP3", "Finish"]]
          else result
        let s5 := track_frcfd_triangle_plat t s4.1
        let result := if indexes_written s5.2 then
            result ++ [route_push_trkpts (result_push_new_route league
              "out and return via two turnpoints"
              (track_frcfd_circuit_distance t R 5 (index_array s5.2)) 2.0 1 0) 5 s5.2
              ["Start", "TP1", "TP2", "TP3", "Finish"]]
          else result
        ⟨result, [s0.1, s1.1, s2.1, s3.1, s4.1, s5.1]⟩

/-- The function `track_optimize_uknxcl`. -/
def track_optimize_uknxcl (t : track_t) (R : ℚ) (complexity : Int) : List route_t :=
  (track_optimize_uknxcl_run t R complexity).result

/-- The body of `track_optimize_ukxcl`, with the result and the values that the
searches return into `bound`. -/
def track_optimize_ukxcl_run (t : track_t) (R : ℚ) (complexity : Int) : league_run :=
  let league := "Cross Country League (United Kingdom)"
  let result : List route_t := []
  let s0 := track_open_distance t (10.0 / R)
  let result := if indexes_written s0.2 then
      result ++ [route_push_trkpts (result_push_new_route league
        "open distance" (R * s0.1) 1.0 0 0) 2 s0.2 ["Start", "Finish"]]
    else result
  if complexity ≠ -1 ∧ complexity < 3 then ⟨result, [s0.1]⟩
  else
    let bound := if s0.1 < 15.0 / R then 15.0 / R else s0.1
    let s1 := track_open_distance3 t bound
    let result := if indexes_written s1.2 then
        result ++ [route_push_trkpts (result_push_new_route league
          "turnpoint flight" (R * s1.1) 1.0 0 0) 5 s1.2
          ["Start", "TP1", "TP2", "TP3", "Finish"]]
      else result
    ⟨result, [s0.1, s1.1]⟩

/-- The function `track_optimize_ukxcl`. -/
def track_optimize_ukxcl (t : track_t) (R : ℚ) (complexity : Int) : List route_t :=
  (track_optimize_ukxcl_run t R complexity).result

/-- A track of fixes in the plane under the taxicab distance: the track with
`ntrkpts = pts.length` whose `delta` is `|x i - x j| + |y i - y j|`, all derived
fields zero. -/
def plane_track (pts : List (ℚ × ℚ)) : track_t :=
  { ntrkpts := pts.length
    delta := fun i j =>
      |(pts.getD i.toNat (0, 0)).1 - (pts.getD j.toNat (0, 0)).1| +
      |(pts.getD i.toNat (0, 0)).2 - (pts.getD j.toNat (0, 0)).2|
    max_delta := 0
    sigma_delta := alloc 0
    before := alloc ⟨0, 0⟩
    after := alloc ⟨0, 0⟩
    best_start := alloc 0
    last_finish := alloc 0 }

/-- The facts about a preprocessed track that the searches rely on: `delta` is a
(pseudo)metric on the fixes, `sigma_delta` is the cumulative sum of the adjacent
distances, and `max_delta` bounds every adjacent distance. -/
structure Preprocessed (t : track_t) : Prop where
  delta_self : ∀ a, 0 ≤ a → a < t.ntrkpts → t.delta a a = 0
  delta_symm : ∀ a b, 0 ≤ a → a < t.ntrkpts → 0 ≤ b → b < t.ntrkpts →
    t.delta a b = t.delta b a
  delta_triangle : ∀ a b c, 0 ≤ a → a < t.ntrkpts → 0 ≤ b → b < t.ntrkpts →
    0 ≤ c → c < t.ntrkpts → t.delta a c ≤ t.delta a b + t.delta b c
  sigma_succ : ∀ k, 0 ≤ k → k + 1 < t.ntrkpts →
    t.sigma_delta (k + 1) = t.sigma_delta k + t.delta k (k + 1)
  max_step : ∀ k, 0 ≤ k → k + 1 < t.ntrkpts → t.delta k (k + 1) ≤ t.max_delta

/-- Common shape of the maximising loops of `track.c`: at `j` below `end_`, a
value `f j` above the bound becomes the bound, is recorded with `upd` and `j`
advances by one; otherwise `j` is fast-forwarded by `amt bound (f j)`. -/
def scan_max {σ : Type} (t : track_t) (f : Int → ℚ) (amt : ℚ → ℚ → ℚ) (upd : Int → ℚ → σ)
    (end_ : Int) : Nat → Int → ℚ → σ → ℚ × σ
  | 0, _, bound, s => (bound, s)
  | fuel + 1, j, bound, s =>
    if j < end_ then
      if f j > bound then scan_max t f amt upd end_ fuel (j + 1) (f j) (upd j (f j))
      else scan_max t f amt upd end_ fuel (track_fast_forward t j (amt bound (f j))) bound s
    else (bound, s)

/-- State of a maximising scan that has dealt with the indexes of
`[begin_, end_)` below `j`: none of them exceeds `bound`, and either nothing was
recorded and `bound` is the initial `b`, or the record is the first index `r`
at which `f` equals `bound`, which exceeds `b`. -/
def ScanInv {σ : Type} (f : Int → ℚ) (upd : Int → ℚ → σ) (begin_ end_ : Int) (b : ℚ) (s0 : σ)
    (j : Int) (bound : ℚ) (s : σ) : Prop :=
  (∀ k, begin_ ≤ k → k < j → k < end_ → f k ≤ bound) ∧
  ((bound = b ∧ s = s0) ∨
    ∃ r, begin_ ≤ r ∧ r < j ∧ r < end_ ∧ s = upd r (f r) ∧ bound = f r ∧ b < f r ∧
      ∀ k, begin_ ≤ k → k < r → f k < f r)

/-- A five-fix track along a line at abscissae 0, 3, 6, 9, 6, initialised. -/
def line_track_09 : track_t :=
  track_initialize (plane_track [(0, 0), (3, 0), (6, 0), (9, 0), (6, 0)])

/-- State of `track_open_distance` once the starts below `start` are done: no
pair from such a start exceeds `bound`, and either nothing was written and
`bound` is the initial `b`, or the indexes are a pair whose distance is `bound`,
above `b`. -/
def OpenInv (t : track_t) (b : ℚ) (start : Int) (bound : ℚ) (indexes : List Int) : Prop :=
  (∀ s f, 0 ≤ s → s < start → s < f → f < t.ntrkpts → t.delta s f ≤ bound) ∧
  ((bound = b ∧ indexes = [-1, -1]) ∨
    ∃ s f, 0 ≤ s ∧ s < f ∧ f < t.ntrkpts ∧ indexes = [s, f] ∧ t.delta s f = bound ∧ b < bound)

/-- The `before` and `after` tables hold the true maxima: `before[i].distance`
is the greatest distance from `i` to a fix `k ≤ i`, `after[i].distance` the
greatest distance from `i` to a fix `k ≥ i`. -/
structure TablesExact (t : track_t) : Prop where
  before_ge : ∀ i k, 0 ≤ k → k ≤ i → i < t.ntrkpts → t.delta k i ≤ (t.before i).distance
  before_attained : ∀ i, 0 ≤ i → i < t.ntrkpts →
    ∃ k, 0 ≤ k ∧ k ≤ i ∧ t.delta k i = (t.before i).distance
  after_ge : ∀ i k, 0 ≤ i → i ≤ k → k < t.ntrkpts → t.delta i k ≤ (t.after i).distance
  after_attained : ∀ i, 0 ≤ i → i < t.ntrkpts →
    ∃ k, i ≤ k ∧ k < t.ntrkpts ∧ t.delta i k = (t.after i).distance

/-- A five-fix zigzag track in the plane, initialised. -/
def zigzag_track : track_t :=
  track_initialize (plane_track [(0, 0), (3, 0), (1, 0), (4, 1), (2, 2)])

/-- The indexes `lo, lo + 1, …, hi - 1`. -/
def int_range (lo hi : Int) : List Int :=
  (List.range (hi - lo).toNat).map fun (k : Nat) => lo + (k : Int)

/-- The length of the route through the turnpoints `tp1` and `tp2` that
`track_open_distance2` considers. -/
def open_distance2_candidate (t : track_t) (tp1 tp2 : Int) : ℚ :=
  (t.before tp1).distance + track_delta t tp1 tp2 + (t.after tp2).distance

/-- Brute-force value of the two-turnpoint search, following the specification:
the greatest of the initial bound and of
`before[tp1].distance + δ(tp1, tp2) + after[tp2].distance` over all
`1 ≤ tp1 < tp2 ≤ ntrkpts - 2`. -/
def open_distance2_brute (t : track_t) (b : ℚ) : ℚ :=
  ((int_range 1 (t.ntrkpts - 1)).flatMap fun tp1 =>
    (int_range (tp1 + 1) (t.ntrkpts - 1)).map fun tp2 =>
      open_distance2_candidate t tp1 tp2).foldl max b

/-- State of `track_open_distance2` once the first turnpoints below `tp1` are
done. -/
def Open2Inv (t : track_t) (b : ℚ) (tp1 : Int) (bound : ℚ) : Prop :=
  b ≤ bound ∧
  (∀ a c, 1 ≤ a → a < tp1 → a < c → c ≤ t.ntrkpts - 2 →
    open_distance2_candidate t a c ≤ bound) ∧
  (bound = b ∨ ∃ a c, 1 ≤ a ∧ a < c ∧ c ≤ t.ntrkpts - 2 ∧
    open_distance2_candidate t a c = bound)

/-- What a maximising scan has recorded, on any track: nothing, with the bound
unchanged, or an index of the range whose value is the bound, above the initial
one. -/
def ScanSound {σ : Type} (f : Int → ℚ) (upd : Int → ℚ → σ) (begin_ end_ : Int) (b : ℚ)
    (s0 : σ) (bound : ℚ) (s : σ) : Prop :=
  (bound = b ∧ s = s0) ∨
    ∃ r, begin_ ≤ r ∧ r < end_ ∧ s = upd r (f r) ∧ bound = f r ∧ b < f r

/-- What `track_frcfd_triangle_plat` has written: nothing, with the bound
unchanged, or a triangle `tp1 < tp2 < tp3` whose perimeter is the bound, above
the initial one. -/
def PlatInv (t : track_t) (b bound : ℚ) (indexes : List Int) : Prop :=
  (bound = b ∧ indexes = [-1, -1, -1, -1, -1]) ∨
    ∃ start tp1 tp2 tp3 finish, indexes = [start, tp1, tp2, tp3, finish] ∧
      tp1 < tp2 ∧ tp2 < tp3 ∧
      t.delta tp1 tp2 + t.delta tp2 tp3 + t.delta tp3 tp1 = bound ∧ b < bound

/-- A four-fix track that goes out along a line and comes back: abscissae
0, 0, 10/1000, 0, with the circuit tables for a closure radius of 1/1000. -/
def out_and_back_track : track_t :=
  track_compute_circuit_tables
    ( track_initialize (plane_track [(0, 0), (0, 0), (10 / 1000, 0), (0, 0)])) (1 / 1000)

/-- The deficit `d` that the `tp2` loop of `track_frcfd_triangle_fai` computes
from the two bounds derived from `leg3`. -/
def fai_shape_deficit (leg1 leg2 shortestlegbound longestlegbound : ℚ) : ℚ :=
  let d : ℚ := 0.0
  let d := if leg1 < shortestlegbound then shortestlegbound - leg1 else d
  let d := if leg1 > longestlegbound ∧ leg1 - longestlegbound > d
    then leg1 - longestlegbound else d
  let d := if leg2 < shortestlegbound ∧ shortestlegbound - leg2 > d
    then shortestlegbound - leg2 else d
  let d := if leg2 > longestlegbound ∧ leg2 - longestlegbound > d
    then leg2 - longestlegbound else d
  d

/-- The deficit `d` that the `tp2` loop computes next from `thislegbound`,
starting from the previous `d`. -/
def fai_leg_deficit (d leg1 leg2 leg3 thislegbound : ℚ) : ℚ :=
  let d := if leg1 < thislegbound then thislegbound - leg1 else d
  let d := if leg2 < thislegbound ∧ thislegbound - leg2 > d then thislegbound - leg2 else d
  let d := if leg3 < thislegbound ∧ thislegbound - leg3 > d then thislegbound - leg3 else d
  d

/-- What `track_frcfd_triangle_fai` has written: nothing, or a triangle whose
perimeter is the bound and whose legs each reach 28% of it. -/
def FaiInv (t : track_t) (st : fai_state) : Prop :=
  st.indexes = [-1, -1, -1, -1, -1] ∨
    ∃ start tp1 tp2 tp3 finish, st.indexes = [start, tp1, tp2, tp3, finish] ∧
      t.delta tp1 tp2 + t.delta tp2 tp3 + t.delta tp3 tp1 = st.bound ∧
      0.28 * st.bound ≤ t.delta tp1 tp2 ∧ 0.28 * st.bound ≤ t.delta tp2 tp3 ∧
      0.28 * st.bound ≤ t.delta tp3 tp1

/-- A five-fix track around a triangle of the plane that returns to its first
fix, initialised. -/
def triangle_base_track : track_t :=
  track_initialize (plane_track [(0, 0), (2, 2), (3, 1), (4, 0), (0, 0)])

/-- The triangle track with the circuit tables for a closure radius of 1. -/
def triangle_track : track_t :=
  track_compute_circuit_tables triangle_base_track 1

/-- Two identical fixes, initialised. -/
def twin_track : track_t :=
  track_initialize (plane_track [(0, 0), (0, 0)])

/-- A four-fix track that goes out along a line by equal steps and turns back:
abscissae 0, 3/1000, 6/1000, 3/1000, initialised. -/
def turn_back_track : track_t :=
  track_initialize (plane_track [(0, 0), (3 / 1000, 0), (6 / 1000, 0), (3 / 1000, 0)])

/-- A four-fix track along a line by equal steps: abscissae 0, 3/1000, 6/1000,
9/1000, initialised. -/
def straight_track : track_t :=
  track_initialize (plane_track [(0, 0), (3 / 1000, 0), (6 / 1000, 0), (9 / 1000, 0)])

/-- The circuit tables are right for the closure radius `e` on the fixes below
`i`: `last_finish[k]` is the last fix closer than `e` to `k`, and
`best_start[k]` is the first fix of `[0, k]` with the greatest `last_finish`. -/
def CircuitTablesUpTo (t : track_t) (e : ℚ) (i : Int) (last_finish best_start : Int → Int) :
    Prop :=
  (∀ k, 0 ≤ k → k < i → k ≤ last_finish k ∧ last_finish k < t.ntrkpts ∧
    t.delta k (last_finish k) < e ∧ ∀ j, last_finish k < j → j < t.ntrkpts → e ≤ t.delta k j) ∧
  (∀ k, 0 ≤ k → k < i → 0 ≤ best_start k ∧ best_start k ≤ k ∧
    (∀ s, 0 ≤ s → s ≤ k → last_finish s ≤ last_finish (best_start k)) ∧
    (∀ s, 0 ≤ s → s < best_start k → last_finish s < last_finish (best_start k)))

/-- An out-and-return of the track for the closure radius `e`: fixes
`start ≤ tp1 < tp2 ≤ finish` with start and finish closer than `e`. -/
def OutAndReturn (t : track_t) (e : ℚ) (start tp1 tp2 finish : Int) : Prop :=
  0 ≤ start ∧ start ≤ tp1 ∧ tp1 < tp2 ∧ tp2 ≤ finish ∧ finish < t.ntrkpts ∧
    t.delta start finish < e

/-- State of `track_frcfd_aller_retour` once the first turnpoints below `tp1`
are done; `h` is half the initial bound. -/
def AllerRetourInv (t : track_t) (e h : ℚ) (tp1 : Int) (bound : ℚ) (indexes : List Int) :
    Prop :=
  (∀ s a c f, OutAndReturn t e s a c f → a < tp1 → t.delta a c ≤ bound) ∧
  ((bound = h ∧ indexes = [-1, -1, -1, -1]) ∨
    ∃ s a c f, OutAndReturn t e s a c f ∧ indexes = [s, a, c, f] ∧ t.delta a c = bound ∧
      h < bound)

/-- An out-and-return in the words of the specification: start and finish at
most `e` apart. -/
def OutAndReturnClosed (t : track_t) (e : ℚ) (start tp1 tp2 finish : Int) : Prop :=
  0 ≤ start ∧ start ≤ tp1 ∧ tp1 < tp2 ∧ tp2 ≤ finish ∧ finish < t.ntrkpts ∧
    t.delta start finish ≤ e

/-- A three-fix track along a line, abscissae 0, 5/1000, 1/1000, with the
circuit tables for a closure radius of 1/1000: first and last fix are exactly
that far apart. -/
def closure_edge_track : track_t :=
  track_compute_circuit_tables
    ( track_initialize (plane_track [(0, 0), (5 / 1000, 0), (1 / 1000, 0)])) (1 / 1000)

/-- A two-fix track, abscissae 0 and 5/1000, with the circuit tables for a
closure radius of 7/1000. -/
def two_fix_track : track_t :=
  track_compute_circuit_tables
    ( track_initialize (plane_track [(0, 0), (5 / 1000, 0)])) (7 / 1000)

/-- The three-fix track along a line, abscissae 0, 5, 1, initialised. -/
def out_and_return_track : track_t :=
  track_initialize (plane_track [(0, 0), (5, 0), (1, 0)])

/-- The 28% rule: each of the three legs is at least 0.28 times their sum. -/
def FaiShape (l1 l2 l3 : ℚ) : Prop :=
  0.28 * (l1 + l2 + l3) ≤ l1 ∧ 0.28 * (l1 + l2 + l3) ≤ l2 ∧ 0.28 * (l1 + l2 + l3) ≤ l3

/-- The perimeter of the triangle of the fixes `a`, `c`, `d`, as the search
sums it. -/
def perimeter (t : track_t) (a c d : Int) : ℚ :=
  t.delta a c + t.delta c d + t.delta d a

/-- The triangle of the fixes `a`, `c`, `d` obeys the 28% rule. -/
def FaiTriangle (t : track_t) (a c d : Int) : Prop :=
  FaiShape (t.delta a c) (t.delta c d) (t.delta d a)

/-- The indexes written are `start, tp1, tp2, tp3, finish` in order inside the
track, start and finish closer than `e`, the triangle obeys the 28% rule and
its perimeter is the bound. -/
def FaiReported (t : track_t) (e : ℚ) (st : fai_state) : Prop :=
  ∃ s a c d f, st.indexes = [s, a, c, d, f] ∧ 0 ≤ s ∧ s ≤ a ∧ a < c ∧ c < d ∧ d ≤ f ∧
    f < t.ntrkpts ∧ t.delta s f < e ∧ perimeter t a c d = st.bound ∧ FaiTriangle t a c d

/-- State of `track_frcfd_triangle_fai`: `legbound` is 0.28 times `bound`, and
either nothing was written and `bound` is the initial `b`, or a triangle is
reported and `bound` is at least `b`. -/
def FaiState (t : track_t) (e b : ℚ) (st : fai_state) : Prop :=
  st.legbound = 0.28 * st.bound ∧
  ((st.bound = b ∧ st.indexes = [-1, -1, -1, -1, -1]) ∨ (b ≤ st.bound ∧ FaiReported t e st))

/-- A triangle `a < c < d` that the search is shown not to miss: `c` is not the
fix just before `d`, the 28% rule holds, and the closing leg `δ(d, a)` is below
44% of the perimeter. -/
def FaiCandidate (t : track_t) (a c d : Int) : Prop :=
  a < c ∧ c + 1 < d ∧ FaiTriangle t a c d ∧ t.delta d a < 0.44 * perimeter t a c d

/-- Such a triangle inside an admissible window: some `start ≤ a` and
`finish ≥ d` are closer than `e`. -/
def FaiAdmissible (t : track_t) (e : ℚ) (a c d : Int) : Prop :=
  FaiCandidate t a c d ∧
    ∃ s f, 0 ≤ s ∧ s ≤ a ∧ d ≤ f ∧ f < t.ntrkpts ∧ t.delta s f < e

/-- A five-fix track around a triangle of the plane (coordinates in
thousandths) whose last fix is exactly 1/1000 away from the first, with the
circuit tables for a closure radius of 1/1000. -/
def open_triangle_track : track_t :=
  track_compute_circuit_tables
    ( track_initialize (plane_track [(0, 0), (2 / 1000, 2 / 1000), (3 / 1000, 1 / 1000),
      (4 / 1000, 0), (1 / 1000, 0)])) (1 / 1000)

/-- A five-fix track around a triangle of the plane whose legs are 14, 14 and 22
thousandths (28%, 28% and 44% of the perimeter), with the circuit tables for a
closure radius of 1/1000. -/
def flat_fai_track : track_t :=
  track_compute_circuit_tables
    ( track_initialize (plane_track [(0, 0), (11 / 1000, 3 / 1000), (16 / 1000, 2 / 1000),
      (22 / 1000, 0), (0, 0)])) (1 / 1000)

/-- The track that visits the three vertices of a triangle with equal sides once
each and returns to its first fix (coordinates in thousandths), with the circuit
tables for a closure radius of 1/1000. -/
def three_vertex_track : track_t :=
  track_compute_circuit_tables
    ( track_initialize (plane_track [(0, 0), (2 / 1000, 2 / 1000), (4 / 1000, 0),
      (0, 0)])) (1 / 1000)

/-- The three vertices of a triangle with equal sides visited once each, then the
first vertex again (coordinates in thousandths), initialised. -/
def three_vertex_base_track : track_t :=
  track_initialize (plane_track [(0, 0), (2 / 1000, 2 / 1000), (4 / 1000, 0), (0, 0)])

/-- What a search that only ever raises its bound has done, started from the
bound `b` and the indexes `s0`: nothing, or raised the bound above `b`. -/
def Grown {σ : Type} (b : ℚ) (s0 : σ) (bound : ℚ) (s : σ) : Prop :=
  (bound = b ∧ s = s0) ∨ b < bound

/-- What `track_open_distance` has written: nothing, with the bound unchanged,
or a pair of fixes `start < finish` whose distance is the bound, above the
initial one. -/
def OpenSound (t : track_t) (b bound : ℚ) (indexes : List Int) : Prop :=
  (bound = b ∧ indexes = [-1, -1]) ∨
    ∃ start finish, 0 ≤ start ∧ start < finish ∧ finish < t.ntrkpts ∧
      indexes = [start, finish] ∧ t.delta start finish = bound ∧ b < bound

/-- What `track_open_distance3` has written: nothing, with the bound unchanged,
or turnpoints `1 ≤ tp1 < tp2 < tp3 < ntrkpts - 1` between the tabulated start
and finish, whose distance is the bound, above the initial one. -/
def Open3Sound (t : track_t) (b bound : ℚ) (indexes : List Int) : Prop :=
  (bound = b ∧ indexes = [-1, -1, -1, -1, -1]) ∨
    ∃ tp1 tp2 tp3, 1 ≤ tp1 ∧ tp1 < tp2 ∧ tp2 < tp3 ∧ tp3 < t.ntrkpts - 1 ∧
      indexes = [(t.before tp1).index, tp1, tp2, tp3, (t.after tp3).index] ∧
      (t.before tp1).distance + t.delta tp1 tp2 + t.delta tp2 tp3 + (t.after tp3).distance =
        bound ∧
      b < bound

/-- Two fixes 5/1000 rad apart, initialised. -/
def two_fix_base_track : track_t :=
  track_initialize (plane_track [(0, 0), (5 / 1000, 0)])

/-- The `for` loop of `track_nearest_to`; the state is `j`, `bound`, `result`
and the cell `*out`. -/
def track_nearest_to_loop (t : track_t) (i end_ : Int) :
    Nat → Int → ℚ → Int → ℚ → Int × ℚ
  | 0, _, _, result, out => (result, out)
  | fuel + 1, j, bound, result, out =>
    if j < end_ then
      let d := track_delta t i j
      if d < bound then track_nearest_to_loop t i end_ fuel (j + 1) d j d
      else track_nearest_to_loop t i end_ fuel (track_fast_forward t j (d - bound)) bound result out
    else (result, out)

/-- The function `track_nearest_to`: the returned index and the final content
of `*out`. -/
def track_nearest_to (t : track_t) (i begin_ end_ : Int) (bound out : ℚ) : Int × ℚ :=
  track_nearest_to_loop t i end_ (end_ - begin_).toNat begin_ bound (-1) out

/-- The one-by-one linear scan that the specification compares
`track_fast_forward` with: from `j` on, advance by one index while the fix is
inside the track and its cumulative arc length is below `target`. -/
def linear_scan_forward (t : track_t) (target : ℚ) : Nat → Int → Int
  | 0, j => j
  | fuel + 1, j =>
    if j < t.ntrkpts ∧ t.sigma_delta j < target then linear_scan_forward t target fuel (j + 1)
    else j

/-- The track with the distance along the path in place of `delta`: the
distance between two fixes is the difference of their cumulative arc lengths.
The skips do not read `delta`, so they run alike on both tracks. -/
def arc_track (t : track_t) : track_t :=
  { t with delta := fun a b => |t.sigma_delta a - t.sigma_delta b| }

/-- Three fixes along a line by equal steps: abscissae 0, 1/1000, 2/1000,
initialised. -/
def three_step_track : track_t :=
  track_initialize (plane_track [(0, 0), (1 / 1000, 0), (2 / 1000, 0)])

/-- The `while (1)` loop of `track_fast_forward` run for at most `fuel`
iterations: `some r` when it reaches a `return` with `r`, `none` when the
iterations are used up before. -/
def track_fast_forward_loop_run (t : track_t) (target : ℚ) : Nat → Int → Option Int
  | 0, _ => none
  | fuel + 1, i =>
    let error := target - t.sigma_delta i
    if error ≤ 0 then some i
    else
      let i' := track_forward t i error
      if i' ≥ t.ntrkpts then some i'
      else track_fast_forward_loop_run t target fuel i'

/-- The function `track_fast_forward` with its loop run for at most `fuel`
iterations. -/
def track_fast_forward_run (t : track_t) (i : Int) (d : ℚ) (fuel : Nat) : Option Int :=
  let target := t.sigma_delta i + d
  let i' := track_forward t i d
  if i' ≥ t.ntrkpts then some i'
  else track_fast_forward_loop_run t target fuel i'

/-- The `while (1)` loop of `track_fast_backward` run for at most `fuel`
iterations. -/
def track_fast_backward_loop_run (t : track_t) (target : ℚ) : Nat → Int → Option Int
  | 0, _ => none
  | fuel + 1, i =>
    let error := t.sigma_delta i - target
    if error ≤ 0 then some i
    else
      let i' := track_backward t i error
      if i' < 0 then some i'
      else track_fast_backward_loop_run t target fuel i'

/-- The function `track_fast_backward` with its loop run for at most `fuel`
iterations. -/
def track_fast_backward_run (t : track_t) (i : Int) (d : ℚ) (fuel : Nat) : Option Int :=
  let target := t.sigma_delta i - d
  let i' := track_backward t i d
  if i' < 0 then some i'
  else track_fast_backward_loop_run t target fuel i'

/-- The `for` loop of `track_furthest_from` run for at most `fuel` tests of its
condition: `some` of the result and `*out` when the test fails within them,
`none` otherwise. -/
def track_furthest_from_run (t : track_t) (i end_ : Int) :
    Nat → Int → ℚ → Int → ℚ → Option (Int × ℚ)
  | 0, _, _, _, _ => none
  | fuel + 1, j, bound, result, out =>
    if j < end_ then
      let d := track_delta t i j
      if d > bound then track_furthest_from_run t i end_ fuel (j + 1) d j d
      else track_furthest_from_run t i end_ fuel (track_fast_forward t j (bound - d)) bound result out
    else some (result, out)

/-- The `for` loop of `track_nearest_to` run for at most `fuel` tests of its
condition. -/
def track_nearest_to_run (t : track_t) (i end_ : Int) :
    Nat → Int → ℚ → Int → ℚ → Option (Int × ℚ)
  | 0, _, _, _, _ => none
  | fuel + 1, j, bound, result, out =>
    if j < end_ then
      let d := track_delta t i j
      if d < bound then track_nearest_to_run t i end_ fuel (j + 1) d j d
      else track_nearest_to_run t i end_ fuel (track_fast_forward t j (d - bound)) bound result out
    else some (result, out)

/-- The `for` loop of `track_furthest_from2` run for at most `fuel` tests of its
condition. -/
def track_furthest_from2_run (t : track_t) (i j end_ : Int) :
    Nat → Int → ℚ → Int → ℚ → Option (Int × ℚ)
  | 0, _, _, _, _ => none
  | fuel + 1, k, bound, result, out =>
    if k < end_ then
      let d := track_delta t i k + track_delta t k j
      if d > bound then track_furthest_from2_run t i j end_ fuel (k + 1) d k d
      else
        track_furthest_from2_run t i j end_ fuel
          (track_fast_forward t k ((bound - d) / 2.0)) bound result out
    else some (result, out)

/-- The `for` loop of `track_first_at_least` run for at most `fuel` tests of its
condition. -/
def track_first_at_least_run (t : track_t) (i end_ : Int) (bound : ℚ) : Nat → Int → Option Int
  | 0, _ => none
  | fuel + 1, j =>
    if j < end_ then
      let d := track_delta t i j
      if d > bound then some j
      else track_first_at_least_run t i end_ bound fuel (track_fast_forward t j (bound - d))
    else some (-1)

/-- The `for` loop of `track_last_at_least` run for at most `fuel` tests of its
condition. -/
def track_last_at_least_run (t : track_t) (i begin_ : Int) (bound : ℚ) : Nat → Int → Option Int
  | 0, _ => none
  | fuel + 1, j =>
    if j ≥ begin_ then
      let d := track_delta t i j
      if d > bound then some j
      else track_last_at_least_run t i begin_ bound fuel (track_fast_backward t j (bound - d))
    else some (-1)

/-- What `track_frcfd_aller_retour` has written: nothing, or a first turnpoint
`tp1`, the start and finish that the tables give for it, and a second turnpoint
after `tp1` and not after the finish. -/
def OutAndReturnShape (t : track_t) (indexes : List Int) : Prop :=
  indexes = [-1, -1, -1, -1] ∨
    ∃ tp1 tp2, 0 ≤ tp1 ∧ tp1 < t.ntrkpts - 1 ∧ tp1 < tp2 ∧
      tp2 ≤ t.last_finish (t.best_start tp1) ∧
      indexes = [t.best_start tp1, tp1, tp2, t.last_finish (t.best_start tp1)]

/-- What a triangle search has written: nothing, or a first turnpoint `tp1`, the
start and finish that the tables give for it, and two more turnpoints in order
after `tp1` and not after the finish. -/
def TriangleShape (t : track_t) (indexes : List Int) : Prop :=
  indexes = [-1, -1, -1, -1, -1] ∨
    ∃ tp1 tp2 tp3, 0 ≤ tp1 ∧ tp1 < t.ntrkpts - 1 ∧ tp1 < tp2 ∧ tp2 < tp3 ∧
      tp3 ≤ t.last_finish (t.best_start tp1) ∧
      indexes = [t.best_start tp1, tp1, tp2, tp3, t.last_finish (t.best_start tp1)]

/-- An entry of `before` as `track_initialize` leaves it for the fix `k ≥ 1`:
never written (index `-1` stored, distance still zero), or an earlier fix and
the distance to it. -/
def BeforeEntry (t : track_t) (k : Int) (x : limit_t) : Prop :=
  (x.index = -1 ∧ x.distance = 0) ∨
    (0 ≤ x.index ∧ x.index < k ∧ x.distance = t.delta k x.index)

/-- An entry of `after` as `track_initialize` leaves it for the fix
`k ≤ ntrkpts - 2`: never written, or a later fix and the distance to it. -/
def AfterEntry (t : track_t) (k : Int) (x : limit_t) : Prop :=
  (x.index = -1 ∧ x.distance = 0) ∨
    (k < x.index ∧ x.index < t.ntrkpts ∧ x.distance = t.delta k x.index)

/-- Five fixes that go out 20/1000 rad at the third fix and are back at once:
abscissae 0, 0, 20/1000, 0, 0, initialised. -/
def spike_track : track_t :=
  track_initialize (plane_track [(0, 0), (0, 0), (20 / 1000, 0), (0, 0), (0, 0)])

/-- The character `*p` of a C string whose characters before the terminating
NUL are `s`: its first character, NUL at the end. -/
def deref (s : List Char) : Char :=
  s.headD (Char.ofNat 0)

/-- The function `match_char`; `none` is the null pointer. -/
def match_char (p : Option (List Char)) (c : Char) : Option (List Char) :=
  match p with
  | none => none
  | some s => if deref s = c then some s.tail else none

/-- The `for (; n > 0; --n)` loop of `match_unsigned`: the returned pointer and
the content of `*result`. -/
def match_unsigned_loop : Nat → List Char → Int → Option (List Char) × Int
  | 0, s, result => (some s, result)
  | n + 1, s, result =>
    if '0' ≤ deref s ∧ deref s ≤ '9' then
      match_unsigned_loop n s.tail (10 * result + (deref s).toNat - ('0').toNat)
    else (none, result)

/-- The function `match_unsigned`: the returned pointer and the content of
`*result` (`result` is its content on entry, kept when `p` is null). -/
def match_unsigned (p : Option (List Char)) (n : Nat) (result : Int) :
    Option (List Char) × Int :=
  match p with
  | none => (none, result)
  | some s => match_unsigned_loop n s 0

/-- The `for (; *s; ++s)` loop of `match_one_of` at the string `q`. -/
def match_one_of_loop (q : List Char) (result : Char) : List Char → Option (List Char) × Char
  | [] => (none, result)
  | c :: s => if deref q = c then (some q.tail, deref q) else match_one_of_loop q result s

/-- The function `match_one_of`: the returned pointer and the content of
`*result`. -/
def match_one_of (p : Option (List Char)) (s : List Char) (result : Char) :
    Option (List Char) × Char :=
  match p with
  | none => (none, result)
  | some q => match_one_of_loop q result s

/-- The loop `while (*p && *p != CR) ++p` of `match_until_eol`. -/
def skip_until_cr : List Char → List Char
  | [] => []
  | c :: s => if c ≠ Char.ofNat 0 ∧ c ≠ Char.ofNat 13 then skip_until_cr s else c :: s

/-- The function `match_until_eol`. -/
def match_until_eol (p : Option (List Char)) : Option (List Char) :=
  match p with
  | none => none
  | some s =>
    let q := skip_until_cr s
    if deref q ≠ Char.ofNat 13 then none
    else
      let q := q.tail
      if deref q = Char.ofNat 10 then some q.tail else none

/-- The `struct tm` of the C library. -/
structure tm_t where
  tm_sec : Int
  tm_min : Int
  tm_hour : Int
  tm_mday : Int
  tm_mon : Int
  tm_year : Int
  tm_wday : Int
  tm_yday : Int
  tm_isdst : Int
  deriving DecidableEq

/-- The fields of `trkpt_t` (declared in `maxxc.h`) that `match_b_record`
writes. -/
structure trkpt_t where
  time : Int
  lat : Int
  lon : Int
  val : Char
  alt : Int
  ele : Int
  deriving DecidableEq

/-- The function `match_b_record`.  The C library function `mktime` is a
parameter: it returns the normalised `struct tm` and the time.  The outer `none`
is the exit through `DIE` when `mktime` returns `-1`; otherwise the result is the
returned pointer with the final content of `*tm` and `*trkpt`. -/
def match_b_record (mktime : tm_t → tm_t × Int) (p : Option (List Char)) (tm : tm_t)
    (trkpt : trkpt_t) : Option (Option (List Char) × tm_t × trkpt_t) :=
  let p := match_char p 'B'
  if p = none then some (none, tm, trkpt)
  else
    let r := match_unsigned p 2 0
    let p := r.1
    let hour := r.2
    let r := match_unsigned p 2 0
    let p := r.1
    let min := r.2
    let r := match_unsigned p 2 0
    let p := r.1
    let sec := r.2
    if p = none then some (none, tm, trkpt)
    else
      let r := match_unsigned p 2 0
      let p := r.1
      let lat_deg := r.2
      let r := match_unsigned p 5 0
      let p := r.1
      let lat_mmin := r.2
      let rc := match_one_of p ['N', 'S'] (Char.ofNat 0)
      let p := rc.1
      let lat_hemi := rc.2
      let lat := 60000 * lat_deg + lat_mmin
      let lat := if lat_hemi = 'S' then lat * -1 else lat
      let r := match_unsigned p 3 0
      let p := r.1
      let lon_deg := r.2
      let r := match_unsigned p 5 0
      let p := r.1
      let lon_mmin := r.2
      let rc := match_one_of p ['E', 'W'] (Char.ofNat 0)
      let p := rc.1
      let lon_hemi := rc.2
      let lon := 60000 * lon_deg + lon_mmin
      let lon := if lon_hemi = 'W' then lon * -1 else lon
      let rc := match_one_of p ['A', 'V'] (Char.ofNat 0)
      let p := rc.1
      let val := rc.2
      let r := match_unsigned p 5 0
      let p := r.1
      let alt := r.2
      let r := match_unsigned p 5 0
      let p := r.1
      let ele := r.2
      let p := match_until_eol p
      if p = none then some (none, tm, trkpt)
      else
        let tm := { tm with tm_hour := hour, tm_min := min, tm_sec := sec }
        let m := mktime tm
        if m.2 = -1 then none
        else
          some (p, m.1,
            { time := m.2, lat := lat, lon := lon, val := val, alt := alt, ele := ele })

/-- A decimal digit. -/
def is_digit (c : Char) : Prop :=
  '0' ≤ c ∧ c ≤ '9'

instance (c : Char) : Decidable (is_digit c) := by
  unfold is_digit; infer_instance

/-- The number that a string of decimal digits writes. -/
def digits_value (l : List Char) : Int :=
  l.foldl (fun r c => 10 * r + c.toNat - ('0').toNat) 0

/-- A string of exactly `n` decimal digits. -/
def Digits (n : Nat) (l : List Char) : Prop :=
  l.length = n ∧ ∀ c ∈ l, is_digit c

/-- The fields of a B record, in the words of the specification: `hh mm ss` the
six digits of the time, `lat_deg lat_mmin lat_hemi` the 2 + 5 digits and the
hemisphere of the latitude, `lon_deg lon_mmin lon_hemi` the 3 + 5 digits and the
hemisphere of the longitude, `val` the validity letter, `alt` and `ele` the two
altitudes of five digits. -/
structure b_record_fields where
  hh : List Char
  mm : List Char
  ss : List Char
  lat_deg : List Char
  lat_mmin : List Char
  lat_hemi : Char
  lon_deg : List Char
  lon_mmin : List Char
  lon_hemi : Char
  val : Char
  alt : List Char
  ele : List Char

/-- The fields are well formed: digits in the stated numbers, hemispheres `N`
or `S` and `E` or `W`, validity `A` or `V`. -/
def b_record_fields.WellFormed (f : b_record_fields) : Prop :=
  Digits 2 f.hh ∧ Digits 2 f.mm ∧ Digits 2 f.ss ∧
  Digits 2 f.lat_deg ∧ Digits 5 f.lat_mmin ∧ (f.lat_hemi = 'N' ∨ f.lat_hemi = 'S') ∧
  Digits 3 f.lon_deg ∧ Digits 5 f.lon_mmin ∧ (f.lon_hemi = 'E' ∨ f.lon_hemi = 'W') ∧
  (f.val = 'A' ∨ f.val = 'V') ∧ Digits 5 f.alt ∧ Digits 5 f.ele

/-- The characters of the fields in the order of the record, after the `B`. -/
def b_record_fields.chars (f : b_record_fields) : List Char :=
  f.hh ++ f.mm ++ f.ss ++ f.lat_deg ++ f.lat_mmin ++ [f.lat_hemi] ++
    f.lon_deg ++ f.lon_mmin ++ [f.lon_hemi] ++ [f.val] ++ f.alt ++ f.ele

/-- The latitude of the fields in units of 1/60000 degree, negative in the
southern hemisphere. -/
def b_record_fields.lat (f : b_record_fields) : Int :=
  if f.lat_hemi = 'S' then -(60000 * digits_value f.lat_deg + digits_value f.lat_mmin)
  else 60000 * digits_value f.lat_deg + digits_value f.lat_mmin

/-- The longitude of the fields in units of 1/60000 degree, negative in the
western hemisphere. -/
def b_record_fields.lon (f : b_record_fields) : Int :=
  if f.lon_hemi = 'W' then -(60000 * digits_value f.lon_deg + digits_value f.lon_mmin)
  else 60000 * digits_value f.lon_deg + digits_value f.lon_mmin

/-- A line in the words of the specification: `B`, well-formed fields, then any
characters `body` up to a terminating CR LF; `rest` is what follows the line. -/
def BRecordLine (line : List Char) (f : b_record_fields) (body rest : List Char) : Prop :=
  f.WellFormed ∧
  line = 'B' :: (f.chars ++ body ++ [Char.ofNat 13, Char.ofNat 10] ++ rest)

/-- The characters before the line end hold no CR, and no NUL (which ends the
text). -/
def NoCr (body : List Char) : Prop :=
  ∀ c ∈ body, c ≠ Char.ofNat 0 ∧ c ≠ Char.ofNat 13

/-- A B record with one stray CR before its line end: the fix 12:34:56,
52°12.345'N 006°12.345'E, valid, altitudes 123 and 456, then the characters
`x`, CR, `y`, and the terminating CR LF. -/
def stray_cr_line : List Char :=
  String.toList "B1234565212345N00612345EA0012300456x" ++ [Char.ofNat 13] ++
    String.toList "y" ++ [Char.ofNat 13, Char.ofNat 10]

/-- The same B record without the stray CR. -/
def plain_b_line : List Char :=
  String.toList "B1234565212345N00612345EA0012300456xy" ++ [Char.ofNat 13, Char.ofNat 10]

/-- The fields of the two lines above. -/
def sample_fields : b_record_fields :=
  { hh := ['1', '2'], mm := ['3', '4'], ss := ['5', '6'],
    lat_deg := ['5', '2'], lat_mmin := ['1', '2', '3', '4', '5'], lat_hemi := 'N',
    lon_deg := ['0', '0', '6'], lon_mmin := ['1', '2', '3', '4', '5'], lon_hemi := 'E',
    val := 'A', alt := ['0', '0', '1', '2', '3'], ele := ['0', '0', '4', '5', '6'] }

/-- A stand-in for `mktime` that leaves the `struct tm` alone and returns the
seconds since midnight. -/
def seconds_of_day (tm : tm_t) : tm_t × Int :=
  (tm, 3600 * tm.tm_hour + 60 * tm.tm_min + tm.tm_sec)

/-- A `struct tm` and a fix, all fields zero. -/
def zero_tm : tm_t := ⟨0, 0, 0, 0, 0, 0, 0, 0, 0⟩

/-- A fix with all fields zero. -/
def zero_trkpt : trkpt_t := ⟨0, 0, 0, Char.ofNat 0, 0, 0⟩

/-! ## Arithmetic of the skip steps -/

theorem double_to_int_le {x : ℚ} (h : 0 < double_to_int x) : ((double_to_int x : Int) : ℚ) ≤ x := by
  unfold double_to_int at h ⊢
  split_ifs at h ⊢ with hx
  · exact Int.floor_le x
  · exfalso
    have : ⌈x⌉ ≤ 0 := Int.ceil_le.mpr (by push_cast; linarith)
    omega

theorem Preprocessed.delta_nonneg {t : track_t} (hp : Preprocessed t) (a b : Int)
    (ha : 0 ≤ a) (ha' : a < t.ntrkpts) (hb : 0 ≤ b) (hb' : b < t.ntrkpts) :
    0 ≤ t.delta a b := by
  have h1 := hp.delta_triangle a b a ha ha' hb hb' ha ha'
  rw [hp.delta_self a ha ha', hp.delta_symm b a hb hb' ha ha'] at h1
  linarith

theorem Preprocessed.max_delta_nonneg {t : track_t} (hp : Preprocessed t) (k : Int)
    (hk : 0 ≤ k) (hk' : k + 1 < t.ntrkpts) : 0 ≤ t.max_delta :=
  le_trans (hp.delta_nonneg k (k + 1) hk (by omega) (by omega) hk') (hp.max_step k hk hk')

/-- Between two fixes the cumulative arc length grows by at least their distance
and by at most `max_delta` per index. -/
theorem Preprocessed.sigma_bounds {t : track_t} (hp : Preprocessed t) (m : Nat) (j : Int)
    (hj : 0 ≤ j) (hk : j + m < t.ntrkpts) :
    t.delta j (j + m) ≤ t.sigma_delta (j + m) - t.sigma_delta j ∧
    t.sigma_delta (j + m) - t.sigma_delta j ≤ (m : ℚ) * t.max_delta := by
  induction m with
  | zero => simp [hp.delta_self j hj (by simpa using hk)]
  | succ m ih =>
    have hk1 : j + (m : Int) + 1 < t.ntrkpts := by push_cast at hk; omega
    obtain ⟨ih1, ih2⟩ := ih (by omega)
    have hs := hp.sigma_succ (j + m) (by omega) hk1
    have hm := hp.max_step (j + m) (by omega) hk1
    have ht := hp.delta_triangle j (j + m) (j + m + 1) hj (by omega) (by omega) (by omega)
      (by omega) hk1
    have e : j + ((m + 1 : Nat) : Int) = j + m + 1 := by push_cast; ring
    rw [e, hs]
    constructor
    · linarith
    · push_cast; linarith

theorem Preprocessed.delta_le_sigma {t : track_t} (hp : Preprocessed t) (j k : Int)
    (hj : 0 ≤ j) (hjk : j ≤ k) (hk : k < t.ntrkpts) :
    t.delta j k ≤ t.sigma_delta k - t.sigma_delta j := by
  have h := (hp.sigma_bounds (k - j).toNat j hj (by omega)).1
  have e : j + ((k - j).toNat : Int) = k := by omega
  rwa [e] at h

theorem Preprocessed.sigma_le_steps {t : track_t} (hp : Preprocessed t) (j k : Int)
    (hj : 0 ≤ j) (hjk : j ≤ k) (hk : k < t.ntrkpts) :
    t.sigma_delta k - t.sigma_delta j ≤ ((k - j : Int) : ℚ) * t.max_delta := by
  have h := (hp.sigma_bounds (k - j).toNat j hj (by omega)).2
  have e : j + ((k - j).toNat : Int) = k := by omega
  have e2 : (((k - j).toNat : Nat) : ℚ) = ((k - j : Int) : ℚ) := by
    have : (((k - j).toNat : Nat) : Int) = k - j := by omega
    exact_mod_cast congrArg (fun z : Int => (z : ℚ)) this
  rwa [e, e2] at h

theorem track_forward_gt (t : track_t) (i : Int) (d : ℚ) : i < track_forward t i d := by
  unfold track_forward
  simp only
  split_ifs with h <;> omega

theorem track_backward_lt (t : track_t) (i : Int) (d : ℚ) : track_backward t i d < i := by
  unfold track_backward
  simp only
  split_ifs with h <;> omega

/-- Every index that `track_forward` jumps over is less than `d` of arc length
away from `i`. -/
theorem track_forward_skip {t : track_t} (hm : 0 ≤ t.max_delta) (i k : Int) (d : ℚ)
    (hik : i < k) (hk : k < track_forward t i d) :
    ((k - i : Int) : ℚ) * t.max_delta < d := by
  unfold track_forward at hk
  simp only at hk
  split_ifs at hk with h
  · have h1 := double_to_int_le h
    rcases hm.eq_or_lt with h0 | h0
    · rw [← h0] at h; simp [double_to_int] at h
    · have h2 : ((double_to_int (d / t.max_delta) : Int) : ℚ) * t.max_delta ≤ d := by
        rwa [le_div_iff₀ h0] at h1
      have h3 : ((k - i : Int) : ℚ) < ((double_to_int (d / t.max_delta) : Int) : ℚ) := by
        exact_mod_cast (by omega : k - i < double_to_int (d / t.max_delta))
      nlinarith
  · omega

theorem track_backward_skip {t : track_t} (hm : 0 ≤ t.max_delta) (i k : Int) (d : ℚ)
    (hik : k < i) (hk : track_backward t i d < k) :
    ((i - k : Int) : ℚ) * t.max_delta < d := by
  unfold track_backward at hk
  simp only at hk
  split_ifs at hk with h
  · have h1 := double_to_int_le h
    rcases hm.eq_or_lt with h0 | h0
    · rw [← h0] at h; simp [double_to_int] at h
    · have h2 : ((double_to_int (d / t.max_delta) : Int) : ℚ) * t.max_delta ≤ d := by
        rwa [le_div_iff₀ h0] at h1
      have h3 : ((i - k : Int) : ℚ) < ((double_to_int (d / t.max_delta) : Int) : ℚ) := by
        exact_mod_cast (by omega : i - k < double_to_int (d / t.max_delta))
      nlinarith
  · omega

/-! ## `track_fast_forward` and `track_fast_backward` -/

/-- Indexes jumped over by one `track_forward` from an in-range `i` stay below
the target `sigma_delta i + d`. -/
theorem forward_below_target {t : track_t} (hp : Preprocessed t) (i k : Int) (d : ℚ)
    (hi : 0 ≤ i) (hik : i < k) (hk : k < track_forward t i d) (hkn : k < t.ntrkpts) :
    t.sigma_delta k < t.sigma_delta i + d := by
  have hm : 0 ≤ t.max_delta := hp.max_delta_nonneg i hi (by omega)
  have h1 := track_forward_skip hm i k d hik hk
  have h2 := hp.sigma_le_steps i k hi (by omega) hkn
  linarith

theorem backward_above_target {t : track_t} (hp : Preprocessed t) (i k : Int) (d : ℚ)
    (hi : i < t.ntrkpts) (hik : k < i) (hk : track_backward t i d < k) (hk0 : 0 ≤ k) :
    t.sigma_delta i - d < t.sigma_delta k := by
  have hm : 0 ≤ t.max_delta := hp.max_delta_nonneg k hk0 (by omega)
  have h1 := track_backward_skip hm i k d hik hk
  have h2 := hp.sigma_le_steps k i hk0 (by omega) hi
  linarith

theorem track_fast_forward_loop_spec {t : track_t} (hp : Preprocessed t) (j : Int)
    (target : ℚ) (hj : 0 ≤ j) :
    ∀ (fuel : Nat) (i : Int), j < i → i < t.ntrkpts → (t.ntrkpts - i).toNat ≤ fuel →
      (∀ k, j < k → k < i → t.sigma_delta k < target) →
      i ≤ track_fast_forward_loop t target fuel i ∧
      (∀ k, j < k → k < track_fast_forward_loop t target fuel i → k < t.ntrkpts →
        t.sigma_delta k < target) ∧
      (track_fast_forward_loop t target fuel i < t.ntrkpts →
        target ≤ t.sigma_delta (track_fast_forward_loop t target fuel i)) := by
  intro fuel
  induction fuel with
  | zero => intro i _ hin hf; omega
  | succ fuel ih =>
    intro i hji hin hf hbelow
    unfold track_fast_forward_loop
    simp only
    split_ifs with herr hge
    · exact ⟨le_refl _, fun k h1 h2 _ => hbelow k h1 h2, fun _ => by linarith⟩
    · have hgt := track_forward_gt t i (target - t.sigma_delta i)
      refine ⟨by omega, fun k h1 h2 h3 => ?_, fun h => by omega⟩
      rcases lt_trichotomy k i with hki | hki | hki
      · exact hbelow k h1 hki
      · subst hki; linarith
      · have := forward_below_target hp i k _ (by omega) hki h2 h3
        linarith
    · have hgt := track_forward_gt t i (target - t.sigma_delta i)
      have hbelow' : ∀ k, j < k → k < track_forward t i (target - t.sigma_delta i) →
          t.sigma_delta k < target := by
        intro k h1 h2
        rcases lt_trichotomy k i with hki | hki | hki
        · exact hbelow k h1 hki
        · subst hki; linarith
        · have := forward_below_target hp i k _ (by omega) hki h2 (by omega)
          linarith
      obtain ⟨r1, r2, r3⟩ := ih _ (by omega) (by omega) (by omega) hbelow'
      exact ⟨by omega, r2, r3⟩

/-- The function `track_fast_forward` from an in-range index `j`: the result is beyond `j`,
every fix jumped over has cumulative arc length below `sigma_delta j + d`, and
an in-range result has reached that target. -/
theorem track_fast_forward_spec {t : track_t} (hp : Preprocessed t) (j : Int) (d : ℚ)
    (hj : 0 ≤ j) :
    j < track_fast_forward t j d ∧
    (∀ k, j < k → k < track_fast_forward t j d → k < t.ntrkpts →
      t.sigma_delta k < t.sigma_delta j + d) ∧
    (track_fast_forward t j d < t.ntrkpts →
      t.sigma_delta j + d ≤ t.sigma_delta (track_fast_forward t j d)) := by
  have hgt := track_forward_gt t j d
  unfold track_fast_forward
  simp only
  split_ifs with hge
  · exact ⟨hgt, fun k h1 h2 h3 => forward_below_target hp j k d hj h1 h2 h3, fun h => by omega⟩
  · obtain ⟨r1, r2, r3⟩ := track_fast_forward_loop_spec hp j (t.sigma_delta j + d) hj
      (t.ntrkpts - track_forward t j d).toNat (track_forward t j d) hgt (by omega) (le_refl _)
      (fun k h1 h2 => forward_below_target hp j k d hj h1 h2 (by omega))
    exact ⟨by omega, r2, r3⟩

theorem track_fast_backward_loop_spec {t : track_t} (hp : Preprocessed t) (j : Int)
    (target : ℚ) (hj : j < t.ntrkpts) :
    ∀ (fuel : Nat) (i : Int), i < j → 0 ≤ i → (i + 1).toNat ≤ fuel →
      (∀ k, i < k → k < j → target < t.sigma_delta k) →
      track_fast_backward_loop t target fuel i ≤ i ∧
      (∀ k, track_fast_backward_loop t target fuel i < k → k < j → 0 ≤ k →
        target < t.sigma_delta k) ∧
      (0 ≤ track_fast_backward_loop t target fuel i →
        t.sigma_delta (track_fast_backward_loop t target fuel i) ≤ target) := by
  intro fuel
  induction fuel with
  | zero => intro i _ hin hf; omega
  | succ fuel ih =>
    intro i hji hin hf habove
    unfold track_fast_backward_loop
    simp only
    split_ifs with herr hge
    · exact ⟨le_refl _, fun k h1 h2 _ => habove k h1 h2, fun _ => by linarith⟩
    · have hgt := track_backward_lt t i (t.sigma_delta i - target)
      refine ⟨by omega, fun k h1 h2 h3 => ?_, fun h => by omega⟩
      rcases lt_trichotomy k i with hki | hki | hki
      · have := backward_above_target hp i k _ (by omega) hki h1 h3
        linarith
      · subst hki; linarith
      · exact habove k hki h2
    · have hgt := track_backward_lt t i (t.sigma_delta i - target)
      have habove' : ∀ k, track_backward t i (t.sigma_delta i - target) < k → k < j →
          target < t.sigma_delta k := by
        intro k h1 h2
        rcases lt_trichotomy k i with hki | hki | hki
        · have := backward_above_target hp i k _ (by omega) hki h1 (by omega)
          linarith
        · subst hki; linarith
        · exact habove k hki h2
      obtain ⟨r1, r2, r3⟩ := ih _ (by omega) (by omega) (by omega) habove'
      exact ⟨by omega, r2, r3⟩

/-- The function `track_fast_backward` from an in-range index `j`: the result is before `j`,
every fix jumped over has cumulative arc length above `sigma_delta j - d`, and a
non-negative result has reached that target. -/
theorem track_fast_backward_spec {t : track_t} (hp : Preprocessed t) (j : Int) (d : ℚ)
    (hj : j < t.ntrkpts) :
    track_fast_backward t j d < j ∧
    (∀ k, track_fast_backward t j d < k → k < j → 0 ≤ k →
      t.sigma_delta j - d < t.sigma_delta k) ∧
    (0 ≤ track_fast_backward t j d →
      t.sigma_delta (track_fast_backward t j d) ≤ t.sigma_delta j - d) := by
  have hgt := track_backward_lt t j d
  unfold track_fast_backward
  simp only
  split_ifs with hge
  · exact ⟨hgt, fun k h1 h2 h3 => backward_above_target hp j k d hj h2 h1 h3, fun h => by omega⟩
  · obtain ⟨r1, r2, r3⟩ := track_fast_backward_loop_spec hp j (t.sigma_delta j - d) hj
      (track_backward t j d + 1).toNat (track_backward t j d) hgt (by omega) (le_refl _)
      (fun k h1 h2 => backward_above_target hp j k d hj h2 h1 (by omega))
    exact ⟨by omega, r2, r3⟩

/-! ## The maximising scan shared by the searches -/

theorem ScanInv.scan_bound_ge {σ : Type} {f : Int → ℚ} {upd : Int → ℚ → σ} {begin_ end_ : Int}
    {b : ℚ} {s0 : σ} {j : Int} {bound : ℚ} {s : σ}
    (h : ScanInv f upd begin_ end_ b s0 j bound s) : b ≤ bound := by
  rcases h.2 with ⟨h1, _⟩ | ⟨r, _, _, _, _, h5, h6, _⟩
  · exact h1.ge
  · linarith

theorem ScanInv.finish {σ : Type} {f : Int → ℚ} {upd : Int → ℚ → σ} {begin_ end_ : Int}
    {b : ℚ} {s0 : σ} {j : Int} {bound : ℚ} {s : σ}
    (h : ScanInv f upd begin_ end_ b s0 j bound s) (hj : end_ ≤ j) :
    ScanInv f upd begin_ end_ b s0 end_ bound s := by
  refine ⟨fun k h1 h2 _ => h.1 k h1 (by omega) h2, ?_⟩
  rcases h.2 with h1 | ⟨r, h1, h2, h3, h4⟩
  · exact Or.inl h1
  · exact Or.inr ⟨r, h1, h3, h3, h4⟩

/-- Soundness and completeness of the maximising scan: if `f` grows by at most
`L` per unit of arc length and `L * amt bound d ≤ bound - d`, the scan ends in a
state that has dealt with the whole range. -/
theorem scan_max_spec {σ : Type} {t : track_t} (hp : Preprocessed t) (f : Int → ℚ)
    (amt : ℚ → ℚ → ℚ) (upd : Int → ℚ → σ) (L : ℚ) (begin_ end_ : Int)
    (hb : 0 ≤ begin_) (he : end_ ≤ t.ntrkpts) (hL : 0 ≤ L)
    (hamt : ∀ b d, L * amt b d ≤ b - d)
    (hlip : ∀ j k, begin_ ≤ j → j < k → k < end_ →
      f k - f j ≤ L * (t.sigma_delta k - t.sigma_delta j))
    (b : ℚ) (s0 : σ) :
    ∀ (fuel : Nat) (j : Int) (bound : ℚ) (s : σ), begin_ ≤ j → (end_ - j).toNat ≤ fuel →
      ScanInv f upd begin_ end_ b s0 j bound s →
      ScanInv f upd begin_ end_ b s0 end_
        (scan_max t f amt upd end_ fuel j bound s).1
        (scan_max t f amt upd end_ fuel j bound s).2 := by
  intro fuel
  induction fuel with
  | zero =>
    intro j bound s _ hf hinv
    exact hinv.finish (by omega)
  | succ fuel ih =>
    intro j bound s hbj hf hinv
    unfold scan_max
    split_ifs with hje hgt
    · apply ih (j + 1) (f j) (upd j (f j)) (by omega) (by omega)
      have hbb := hinv.scan_bound_ge
      refine ⟨fun k h1 h2 h3 => ?_, Or.inr ⟨j, hbj, by omega, hje, rfl, rfl, by linarith, ?_⟩⟩
      · rcases (by omega : k < j ∨ k = j) with h | h
        · exact le_of_lt (lt_of_le_of_lt (hinv.1 k h1 h h3) hgt)
        · subst h; exact le_refl _
      · intro k h1 h2
        exact lt_of_le_of_lt (hinv.1 k h1 h2 (by omega)) hgt
    · obtain ⟨r1, r2, _⟩ := track_fast_forward_spec hp j (amt bound (f j)) (by omega)
      apply ih _ bound s (by omega) (by omega)
      refine ⟨fun k h1 h2 h3 => ?_, ?_⟩
      · rcases lt_trichotomy k j with h | h | h
        · exact hinv.1 k h1 h h3
        · subst h; exact not_lt.mp hgt
        · have hs := r2 k h h2 (by omega)
          have hl := hlip j k hbj h h3
          have ha := hamt bound (f j)
          have : L * (t.sigma_delta k - t.sigma_delta j) ≤ L * amt bound (f j) :=
            mul_le_mul_of_nonneg_left (by linarith) hL
          linarith
      · rcases hinv.2 with h1 | ⟨r, h1, h2, h3, h4⟩
        · exact Or.inl h1
        · exact Or.inr ⟨r, h1, by omega, h3, h4⟩
    · exact hinv.finish (by omega)

theorem ScanInv.init {σ : Type} (f : Int → ℚ) (upd : Int → ℚ → σ) (begin_ end_ : Int)
    (b : ℚ) (s0 : σ) : ScanInv f upd begin_ end_ b s0 begin_ b s0 :=
  ⟨fun k h1 h2 _ => by omega, Or.inl ⟨rfl, rfl⟩⟩

/-! ## `track_furthest_from` -/

theorem track_furthest_from_loop_eq (t : track_t) (i end_ : Int) :
    ∀ (fuel : Nat) (j : Int) (bound : ℚ) (result : Int) (out : ℚ),
      track_furthest_from_loop t i end_ fuel j bound result out =
      (scan_max t (fun j => track_delta t i j) (fun b d => b - d) (fun j d => (j, d)) end_
        fuel j bound (result, out)).2 := by
  intro fuel
  induction fuel with
  | zero => intro j bound result out; rfl
  | succ fuel ih =>
    intro j bound result out
    unfold track_furthest_from_loop scan_max
    simp only
    split_ifs <;> first | rfl | apply ih

/-- The distance from a fix `i` grows by at most the arc length travelled. -/
theorem Preprocessed.delta_lipschitz {t : track_t} (hp : Preprocessed t) (i j k : Int)
    (hi : 0 ≤ i) (hi' : i < t.ntrkpts) (hj : 0 ≤ j) (hjk : j ≤ k) (hk : k < t.ntrkpts) :
    t.delta i k - t.delta i j ≤ t.sigma_delta k - t.sigma_delta j := by
  have h1 := hp.delta_triangle i j k hi hi' hj (by omega) (by omega) hk
  have h2 := hp.delta_le_sigma j k hj hjk hk
  linarith

/-- The state in which `track_furthest_from` ends, as a scan invariant. -/
theorem track_furthest_from_inv {t : track_t} (hp : Preprocessed t) (i begin_ end_ : Int)
    (hi : 0 ≤ i) (hi' : i < t.ntrkpts) (hb : 0 ≤ begin_) (he : end_ ≤ t.ntrkpts)
    (b out : ℚ) :
    ∃ B, ScanInv (fun j => t.delta i j) (fun j d => (j, d)) begin_ end_ b (-1, out) end_ B
      (track_furthest_from t i begin_ end_ b out) := by
  unfold track_furthest_from
  rw [track_furthest_from_loop_eq]
  refine ⟨_, scan_max_spec hp (fun j => t.delta i j) (fun b d => b - d) (fun j d => (j, d)) 1
    begin_ end_ hb he (by norm_num) (fun b d => by simp) ?_ b (-1, out)
    (end_ - begin_).toNat begin_ b (-1, out) (le_refl _) (le_refl _) (ScanInv.init _ _ _ _ _ _)⟩
  intro j k h1 h2 h3
  have := hp.delta_lipschitz i j k hi hi' (by omega) (by omega) (by omega)
  simpa using this

/-! ## `track_initialize`: cumulative arc length and largest step -/

theorem store_same {α : Type} (a : Int → α) (i : Int) (v : α) : store a i v i = v := by
  simp [store]

theorem store_other {α : Type} (a : Int → α) (i k : Int) (v : α) (h : k ≠ i) :
    store a i v k = a k := by
  simp [store, h]

theorem le_ite_gt (d m : ℚ) :
    m ≤ (if d > m then d else m) ∧ d ≤ (if d > m then d else m) := by
  split_ifs with h
  · exact ⟨le_of_lt h, le_refl _⟩
  · exact ⟨le_refl _, not_lt.mp h⟩

theorem track_initialize_sigma_loop_spec (t : track_t) :
    ∀ (fuel : Nat) (i : Int) (sigma : Int → ℚ) (m : ℚ), 1 ≤ i →
      (t.ntrkpts - i).toNat ≤ fuel →
      (∀ k, 0 ≤ k → k + 1 < i →
        sigma (k + 1) = sigma k + t.delta k (k + 1) ∧ t.delta k (k + 1) ≤ m) →
      (∀ k, 0 ≤ k → k + 1 < t.ntrkpts →
        (track_initialize_sigma_loop t fuel i sigma m).1 (k + 1) =
          (track_initialize_sigma_loop t fuel i sigma m).1 k + t.delta k (k + 1) ∧
        t.delta k (k + 1) ≤ (track_initialize_sigma_loop t fuel i sigma m).2) ∧
      (track_initialize_sigma_loop t fuel i sigma m).1 0 = sigma 0 ∧
      m ≤ (track_initialize_sigma_loop t fuel i sigma m).2 := by
  intro fuel
  induction fuel with
  | zero =>
    intro i sigma m _ hf hinv
    exact ⟨fun k h1 h2 => hinv k h1 (by omega), rfl, le_refl _⟩
  | succ fuel ih =>
    intro i sigma m hi hf hinv
    unfold track_initialize_sigma_loop
    simp only [track_delta]
    by_cases hin : i < t.ntrkpts
    · rw [if_pos hin]
      obtain ⟨hm, hd⟩ := le_ite_gt (t.delta (i - 1) i) m
      obtain ⟨r1, r2, r3⟩ := ih (i + 1) (store sigma i (sigma (i - 1) + t.delta (i - 1) i))
        (if t.delta (i - 1) i > m then t.delta (i - 1) i else m) (by omega) (by omega) (by
          intro k h1 h2
          rcases (by omega : k + 1 < i ∨ k + 1 = i) with h | h
          · rw [store_other _ _ _ _ (by omega), store_other _ _ _ _ (by omega)]
            exact ⟨(hinv k h1 h).1, le_trans (hinv k h1 h).2 hm⟩
          · have hk : k = i - 1 := by omega
            subst hk
            rw [show i - 1 + 1 = i by ring, store_same, store_other _ _ _ _ (by omega)]
            exact ⟨rfl, hd⟩)
      refine ⟨r1, ?_, le_trans hm r3⟩
      rw [r2, store_other _ _ _ _ (by omega)]
    · rw [if_neg hin]
      exact ⟨fun k h1 h2 => hinv k h1 (by omega), rfl, le_refl _⟩

@[simp] theorem track_initialize_ntrkpts (t : track_t) :
    ( track_initialize t).ntrkpts = t.ntrkpts := rfl

@[simp] theorem track_initialize_delta (t : track_t) :
    ( track_initialize t).delta = t.delta := rfl

/-- After `track_initialize` on fixes whose distance is a (pseudo)metric, the
track is preprocessed. -/
theorem track_initialize_preprocessed (t : track_t)
    (hself : ∀ a, 0 ≤ a → a < t.ntrkpts → t.delta a a = 0)
    (hsymm : ∀ a b, 0 ≤ a → a < t.ntrkpts → 0 ≤ b → b < t.ntrkpts → t.delta a b = t.delta b a)
    (htri : ∀ a b c, 0 ≤ a → a < t.ntrkpts → 0 ≤ b → b < t.ntrkpts →
      0 ≤ c → c < t.ntrkpts → t.delta a c ≤ t.delta a b + t.delta b c) :
    Preprocessed ( track_initialize t) := by
  obtain ⟨r1, _, _⟩ := track_initialize_sigma_loop_spec t (t.ntrkpts - 1).toNat 1
    (store (alloc 0) 0 0) 0 (le_refl _) (le_refl _) (fun k h1 h2 => by omega)
  exact
    { delta_self := hself
      delta_symm := hsymm
      delta_triangle := htri
      sigma_succ := fun k h1 h2 => (r1 k h1 h2).1
      max_step := fun k h1 h2 => (r1 k h1 h2).2 }

@[simp] theorem track_compute_circuit_tables_ntrkpts (t : track_t) (e : ℚ) :
    (track_compute_circuit_tables t e).ntrkpts = t.ntrkpts := rfl

@[simp] theorem track_compute_circuit_tables_delta (t : track_t) (e : ℚ) :
    (track_compute_circuit_tables t e).delta = t.delta := rfl

@[simp] theorem track_compute_circuit_tables_sigma_delta (t : track_t) (e : ℚ) :
    (track_compute_circuit_tables t e).sigma_delta = t.sigma_delta := rfl

@[simp] theorem track_compute_circuit_tables_max_delta (t : track_t) (e : ℚ) :
    (track_compute_circuit_tables t e).max_delta = t.max_delta := rfl

/-- Computing the circuit tables keeps a track preprocessed. -/
theorem Preprocessed.circuit_tables {t : track_t} (hp : Preprocessed t) (e : ℚ) :
    Preprocessed (track_compute_circuit_tables t e) :=
  { delta_self := hp.delta_self
    delta_symm := hp.delta_symm
    delta_triangle := hp.delta_triangle
    sigma_succ := hp.sigma_succ
    max_step := hp.max_step }

/-- A track of fixes in the plane is preprocessed once initialised: the taxicab
distance is a metric. -/
theorem plane_track_preprocessed (pts : List (ℚ × ℚ)) :
    Preprocessed ( track_initialize (plane_track pts)) := by
  apply track_initialize_preprocessed
  · intro a _ _
    simp [plane_track]
  · intro a b _ _ _ _
    simp only [plane_track]
    rw [abs_sub_comm, abs_sub_comm (pts.getD a.toNat (0, 0)).2]
  · intro a b c _ _ _ _ _ _
    simp only [plane_track]
    have h1 := abs_sub_le (pts.getD a.toNat (0, 0)).1 (pts.getD b.toNat (0, 0)).1
      (pts.getD c.toNat (0, 0)).1
    have h2 := abs_sub_le (pts.getD a.toNat (0, 0)).2 (pts.getD b.toNat (0, 0)).2
      (pts.getD c.toNat (0, 0)).2
    linarith

/-- C8: on a preprocessed track (`delta` a metric, `sigma_delta` the cumulative
sum of the adjacent distances, `max_delta` above every adjacent distance), for a
fix `i`, a range `[begin_, end_)` with `0 ≤ begin_` and `end_ ≤ ntrkpts` and an
initial bound `b`,
`track_furthest_from` returns `-1` exactly when no `j` of the range has
`delta i j > b`; otherwise it returns the smallest index of the range at which
`delta i j` is greatest over the range, and `*out` holds that greatest distance. -/
theorem C8_track_furthest_from_argmax (t : track_t) (hp : Preprocessed t)
    (i begin_ end_ : Int) (hi : 0 ≤ i) (hi' : i < t.ntrkpts) (hb : 0 ≤ begin_)
    (he : end_ ≤ t.ntrkpts) (b out : ℚ) :
    ((track_furthest_from t i begin_ end_ b out).1 = -1 ↔
      ∀ j, begin_ ≤ j → j < end_ → track_delta t i j ≤ b) ∧
    ((track_furthest_from t i begin_ end_ b out).1 ≠ -1 →
      begin_ ≤ (track_furthest_from t i begin_ end_ b out).1 ∧
      (track_furthest_from t i begin_ end_ b out).1 < end_ ∧
      (∀ j, begin_ ≤ j → j < end_ →
        track_delta t i j ≤ track_delta t i (track_furthest_from t i begin_ end_ b out).1) ∧
      (∀ j, begin_ ≤ j → j < (track_furthest_from t i begin_ end_ b out).1 →
        track_delta t i j < track_delta t i (track_furthest_from t i begin_ end_ b out).1) ∧
      (track_furthest_from t i begin_ end_ b out).2 =
        track_delta t i (track_furthest_from t i begin_ end_ b out).1) := by
  obtain ⟨B, hall, hcase⟩ := track_furthest_from_inv hp i begin_ end_ hi hi' hb he b out
  simp only [track_delta]
  rcases hcase with ⟨h1, h2⟩ | ⟨r, h1, _, h3, h4, h5, h6, h7⟩
  · rw [h2]
    refine ⟨⟨fun _ j hj1 hj2 => ?_, fun _ => rfl⟩, fun h => absurd rfl h⟩
    have := hall j hj1 hj2 hj2
    rw [h1] at this
    exact this
  · rw [h4]
    refine ⟨⟨fun h => ?_, fun h => ?_⟩, fun _ => ⟨h1, h3, fun j hj1 hj2 => ?_, h7, rfl⟩⟩
    · simp only at h; omega
    · exact absurd (h r h1 h3) (not_le.mpr h6)
    · have := hall j hj1 hj2 hj2
      rw [h5] at this
      exact this

/-- C8 applied to the fix 4 of the line track over the range `[0, 4)`. -/
theorem C8_track_furthest_from_argmax_witness :
    (Preprocessed line_track_09 ∧ (0 : Int) ≤ 4 ∧ (4 : Int) < line_track_09.ntrkpts ∧
      (0 : Int) ≤ 0 ∧ (4 : Int) ≤ line_track_09.ntrkpts) ∧
    (((track_furthest_from line_track_09 4 0 4 0 0).1 = -1 ↔
      ∀ j, (0 : Int) ≤ j → j < 4 → track_delta line_track_09 4 j ≤ 0) ∧
    ((track_furthest_from line_track_09 4 0 4 0 0).1 ≠ -1 →
      0 ≤ (track_furthest_from line_track_09 4 0 4 0 0).1 ∧
      (track_furthest_from line_track_09 4 0 4 0 0).1 < 4 ∧
      (∀ j, (0 : Int) ≤ j → j < 4 →
        track_delta line_track_09 4 j ≤
          track_delta line_track_09 4 (track_furthest_from line_track_09 4 0 4 0 0).1) ∧
      (∀ j, (0 : Int) ≤ j → j < (track_furthest_from line_track_09 4 0 4 0 0).1 →
        track_delta line_track_09 4 j <
          track_delta line_track_09 4 (track_furthest_from line_track_09 4 0 4 0 0).1) ∧
      (track_furthest_from line_track_09 4 0 4 0 0).2 =
        track_delta line_track_09 4 (track_furthest_from line_track_09 4 0 4 0 0).1)) :=
  ⟨⟨plane_track_preprocessed _, by decide, by decide, by decide, by decide⟩,
    C8_track_furthest_from_argmax line_track_09 (plane_track_preprocessed _) 4 0 4
      (by decide) (by decide) (by decide) (by decide) 0 0⟩

/-! ## `track_open_distance` -/

theorem track_open_distance_loop_spec {t : track_t} (hp : Preprocessed t) (b : ℚ) :
    ∀ (fuel : Nat) (start : Int) (bound : ℚ) (indexes : List Int), 0 ≤ start →
      (t.ntrkpts - 1 - start).toNat ≤ fuel → OpenInv t b start bound indexes →
      OpenInv t b (t.ntrkpts - 1) (track_open_distance_loop t fuel start bound indexes).1
        (track_open_distance_loop t fuel start bound indexes).2 := by
  intro fuel
  induction fuel with
  | zero =>
    intro start bound indexes _ hf hinv
    exact ⟨fun s f h1 h2 h3 h4 => hinv.1 s f h1 (by omega) h3 h4, hinv.2⟩
  | succ fuel ih =>
    intro start bound indexes hs hf hinv
    unfold track_open_distance_loop
    by_cases hlt : start < t.ntrkpts - 1
    · rw [if_pos hlt]
      simp only
      apply ih (start + 1) _ _ (by omega) (by omega)
      obtain ⟨B, hall, hcase⟩ := track_furthest_from_inv hp start (start + 1) t.ntrkpts hs
        (by omega) (by omega) (le_refl _) bound bound
      have hbb : b ≤ bound := by
        rcases hinv.2 with ⟨h, _⟩ | ⟨_, _, _, _, _, _, _, h⟩
        · exact h.ge
        · exact h.le
      rcases hcase with ⟨h1, h2⟩ | ⟨r, h1, _, h3, h4, h5, h6, _⟩
      · rw [h2]
        simp only [ne_eq, not_true_eq_false, if_false]
        refine ⟨fun s f hs1 hs2 hs3 hs4 => ?_, hinv.2⟩
        rcases (by omega : s < start ∨ s = start) with h | h
        · exact hinv.1 s f hs1 h hs3 hs4
        · subst h
          have := hall f (by omega) hs4 hs4
          rw [h1] at this
          exact this
      · rw [h4]
        simp only
        have hr : r ≠ -1 := by omega
        rw [if_pos hr]
        refine ⟨fun s f hs1 hs2 hs3 hs4 => ?_,
          Or.inr ⟨start, r, hs, by omega, h3, rfl, rfl, by linarith⟩⟩
        rcases (by omega : s < start ∨ s = start) with h | h
        · exact le_trans (hinv.1 s f hs1 h hs3 hs4) (le_of_lt h6)
        · subst h
          have := hall f (by omega) hs4 hs4
          rw [h5] at this
          exact this
    · rw [if_neg hlt]
      exact ⟨fun s f h1 h2 h3 h4 => hinv.1 s f h1 (by omega) h3 h4, hinv.2⟩

/-- C1: on a preprocessed track and for every initial bound `b`,
`track_open_distance` returns the greater of `b` and the greatest distance `M`
between two fixes `s < f`: the result is at least `b` and at least every such
distance; when some pair exceeds `b` the two indexes written are a pair `s < f`
whose distance is the result; when none does (also when there are fewer than two
fixes) the result is `b` and both indexes are `-1`. -/
theorem C1_track_open_distance_max (t : track_t) (hp : Preprocessed t) (b : ℚ) :
    b ≤ (track_open_distance t b).1 ∧
    (∀ s f, 0 ≤ s → s < f → f < t.ntrkpts →
      track_delta t s f ≤ (track_open_distance t b).1) ∧
    ((∃ s f, 0 ≤ s ∧ s < f ∧ f < t.ntrkpts ∧ b < track_delta t s f) →
      ∃ s f, 0 ≤ s ∧ s < f ∧ f < t.ntrkpts ∧ (track_open_distance t b).2 = [s, f] ∧
        track_delta t s f = (track_open_distance t b).1) ∧
    ((∀ s f, 0 ≤ s → s < f → f < t.ntrkpts → track_delta t s f ≤ b) →
      (track_open_distance t b).1 = b ∧ (track_open_distance t b).2 = [-1, -1]) := by
  have hinv : OpenInv t b (t.ntrkpts - 1) (track_open_distance t b).1
      (track_open_distance t b).2 :=
    track_open_distance_loop_spec hp b (t.ntrkpts - 1).toNat 0 b [-1, -1]
      (le_refl _) (by omega) ⟨fun s f h1 h2 => by omega, Or.inl ⟨rfl, rfl⟩⟩
  have hall : ∀ s f, 0 ≤ s → s < f → f < t.ntrkpts →
      t.delta s f ≤ (track_open_distance t b).1 :=
    fun s f h1 h2 h3 => hinv.1 s f h1 (by omega) h2 h3
  simp only [track_delta]
  refine ⟨?_, hall, ?_, ?_⟩
  · rcases hinv.2 with ⟨h, _⟩ | ⟨_, _, _, _, _, _, _, h⟩
    · exact h.ge
    · exact h.le
  · rintro ⟨s, f, h1, h2, h3, h4⟩
    rcases hinv.2 with ⟨h, _⟩ | ⟨s', f', g1, g2, g3, g4, g5, _⟩
    · have := hall s f h1 h2 h3
      exact absurd (lt_of_lt_of_le h4 this) (by rw [h]; exact lt_irrefl _)
    · exact ⟨s', f', g1, g2, g3, g4, g5⟩
  · intro hle
    rcases hinv.2 with h | ⟨s', f', g1, g2, g3, _, g5, g6⟩
    · exact h
    · have := hle s' f' g1 g2 g3
      rw [g5] at this
      exact absurd g6 (not_lt.mpr this)

/-- C1 applied to the five-fix line track with initial bound 0. -/
theorem C1_track_open_distance_max_witness :
    Preprocessed line_track_09 ∧
    ((0 : ℚ) ≤ (track_open_distance line_track_09 0).1 ∧
    (∀ s f, 0 ≤ s → s < f → f < line_track_09.ntrkpts →
      track_delta line_track_09 s f ≤ (track_open_distance line_track_09 0).1) ∧
    ((∃ s f, 0 ≤ s ∧ s < f ∧ f < line_track_09.ntrkpts ∧
        0 < track_delta line_track_09 s f) →
      ∃ s f, 0 ≤ s ∧ s < f ∧ f < line_track_09.ntrkpts ∧
        (track_open_distance line_track_09 0).2 = [s, f] ∧
        track_delta line_track_09 s f = (track_open_distance line_track_09 0).1) ∧
    ((∀ s f, 0 ≤ s → s < f → f < line_track_09.ntrkpts →
        track_delta line_track_09 s f ≤ 0) →
      (track_open_distance line_track_09 0).1 = 0 ∧
        (track_open_distance line_track_09 0).2 = [-1, -1])) :=
  ⟨plane_track_preprocessed _,
    C1_track_open_distance_max line_track_09 (plane_track_preprocessed _) 0⟩

/-! ## `track_open_distance1` -/

/-- Moving the fix forward raises the greatest distance to an earlier fix by at
most the arc length travelled. -/
theorem TablesExact.before_lipschitz {t : track_t} (hp : Preprocessed t) (ht : TablesExact t)
    (j k : Int) (hj : 0 ≤ j) (hjk : j ≤ k) (hk : k < t.ntrkpts) :
    (t.before k).distance - (t.before j).distance ≤ t.sigma_delta k - t.sigma_delta j := by
  obtain ⟨m, hm0, hmk, hm⟩ := ht.before_attained k (by omega) hk
  rw [← hm]
  rcases le_or_lt m j with hmj | hmj
  · have h1 := hp.delta_triangle m j k hm0 (by omega) hj (by omega) (by omega) hk
    have h2 := hp.delta_le_sigma j k hj hjk hk
    have h3 := ht.before_ge j m hm0 hmj (by omega)
    linarith
  · have h1 := hp.delta_le_sigma m k hm0 hmk hk
    have h2 := hp.delta_le_sigma j m hj (by omega) (by omega)
    have h3 := hp.delta_nonneg j m hj (by omega) (by omega) (by omega)
    have h4 := ht.before_ge j j hj (le_refl _) (by omega)
    rw [hp.delta_self j hj (by omega)] at h4
    linarith

/-- Moving the fix forward raises the greatest distance to a later fix by at
most the arc length travelled. -/
theorem TablesExact.after_lipschitz {t : track_t} (hp : Preprocessed t) (ht : TablesExact t)
    (j k : Int) (hj : 0 ≤ j) (hjk : j ≤ k) (hk : k < t.ntrkpts) :
    (t.after k).distance - (t.after j).distance ≤ t.sigma_delta k - t.sigma_delta j := by
  obtain ⟨m, hmk, hmn, hm⟩ := ht.after_attained k (by omega) hk
  rw [← hm]
  have h1 := hp.delta_triangle k j m (by omega) hk hj (by omega) (by omega) hmn
  have h2 := hp.delta_le_sigma j k hj hjk hk
  have h3 := ht.after_ge j m hj (by omega) hmn
  rw [hp.delta_symm k j (by omega) hk hj (by omega)] at h1
  linarith

theorem track_open_distance1_loop_eq (t : track_t) :
    ∀ (fuel : Nat) (tp1 : Int) (bound : ℚ) (indexes : List Int),
      track_open_distance1_loop t fuel tp1 bound indexes =
      scan_max t (fun tp1 => (t.before tp1).distance + (t.after tp1).distance)
        (fun b d => 0.5 * (b - d))
        (fun tp1 _ => [(t.before tp1).index, tp1, (t.after tp1).index]) (t.ntrkpts - 1)
        fuel tp1 bound indexes := by
  intro fuel
  induction fuel with
  | zero => intro tp1 bound indexes; rfl
  | succ fuel ih =>
    intro tp1 bound indexes
    unfold track_open_distance1_loop scan_max
    simp only
    split_ifs <;> first | rfl | apply ih

/-- C6: on a preprocessed track whose `before` and `after` tables hold the true
maxima, for every initial bound `b`, `track_open_distance1` returns the greater
of `b` and the greatest total `before[tp1].distance + after[tp1].distance` over
`tp1` in `[1, ntrkpts - 2]`; when some total exceeds `b` the indexes written are
`before[tp1].index, tp1, after[tp1].index` for a `tp1` whose total is the
result, and otherwise the result is `b` and the three indexes are `-1`.  (So the
skip by half the deficit never jumps over an improving `tp1`.) -/
theorem C6_track_open_distance1_max (t : track_t) (hp : Preprocessed t) (ht : TablesExact t)
    (b : ℚ) :
    b ≤ (track_open_distance1 t b).1 ∧
    (∀ tp1, 1 ≤ tp1 → tp1 ≤ t.ntrkpts - 2 →
      (t.before tp1).distance + (t.after tp1).distance ≤ (track_open_distance1 t b).1) ∧
    ((∃ tp1, 1 ≤ tp1 ∧ tp1 ≤ t.ntrkpts - 2 ∧
        b < (t.before tp1).distance + (t.after tp1).distance) →
      ∃ tp1, 1 ≤ tp1 ∧ tp1 ≤ t.ntrkpts - 2 ∧
        (t.before tp1).distance + (t.after tp1).distance = (track_open_distance1 t b).1 ∧
        (track_open_distance1 t b).2 = [(t.before tp1).index, tp1, (t.after tp1).index]) ∧
    ((∀ tp1, 1 ≤ tp1 → tp1 ≤ t.ntrkpts - 2 →
        (t.before tp1).distance + (t.after tp1).distance ≤ b) →
      (track_open_distance1 t b).1 = b ∧ (track_open_distance1 t b).2 = [-1, -1, -1]) := by
  have hinv : ScanInv (fun tp1 => (t.before tp1).distance + (t.after tp1).distance)
      (fun tp1 _ => [(t.before tp1).index, tp1, (t.after tp1).index]) 1 (t.ntrkpts - 1) b
      [-1, -1, -1] (t.ntrkpts - 1) (track_open_distance1 t b).1 (track_open_distance1 t b).2 := by
    unfold track_open_distance1
    rw [track_open_distance1_loop_eq]
    refine scan_max_spec hp _ _ _ 2 1 (t.ntrkpts - 1) (by norm_num) (by omega) (by norm_num)
      (fun b d => by norm_num; linarith) ?_ b [-1, -1, -1] (t.ntrkpts - 2).toNat 1 b
      [-1, -1, -1] (le_refl _) (by omega) (ScanInv.init _ _ _ _ _ _)
    intro j k h1 h2 h3
    have hb := ht.before_lipschitz hp j k (by omega) (by omega) (by omega)
    have ha := ht.after_lipschitz hp j k (by omega) (by omega) (by omega)
    linarith
  obtain ⟨hall, hcase⟩ := hinv
  refine ⟨?_, fun tp1 h1 h2 => hall tp1 h1 (by omega) (by omega), ?_, ?_⟩
  · rcases hcase with ⟨h, _⟩ | ⟨r, _, _, _, _, h5, h6, _⟩
    · exact h.ge
    · rw [h5]; exact h6.le
  · rintro ⟨tp1, h1, h2, h3⟩
    rcases hcase with ⟨h, _⟩ | ⟨r, g1, g2, _, g4, g5, _, _⟩
    · have := hall tp1 h1 (by omega) (by omega)
      rw [h] at this
      exact absurd h3 (not_lt.mpr this)
    · exact ⟨r, g1, by omega, g5.symm, g4⟩
  · intro hle
    rcases hcase with h | ⟨r, g1, g2, _, _, _, g6, _⟩
    · exact h
    · exact absurd g6 (not_lt.mpr (hle r g1 (by omega)))

/-- On the zigzag track `track_initialize` fills both tables with the true
maxima. -/
theorem zigzag_track_tables : TablesExact zigzag_track := by
  refine ⟨?_, ?_, ?_, ?_⟩
  · intro i k h0 h1 h2
    have h3 : i < 5 := h2
    have h4 : 0 ≤ i := by omega
    interval_cases i <;> interval_cases k <;> decide!
  · intro i h0 h1
    have h3 : i < 5 := h1
    interval_cases i
    · exact ⟨0, by decide!⟩
    · exact ⟨0, by decide!⟩
    · exact ⟨1, by decide!⟩
    · exact ⟨0, by decide!⟩
    · exact ⟨0, by decide!⟩
  · intro i k h0 h1 h2
    have h3 : k < 5 := h2
    have h4 : 0 ≤ k := by omega
    interval_cases k <;> interval_cases i <;> decide!
  · intro i h0 h1
    have h3 : i < 5 := h1
    interval_cases i
    · exact ⟨3, by decide!⟩
    · exact ⟨4, by decide!⟩
    · exact ⟨3, by decide!⟩
    · exact ⟨4, by decide!⟩
    · exact ⟨4, by decide!⟩

/-- C6 applied to the zigzag track with initial bound 0. -/
theorem C6_track_open_distance1_max_witness :
    (Preprocessed zigzag_track ∧ TablesExact zigzag_track) ∧
    ((0 : ℚ) ≤ (track_open_distance1 zigzag_track 0).1 ∧
    (∀ tp1, 1 ≤ tp1 → tp1 ≤ zigzag_track.ntrkpts - 2 →
      (zigzag_track.before tp1).distance + (zigzag_track.after tp1).distance ≤
        (track_open_distance1 zigzag_track 0).1) ∧
    ((∃ tp1, 1 ≤ tp1 ∧ tp1 ≤ zigzag_track.ntrkpts - 2 ∧
        0 < (zigzag_track.before tp1).distance + (zigzag_track.after tp1).distance) →
      ∃ tp1, 1 ≤ tp1 ∧ tp1 ≤ zigzag_track.ntrkpts - 2 ∧
        (zigzag_track.before tp1).distance + (zigzag_track.after tp1).distance =
          (track_open_distance1 zigzag_track 0).1 ∧
        (track_open_distance1 zigzag_track 0).2 =
          [(zigzag_track.before tp1).index, tp1, (zigzag_track.after tp1).index]) ∧
    ((∀ tp1, 1 ≤ tp1 → tp1 ≤ zigzag_track.ntrkpts - 2 →
        (zigzag_track.before tp1).distance + (zigzag_track.after tp1).distance ≤ 0) →
      (track_open_distance1 zigzag_track 0).1 = 0 ∧
        (track_open_distance1 zigzag_track 0).2 = [-1, -1, -1])) :=
  ⟨⟨plane_track_preprocessed _, zigzag_track_tables⟩,
    C6_track_open_distance1_max zigzag_track (plane_track_preprocessed _)
      zigzag_track_tables 0⟩

/-! ## `track_open_distance2` -/

theorem mem_int_range (lo hi x : Int) : x ∈ int_range lo hi ↔ lo ≤ x ∧ x < hi := by
  unfold int_range
  constructor
  · intro h
    obtain ⟨k, hk, rfl⟩ := List.mem_map.mp h
    have h1 := Int.lt_toNat.mp (List.mem_range.mp hk)
    have h0 : (0 : Int) ≤ (k : Int) := Int.ofNat_nonneg k
    constructor <;> linarith
  · rintro ⟨h1, h2⟩
    refine List.mem_map.mpr ⟨(x - lo).toNat, List.mem_range.mpr (Int.lt_toNat.mpr ?_), ?_⟩
    · rw [Int.toNat_of_nonneg (by linarith)]; linarith
    · rw [Int.toNat_of_nonneg (by linarith)]; ring

theorem foldl_max_ge (l : List ℚ) : ∀ b : ℚ, b ≤ l.foldl max b ∧ ∀ x ∈ l, x ≤ l.foldl max b := by
  induction l with
  | nil => intro b; simp
  | cons a l ih =>
    intro b
    simp only [List.foldl_cons, List.mem_cons]
    obtain ⟨h1, h2⟩ := ih (max b a)
    refine ⟨le_trans (le_max_left _ _) h1, ?_⟩
    rintro x (rfl | hx)
    · exact le_trans (le_max_right _ _) h1
    · exact h2 x hx

theorem foldl_max_mem (l : List ℚ) : ∀ b : ℚ, l.foldl max b = b ∨ l.foldl max b ∈ l := by
  induction l with
  | nil => intro b; simp
  | cons a l ih =>
    intro b
    simp only [List.foldl_cons, List.mem_cons]
    rcases ih (max b a) with h | h
    · rw [h]
      rcases max_choice b a with h' | h'
      · exact Or.inl h'
      · exact Or.inr (Or.inl h')
    · exact Or.inr (Or.inr h)

theorem track_open_distance2_inner_eq (t : track_t) (tp1 : Int) (leg1 : ℚ) :
    ∀ (fuel : Nat) (tp2 : Int) (bound : ℚ) (indexes : List Int),
      track_open_distance2_inner t tp1 leg1 fuel tp2 bound indexes =
      scan_max t (fun tp2 => leg1 + track_delta t tp1 tp2 + (t.after tp2).distance)
        (fun b d => 0.5 * (b - d))
        (fun tp2 _ => [(t.before tp1).index, tp1, tp2, (t.after tp2).index]) (t.ntrkpts - 1)
        fuel tp2 bound indexes := by
  intro fuel
  induction fuel with
  | zero => intro tp2 bound indexes; rfl
  | succ fuel ih =>
    intro tp2 bound indexes
    unfold track_open_distance2_inner scan_max
    simp only
    split_ifs <;> first | rfl | apply ih

theorem track_open_distance2_outer_spec {t : track_t} (hp : Preprocessed t)
    (ht : TablesExact t) (b : ℚ) :
    ∀ (fuel : Nat) (tp1 : Int) (bound : ℚ) (indexes : List Int), 1 ≤ tp1 →
      (t.ntrkpts - 2 - tp1).toNat ≤ fuel → Open2Inv t b tp1 bound →
      Open2Inv t b (t.ntrkpts - 2) (track_open_distance2_outer t fuel tp1 bound indexes).1 := by
  intro fuel
  induction fuel with
  | zero =>
    intro tp1 bound indexes _ hf hinv
    exact ⟨hinv.1, fun a c h1 h2 h3 h4 => hinv.2.1 a c h1 (by omega) h3 h4, hinv.2.2⟩
  | succ fuel ih =>
    intro tp1 bound indexes h1 hf hinv
    unfold track_open_distance2_outer
    by_cases hlt : tp1 < t.ntrkpts - 2
    · rw [if_pos hlt]
      simp only
      apply ih (tp1 + 1) _ _ (by omega) (by omega)
      rw [track_open_distance2_inner_eq]
      have hscan := scan_max_spec hp
        (fun tp2 => (t.before tp1).distance + track_delta t tp1 tp2 + (t.after tp2).distance)
        (fun b d => 0.5 * (b - d))
        (fun tp2 _ => [(t.before tp1).index, tp1, tp2, (t.after tp2).index]) 2 (tp1 + 1)
        (t.ntrkpts - 1) (by omega) (by omega) (by norm_num)
        (fun b d => by norm_num; linarith) (by
          intro j k g1 g2 g3
          have hd := hp.delta_lipschitz tp1 j k (by omega) (by omega) (by omega) (by omega)
            (by omega)
          have ha := ht.after_lipschitz hp j k (by omega) (by omega) (by omega)
          simp only [track_delta]
          linarith) bound indexes
        (t.ntrkpts - 1 - (tp1 + 1)).toNat (tp1 + 1) bound indexes (le_refl _) (le_refl _)
        (ScanInv.init _ _ _ _ _ _)
      have hge := hscan.scan_bound_ge
      obtain ⟨hall, hcase⟩ := hscan
      refine ⟨le_trans hinv.1 hge, fun a c g1 g2 g3 g4 => ?_, ?_⟩
      · rcases (by omega : a < tp1 ∨ a = tp1) with h | h
        · exact le_trans (hinv.2.1 a c g1 h g3 g4) hge
        · subst h
          exact hall c (by omega) (by omega) (by omega)
      · rcases hcase with ⟨h, _⟩ | ⟨r, g1, _, g3, _, g5, _, _⟩
        · rw [h]; exact hinv.2.2
        · exact Or.inr ⟨tp1, r, h1, by omega, by omega, g5.symm⟩
    · rw [if_neg hlt]
      exact ⟨hinv.1, fun a c h1 h2 h3 h4 => hinv.2.1 a c h1 (by omega) h3 h4, hinv.2.2⟩

/-- C7: on a preprocessed track whose `before` and `after` tables hold the true
maxima, for every initial bound `b` the value returned by `track_open_distance2`
(iterations in order) is the brute-force value: the greatest of `b` and of
`before[tp1].distance + δ(tp1, tp2) + after[tp2].distance` over all
`1 ≤ tp1 < tp2 ≤ ntrkpts - 2`.  The inner skip loses no improving pair. -/
theorem C7_track_open_distance2_brute (t : track_t) (hp : Preprocessed t)
    (ht : TablesExact t) (b : ℚ) :
    (track_open_distance2 t b).1 = open_distance2_brute t b := by
  obtain ⟨h1, h2, h3⟩ := track_open_distance2_outer_spec hp ht b (t.ntrkpts - 3).toNat 1 b
    [-1, -1, -1, -1] (le_refl _) (by omega)
    ⟨le_refl _, fun a c g1 g2 => by omega, Or.inl rfl⟩
  have hmem : ∀ x, x ∈ ((int_range 1 (t.ntrkpts - 1)).flatMap fun tp1 =>
      (int_range (tp1 + 1) (t.ntrkpts - 1)).map fun tp2 =>
        open_distance2_candidate t tp1 tp2) ↔
      ∃ a c, 1 ≤ a ∧ a < c ∧ c ≤ t.ntrkpts - 2 ∧ open_distance2_candidate t a c = x := by
    intro x
    simp only [List.mem_flatMap, List.mem_map, mem_int_range]
    constructor
    · rintro ⟨a, ⟨g1, _⟩, c, ⟨g3, g4⟩, rfl⟩
      exact ⟨a, c, g1, by omega, by omega, rfl⟩
    · rintro ⟨a, c, g1, g2, g3, rfl⟩
      exact ⟨a, ⟨g1, by omega⟩, c, ⟨by omega, by omega⟩, rfl⟩
  obtain ⟨f1, f2⟩ := foldl_max_ge ((int_range 1 (t.ntrkpts - 1)).flatMap fun tp1 =>
      (int_range (tp1 + 1) (t.ntrkpts - 1)).map fun tp2 =>
        open_distance2_candidate t tp1 tp2) b
  have f3 := foldl_max_mem ((int_range 1 (t.ntrkpts - 1)).flatMap fun tp1 =>
      (int_range (tp1 + 1) (t.ntrkpts - 1)).map fun tp2 =>
        open_distance2_candidate t tp1 tp2) b
  unfold open_distance2_brute
  unfold track_open_distance2
  apply le_antisymm
  · rcases h3 with h | ⟨a, c, g1, g2, g3, g4⟩
    · rw [h]; exact f1
    · exact f2 _ ((hmem _).mpr ⟨a, c, g1, g2, g3, g4⟩)
  · rcases f3 with h | h
    · rw [h]; exact h1
    · obtain ⟨a, c, g1, g2, g3, g4⟩ := (hmem _).mp h
      rw [← g4]
      exact h2 a c g1 (by omega) g2 g3

/-- C7 applied to the zigzag track with initial bound 0. -/
theorem C7_track_open_distance2_brute_witness :
    (Preprocessed zigzag_track ∧ TablesExact zigzag_track) ∧
    (track_open_distance2 zigzag_track 0).1 = open_distance2_brute zigzag_track 0 :=
  ⟨⟨plane_track_preprocessed _, zigzag_track_tables⟩,
    C7_track_open_distance2_brute zigzag_track (plane_track_preprocessed _)
      zigzag_track_tables 0⟩

/-! ## Progress of the skips, for any track -/

theorem track_fast_forward_loop_ge (t : track_t) (target : ℚ) :
    ∀ (fuel : Nat) (i : Int), i ≤ track_fast_forward_loop t target fuel i := by
  intro fuel
  induction fuel with
  | zero => intro i; exact le_refl _
  | succ fuel ih =>
    intro i
    unfold track_fast_forward_loop
    simp only
    have hgt := track_forward_gt t i (target - t.sigma_delta i)
    split_ifs
    · exact le_refl _
    · omega
    · have := ih (track_forward t i (target - t.sigma_delta i))
      omega

/-- The function `track_fast_forward` always advances. -/
theorem track_fast_forward_gt (t : track_t) (i : Int) (d : ℚ) :
    i < track_fast_forward t i d := by
  have hgt := track_forward_gt t i d
  unfold track_fast_forward
  simp only
  split_ifs
  · exact hgt
  · have := track_fast_forward_loop_ge t (t.sigma_delta i + d)
      (t.ntrkpts - track_forward t i d).toNat (track_forward t i d)
    omega

theorem track_fast_backward_loop_le (t : track_t) (target : ℚ) :
    ∀ (fuel : Nat) (i : Int), track_fast_backward_loop t target fuel i ≤ i := by
  intro fuel
  induction fuel with
  | zero => intro i; exact le_refl _
  | succ fuel ih =>
    intro i
    unfold track_fast_backward_loop
    simp only
    have hgt := track_backward_lt t i (t.sigma_delta i - target)
    split_ifs
    · exact le_refl _
    · omega
    · have := ih (track_backward t i (t.sigma_delta i - target))
      omega

/-- The function `track_fast_backward` always moves back. -/
theorem track_fast_backward_lt (t : track_t) (i : Int) (d : ℚ) :
    track_fast_backward t i d < i := by
  have hgt := track_backward_lt t i d
  unfold track_fast_backward
  simp only
  split_ifs
  · exact hgt
  · have := track_fast_backward_loop_le t (t.sigma_delta i - d)
      (track_backward t i d + 1).toNat (track_backward t i d)
    omega

theorem scan_max_sound {σ : Type} (t : track_t) (f : Int → ℚ) (amt : ℚ → ℚ → ℚ)
    (upd : Int → ℚ → σ) (begin_ end_ : Int) (b : ℚ) (s0 : σ) :
    ∀ (fuel : Nat) (j : Int) (bound : ℚ) (s : σ), begin_ ≤ j →
      ScanSound f upd begin_ end_ b s0 bound s →
      ScanSound f upd begin_ end_ b s0
        (scan_max t f amt upd end_ fuel j bound s).1
        (scan_max t f amt upd end_ fuel j bound s).2 := by
  intro fuel
  induction fuel with
  | zero => intro j bound s _ h; exact h
  | succ fuel ih =>
    intro j bound s hj h
    unfold scan_max
    split_ifs with hje hgt
    · apply ih (j + 1) _ _ (by omega)
      have hb : b ≤ bound := by
        rcases h with ⟨h1, _⟩ | ⟨r, _, _, _, h4, h5⟩
        · exact h1.ge
        · linarith
      exact Or.inr ⟨j, hj, hje, rfl, rfl, by linarith⟩
    · have := track_fast_forward_gt t j (amt bound (f j))
      exact ih _ _ _ (by omega) h
    · exact h

/-! ## `track_frcfd_triangle_plat` -/

theorem track_furthest_from2_loop_eq (t : track_t) (i j end_ : Int) :
    ∀ (fuel : Nat) (k : Int) (bound : ℚ) (result : Int) (out : ℚ),
      track_furthest_from2_loop t i j end_ fuel k bound result out =
      (scan_max t (fun k => track_delta t i k + track_delta t k j) (fun b d => (b - d) / 2.0)
        (fun k d => (k, d)) end_ fuel k bound (result, out)).2 := by
  intro fuel
  induction fuel with
  | zero => intro k bound result out; rfl
  | succ fuel ih =>
    intro k bound result out
    unfold track_furthest_from2_loop scan_max
    simp only
    split_ifs <;> first | rfl | apply ih

/-- On any track, `track_furthest_from2` either returns `-1` and leaves `*out`
alone, or returns an index of the range and stores its two-leg sum, which
exceeds the bound passed in. -/
theorem track_furthest_from2_sound (t : track_t) (i j begin_ end_ : Int) (b out : ℚ) :
    track_furthest_from2 t i j begin_ end_ b out = (-1, out) ∨
    ∃ r, begin_ ≤ r ∧ r < end_ ∧
      track_furthest_from2 t i j begin_ end_ b out = (r, t.delta i r + t.delta r j) ∧
      b < t.delta i r + t.delta r j := by
  unfold track_furthest_from2
  rw [track_furthest_from2_loop_eq]
  rcases scan_max_sound t (fun k => track_delta t i k + track_delta t k j)
    (fun b d => (b - d) / 2.0) (fun k d => (k, d)) begin_ end_ b (-1, out)
    (end_ - begin_).toNat begin_ b (-1, out) (le_refl _) (Or.inl ⟨rfl, rfl⟩) with
    ⟨_, h⟩ | ⟨r, h1, h2, h3, _, h5⟩
  · exact Or.inl h
  · exact Or.inr ⟨r, h1, h2, h3, h5⟩

theorem PlatInv.plat_bound_ge {t : track_t} {b bound : ℚ} {indexes : List Int}
    (h : PlatInv t b bound indexes) : b ≤ bound := by
  rcases h with ⟨h, _⟩ | ⟨_, _, _, _, _, _, _, _, _, h⟩
  · exact h.ge
  · exact h.le

theorem track_frcfd_triangle_plat_tp3_inv (t : track_t) (b : ℚ) (start tp1 finish : Int) :
    ∀ (fuel : Nat) (tp3 : Int) (bound : ℚ) (indexes : List Int),
      PlatInv t b bound indexes →
      PlatInv t b (track_frcfd_triangle_plat_tp3 t start tp1 finish fuel tp3 bound indexes).1
        (track_frcfd_triangle_plat_tp3 t start tp1 finish fuel tp3 bound indexes).2 := by
  intro fuel
  induction fuel with
  | zero => intro tp3 bound indexes h; exact h
  | succ fuel ih =>
    intro tp3 bound indexes h
    unfold track_frcfd_triangle_plat_tp3
    simp only [track_delta]
    by_cases hgt : tp3 > tp1 + 1
    · rw [if_pos hgt]
      rcases track_furthest_from2_sound t tp1 tp3 (tp1 + 1) tp3 (bound - t.delta tp3 tp1) 0.0
        with h1 | ⟨r, h1, h2, h3, h4⟩
      · rw [h1]
        simp only
        rw [if_neg (by omega)]
        exact ih _ _ _ h
      · rw [h3]
        simp only
        have hb := h.plat_bound_ge
        split_ifs with hr
        · apply ih
          exact Or.inr ⟨start, tp1, r, tp3, finish, rfl, by omega, h2, by ring, by linarith⟩
        · exact ih _ _ _ h
    · rw [if_neg hgt]
      exact h

theorem track_frcfd_triangle_plat_tp1_inv (t : track_t) (b : ℚ) :
    ∀ (fuel : Nat) (tp1 : Int) (bound : ℚ) (indexes : List Int),
      PlatInv t b bound indexes →
      PlatInv t b (track_frcfd_triangle_plat_tp1 t fuel tp1 bound indexes).1
        (track_frcfd_triangle_plat_tp1 t fuel tp1 bound indexes).2 := by
  intro fuel
  induction fuel with
  | zero => intro tp1 bound indexes h; exact h
  | succ fuel ih =>
    intro tp1 bound indexes h
    unfold track_frcfd_triangle_plat_tp1
    simp only
    split_ifs
    · exact h
    · exact ih _ _ _ h
    · exact ih _ _ _ (track_frcfd_triangle_plat_tp3_inv t b _ _ _ _ _ _ _ h)
    · exact h

/-- C5, counterexample: on the out-and-back track 0, 0, 10, 0 (thousandths) with
initial bound 0,
`track_frcfd_triangle_plat` reports the triangle `tp1 = 0, tp2 = 2, tp3 = 3`
whose closing leg `δ(tp3, tp1)` is zero, below `3 / R` for every positive earth
radius `R`. -/
theorem C5_triangle_plat_short_leg :
    (track_frcfd_triangle_plat out_and_back_track 0).2 = [0, 0, 2, 3, 3] ∧
    ∀ R : ℚ, 0 < R → track_delta out_and_back_track 3 0 < 3 / R := by
  refine ⟨by decide!, fun R hR => ?_⟩
  have h : track_delta out_and_back_track 3 0 = 0 := by decide!
  rw [h]
  positivity

/-- C5, amended: whenever `track_frcfd_triangle_plat` writes indexes, they are
`start, tp1, tp2, tp3, finish` with `tp1 < tp2 < tp3`, the three legs
`δ(tp1,tp2)`, `δ(tp2,tp3)`, `δ(tp3,tp1)` sum to the returned bound, and that
bound is greater than the initial one.  No leg is bounded below on its own. -/
theorem C5_triangle_plat_perimeter (t : track_t) (b : ℚ)
    (h : (track_frcfd_triangle_plat t b).2 ≠ [-1, -1, -1, -1, -1]) :
    ∃ start tp1 tp2 tp3 finish,
      (track_frcfd_triangle_plat t b).2 = [start, tp1, tp2, tp3, finish] ∧
      tp1 < tp2 ∧ tp2 < tp3 ∧
      track_delta t tp1 tp2 + track_delta t tp2 tp3 + track_delta t tp3 tp1 =
        (track_frcfd_triangle_plat t b).1 ∧
      b < (track_frcfd_triangle_plat t b).1 := by
  have hinv : PlatInv t b (track_frcfd_triangle_plat t b).1 (track_frcfd_triangle_plat t b).2 :=
    track_frcfd_triangle_plat_tp1_inv t b _ _ _ _ (Or.inl ⟨rfl, rfl⟩)
  rcases hinv with ⟨_, h2⟩ | h2
  · exact absurd h2 h
  · exact h2

/-- C5, amended, applied to the out-and-back track with initial bound 0. -/
theorem C5_triangle_plat_perimeter_witness :
    (track_frcfd_triangle_plat out_and_back_track 0).2 ≠ [-1, -1, -1, -1, -1] ∧
    ∃ start tp1 tp2 tp3 finish,
      (track_frcfd_triangle_plat out_and_back_track 0).2 = [start, tp1, tp2, tp3, finish] ∧
      tp1 < tp2 ∧ tp2 < tp3 ∧
      track_delta out_and_back_track tp1 tp2 + track_delta out_and_back_track tp2 tp3 +
        track_delta out_and_back_track tp3 tp1 =
        (track_frcfd_triangle_plat out_and_back_track 0).1 ∧
      0 < (track_frcfd_triangle_plat out_and_back_track 0).1 :=
  ⟨by decide!, C5_triangle_plat_perimeter out_and_back_track 0 (by decide!)⟩

/-! ## `track_frcfd_triangle_fai`: every reported triangle is an FAI triangle -/

/-- One iteration of the `tp2` loop, with the two deficits named. -/
theorem track_frcfd_triangle_fai_tp2_step (t : track_t) (start tp1 tp3 finish : Int)
    (leg3 shortestlegbound longestlegbound : ℚ) (tp2last : Int) (fuel : Nat) (tp2 : Int)
    (st : fai_state) :
    track_frcfd_triangle_fai_tp2 t start tp1 tp3 finish leg3 shortestlegbound longestlegbound
      tp2last (fuel + 1) tp2 st =
    if tp2 ≤ tp2last then
      if fai_shape_deficit (t.delta tp1 tp2) (t.delta tp2 tp3) shortestlegbound
          longestlegbound > 0.0 then
        track_frcfd_triangle_fai_tp2 t start tp1 tp3 finish leg3 shortestlegbound
          longestlegbound tp2last fuel
          (track_fast_forward t tp2 (fai_shape_deficit (t.delta tp1 tp2) (t.delta tp2 tp3)
            shortestlegbound longestlegbound)) st
      else if fai_leg_deficit (fai_shape_deficit (t.delta tp1 tp2) (t.delta tp2 tp3)
          shortestlegbound longestlegbound) (t.delta tp1 tp2) (t.delta tp2 tp3) leg3
          (0.28 * (t.delta tp1 tp2 + t.delta tp2 tp3 + leg3)) > 0.0 then
        track_frcfd_triangle_fai_tp2 t start tp1 tp3 finish leg3 shortestlegbound
          longestlegbound tp2last fuel
          (track_fast_forward t tp2 (0.5 * fai_leg_deficit (fai_shape_deficit (t.delta tp1 tp2)
            (t.delta tp2 tp3) shortestlegbound longestlegbound) (t.delta tp1 tp2)
            (t.delta tp2 tp3) leg3 (0.28 * (t.delta tp1 tp2 + t.delta tp2 tp3 + leg3)))) st
      else if t.delta tp1 tp2 + t.delta tp2 tp3 + leg3 < st.bound then
        track_frcfd_triangle_fai_tp2 t start tp1 tp3 finish leg3 shortestlegbound
          longestlegbound tp2last fuel
          (track_fast_forward t tp2
            (0.5 * (st.bound - (t.delta tp1 tp2 + t.delta tp2 tp3 + leg3)))) st
      else
        track_frcfd_triangle_fai_tp2 t start tp1 tp3 finish leg3 shortestlegbound
          longestlegbound tp2last fuel (tp2 + 1)
          ⟨t.delta tp1 tp2 + t.delta tp2 tp3 + leg3,
            0.28 * (t.delta tp1 tp2 + t.delta tp2 tp3 + leg3), [start, tp1, tp2, tp3, finish]⟩
    else st := rfl

/-- When the second deficit is not positive every leg reaches `thislegbound`. -/
theorem fai_leg_deficit_nonpos {d leg1 leg2 leg3 thislegbound : ℚ}
    (h : ¬ fai_leg_deficit d leg1 leg2 leg3 thislegbound > 0.0) :
    thislegbound ≤ leg1 ∧ thislegbound ≤ leg2 ∧ thislegbound ≤ leg3 := by
  unfold fai_leg_deficit at h
  simp only at h
  norm_num at h
  refine ⟨?_, ?_, ?_⟩ <;> by_contra hc <;> push_neg at hc <;> split_ifs at h <;>
    first | linarith | (exfalso; simp_all; linarith)

theorem track_frcfd_triangle_fai_tp2_inv (t : track_t) (start tp1 tp3 finish : Int)
    (shortestlegbound longestlegbound : ℚ) (tp2last : Int) :
    ∀ (fuel : Nat) (tp2 : Int) (st : fai_state), FaiInv t st →
      FaiInv t (track_frcfd_triangle_fai_tp2 t start tp1 tp3 finish (t.delta tp3 tp1)
        shortestlegbound longestlegbound tp2last fuel tp2 st) := by
  intro fuel
  induction fuel with
  | zero => intro tp2 st h; exact h
  | succ fuel ih =>
    intro tp2 st h
    rw [track_frcfd_triangle_fai_tp2_step]
    split_ifs with h1 h2 h3 h4
    · exact ih _ _ h
    · exact ih _ _ h
    · exact ih _ _ h
    · apply ih
      obtain ⟨g1, g2, g3⟩ := fai_leg_deficit_nonpos h3
      exact Or.inr ⟨start, tp1, tp2, tp3, finish, rfl, rfl, g1, g2, g3⟩
    · exact h

theorem track_frcfd_triangle_fai_tp3_inv (t : track_t) (start tp1 finish tp3first : Int) :
    ∀ (fuel : Nat) (tp3 : Int) (st : fai_state), FaiInv t st →
      FaiInv t (track_frcfd_triangle_fai_tp3 t start tp1 finish tp3first fuel tp3 st) := by
  intro fuel
  induction fuel with
  | zero => intro tp3 st h; exact h
  | succ fuel ih =>
    intro tp3 st h
    unfold track_frcfd_triangle_fai_tp3
    simp only [track_delta]
    split_ifs
    · exact ih _ _ h
    · exact ih _ _ h
    · exact ih _ _ h
    · exact ih _ _ (track_frcfd_triangle_fai_tp2_inv t _ _ _ _ _ _ _ _ _ _ h)
    · exact h

theorem track_frcfd_triangle_fai_tp1_inv (t : track_t) :
    ∀ (fuel : Nat) (tp1 : Int) (st : fai_state), FaiInv t st →
      FaiInv t (track_frcfd_triangle_fai_tp1 t fuel tp1 st) := by
  intro fuel
  induction fuel with
  | zero => intro tp1 st h; exact h
  | succ fuel ih =>
    intro tp1 st h
    unfold track_frcfd_triangle_fai_tp1
    simp only
    split_ifs
    · exact ih _ _ h
    · exact ih _ _ h
    · exact ih _ _ h
    · exact ih _ _ (track_frcfd_triangle_fai_tp3_inv t _ _ _ _ _ _ _ h)
    · exact h

/-- C3: for every track, circuit tables and initial bound, whenever
`track_frcfd_triangle_fai` writes indexes other than `-1`, they are
`start, tp1, tp2, tp3, finish`, the returned bound is the sum of the legs
`δ(tp1,tp2)`, `δ(tp2,tp3)`, `δ(tp3,tp1)`, and each leg is at least 0.28 times
that sum. -/
theorem C3_triangle_fai_shape (t : track_t) (b : ℚ)
    (h : (track_frcfd_triangle_fai t b).2 ≠ [-1, -1, -1, -1, -1]) :
    ∃ start tp1 tp2 tp3 finish,
      (track_frcfd_triangle_fai t b).2 = [start, tp1, tp2, tp3, finish] ∧
      (track_frcfd_triangle_fai t b).1 =
        track_delta t tp1 tp2 + track_delta t tp2 tp3 + track_delta t tp3 tp1 ∧
      0.28 * (track_delta t tp1 tp2 + track_delta t tp2 tp3 + track_delta t tp3 tp1) ≤
        track_delta t tp1 tp2 ∧
      0.28 * (track_delta t tp1 tp2 + track_delta t tp2 tp3 + track_delta t tp3 tp1) ≤
        track_delta t tp2 tp3 ∧
      0.28 * (track_delta t tp1 tp2 + track_delta t tp2 tp3 + track_delta t tp3 tp1) ≤
        track_delta t tp3 tp1 := by
  have hinv := track_frcfd_triangle_fai_tp1_inv t (t.ntrkpts - 2).toNat 0
    ⟨b, 0.28 * b, [-1, -1, -1, -1, -1]⟩ (Or.inl rfl)
  rcases hinv with h2 | ⟨start, tp1, tp2, tp3, finish, g1, g2, g3, g4, g5⟩
  · exact absurd h2 h
  · refine ⟨start, tp1, tp2, tp3, finish, g1, g2.symm, ?_, ?_, ?_⟩ <;>
      simp only [track_delta] <;> rw [g2] <;> assumption

/-- C3 applied to the triangle track with initial bound 0, where the search
reports the triangle `0, 1, 3` of perimeter 12. -/
theorem C3_triangle_fai_shape_witness :
    (track_frcfd_triangle_fai triangle_track 0).2 ≠ [-1, -1, -1, -1, -1] ∧
    ∃ start tp1 tp2 tp3 finish,
      (track_frcfd_triangle_fai triangle_track 0).2 = [start, tp1, tp2, tp3, finish] ∧
      (track_frcfd_triangle_fai triangle_track 0).1 =
        track_delta triangle_track tp1 tp2 + track_delta triangle_track tp2 tp3 +
          track_delta triangle_track tp3 tp1 ∧
      0.28 * (track_delta triangle_track tp1 tp2 + track_delta triangle_track tp2 tp3 +
          track_delta triangle_track tp3 tp1) ≤ track_delta triangle_track tp1 tp2 ∧
      0.28 * (track_delta triangle_track tp1 tp2 + track_delta triangle_track tp2 tp3 +
          track_delta triangle_track tp3 tp1) ≤ track_delta triangle_track tp2 tp3 ∧
      0.28 * (track_delta triangle_track tp1 tp2 + track_delta triangle_track tp2 tp3 +
          track_delta triangle_track tp3 tp1) ≤ track_delta triangle_track tp3 tp1 :=
  ⟨by decide!, C3_triangle_fai_shape triangle_track 0 (by decide!)⟩

/-! ## `track_initialize`: entries of `before` and `after` that no search fills -/

/-- C9, the code at the failing inputs: after `track_initialize`, two identical
fixes give `before[1].index = -1`; on the track 0, 3, 6, 3 (thousandths) the
search for `before[3]` returns `-1` and never writes the distance, which keeps
the zero of `alloc`, although fix 0 is at distance 3/1000 from fix 3. -/
theorem C9_before_not_filled :
    (twin_track.before 1).index = -1 ∧
    turn_back_track.before 3 = ⟨-1, 0⟩ ∧ track_delta turn_back_track 0 3 = 3 / 1000 := by
  decide!

/-- C10, the code at the failing inputs: after `track_initialize`, two identical
fixes give `after[0].index = -1`; on the straight track 0, 3, 6, 9 (thousandths)
the search for `after[1]` returns `-1` and never writes the distance, which
keeps the zero of `alloc`, although fix 3 is at distance 6/1000 from fix 1. -/
theorem C10_after_not_filled :
    (twin_track.after 0).index = -1 ∧
    straight_track.after 1 = ⟨-1, 0⟩ ∧ track_delta straight_track 3 1 = 6 / 1000 := by
  decide!

/-! ## `track_compute_circuit_tables` -/

theorem last_finish_loop_spec {t : track_t} (hp : Preprocessed t) (i : Int) (e : ℚ)
    (hi : 0 ≤ i) (hi' : i < t.ntrkpts) (he : 0 < e) :
    ∀ (fuel : Nat) (j : Int), i ≤ j → j < t.ntrkpts → (j - i + 1).toNat ≤ fuel →
      (∀ k, j < k → k < t.ntrkpts → e ≤ t.delta i k) →
      ∃ r, last_finish_loop t i e fuel j = some r ∧ i ≤ r ∧ r ≤ j ∧ t.delta i r < e ∧
        ∀ k, r < k → k < t.ntrkpts → e ≤ t.delta i k := by
  intro fuel
  induction fuel with
  | zero => intro j h1 _ hf; omega
  | succ fuel ih =>
    intro j hij hjn hf hall
    unfold last_finish_loop
    simp only [track_delta]
    rw [if_pos (by omega : j ≥ i)]
    by_cases hlt : t.delta i j < e
    · rw [if_pos hlt]
      exact ⟨j, rfl, hij, le_refl _, hlt, hall⟩
    · rw [if_neg hlt]
      have hne : i ≠ j := by
        rintro rfl
        rw [hp.delta_self i hi hi'] at hlt
        exact hlt he
      obtain ⟨r1, r2, _⟩ := track_fast_backward_spec hp j (t.delta i j - e) hjn
      have hds := hp.delta_le_sigma
      have hge : i ≤ track_fast_backward t j (t.delta i j - e) := by
        by_contra hc
        have h1 := r2 i (by omega) (by omega) hi
        have h2 := hds i j hi hij hjn
        linarith
      obtain ⟨r, g1, g2, g3, g4, g5⟩ := ih (track_fast_backward t j (t.delta i j - e)) hge
        (by omega) (by omega) (by
          intro k h1 h2
          rcases lt_trichotomy k j with h | h | h
          · have h3 := r2 k h1 h (by omega)
            have h4 := hds k j (by omega) (by omega) hjn
            have h5 := hp.delta_triangle i k j hi hi' (by omega) h2 (by omega) hjn
            linarith
          · subst h; exact not_lt.mp hlt
          · exact hall k h h2)
      exact ⟨r, g1, g2, by omega, g4, g5⟩

theorem track_compute_circuit_tables_loop_spec {t : track_t} (hp : Preprocessed t) (e : ℚ)
    (he : 0 < e) :
    ∀ (fuel : Nat) (i : Int) (last_finish best_start : Int → Int) (cbs : Int), 0 ≤ i →
      (t.ntrkpts - i).toNat ≤ fuel →
      CircuitTablesUpTo t e i last_finish best_start →
      0 ≤ cbs → (cbs < i ∨ cbs = 0) →
      (∀ s, 0 ≤ s → s < i → last_finish s ≤ last_finish cbs) →
      (∀ s, 0 ≤ s → s < cbs → last_finish s < last_finish cbs) →
      CircuitTablesUpTo t e t.ntrkpts
        (track_compute_circuit_tables_loop t e fuel i last_finish best_start cbs).1
        (track_compute_circuit_tables_loop t e fuel i last_finish best_start cbs).2 := by
  intro fuel
  induction fuel with
  | zero =>
    intro i lf bs cbs _ hf hinv _ _ _ _
    exact ⟨fun k h1 h2 => hinv.1 k h1 (by omega), fun k h1 h2 => hinv.2 k h1 (by omega)⟩
  | succ fuel ih =>
    intro i lf bs cbs hi hf hinv hc0 hci hcmax hcmin
    unfold track_compute_circuit_tables_loop
    by_cases hin : i < t.ntrkpts
    · rw [if_pos hin]
      obtain ⟨r, g1, g2, g3, g4, g5⟩ := last_finish_loop_spec hp i e hi hin he
        (t.ntrkpts - i).toNat (t.ntrkpts - 1) (by omega) (by omega) (by omega)
        (fun k h1 h2 => by omega)
      simp only [g1]
      have hlfi : store lf i r i = r := store_same _ _ _
      have hlfo : ∀ k, k ≠ i → store lf i r k = lf k := fun k hk => store_other _ _ _ _ hk
      have hcbs1 : ∀ c, c = (if store lf i r i > store lf i r cbs then i else cbs) →
          0 ≤ c ∧ c ≤ i ∧ (∀ s, 0 ≤ s → s ≤ i → store lf i r s ≤ store lf i r c) ∧
          (∀ s, 0 ≤ s → s < c → store lf i r s < store lf i r c) ∧
          ¬ store lf i r c < i := by
        intro c hc
        rcases hci with hlt | h0
        · rw [hlfi, hlfo cbs (by omega)] at hc
          split_ifs at hc with hgt
          · subst c
            refine ⟨hi, le_refl _, fun s h1 h2 => ?_, fun s h1 h2 => ?_, by rw [hlfi]; omega⟩
            · rcases (by omega : s < i ∨ s = i) with h | h
              · rw [hlfi, hlfo s (by omega)]
                have := hcmax s h1 h
                omega
              · subst h; exact le_refl _
            · rw [hlfi, hlfo s (by omega)]
              have := hcmax s h1 h2
              omega
          · subst hc
            refine ⟨hc0, by omega, fun s h1 h2 => ?_, fun s h1 h2 => ?_, ?_⟩
            · rcases (by omega : s < i ∨ s = i) with h | h
              · rw [hlfo s (by omega), hlfo c (by omega)]
                exact hcmax s h1 h
              · subst h
                rw [hlfi, hlfo c (by omega)]
                omega
            · rw [hlfo s (by omega), hlfo c (by omega)]
              exact hcmin s h1 h2
            · rw [hlfo c (by omega)]
              omega
        · subst h0
          rcases (by omega : 0 < i ∨ i = 0) with hpos | hzero
          · rw [hlfi, hlfo 0 (by omega)] at hc
            split_ifs at hc with hgt
            · subst c
              refine ⟨hi, le_refl _, fun s h1 h2 => ?_, fun s h1 h2 => ?_, by rw [hlfi]; omega⟩
              · rcases (by omega : s < i ∨ s = i) with h | h
                · rw [hlfi, hlfo s (by omega)]
                  have := hcmax s h1 h
                  omega
                · subst h; exact le_refl _
              · rw [hlfi, hlfo s (by omega)]
                have := hcmax s h1 h2
                omega
            · subst hc
              refine ⟨le_refl _, by omega, fun s h1 h2 => ?_, fun s h1 h2 => by omega, ?_⟩
              · rcases (by omega : s < i ∨ s = i) with h | h
                · rw [hlfo s (by omega), hlfo 0 (by omega)]
                  exact hcmax s h1 h
                · subst h
                  rw [hlfi, hlfo 0 (by omega)]
                  omega
              · rw [hlfo 0 (by omega)]
                have := hcmax 0 (le_refl _) hpos
                have := (hinv.1 0 (le_refl _) hpos)
                omega
          · subst hzero
            rw [if_neg (lt_irrefl _)] at hc
            subst hc
            refine ⟨le_refl _, le_refl _, fun s h1 h2 => ?_, fun s h1 h2 => by omega, ?_⟩
            · have : s = 0 := by omega
              subst this; exact le_refl _
            · rw [hlfi]; omega
      obtain ⟨c0, c1, c2, c3, c4⟩ := hcbs1 _ rfl
      rw [if_neg c4]
      apply ih (i + 1) _ _ _ (by omega) (by omega) ?_ c0 (Or.inl (by omega))
        (fun s h1 h2 => c2 s h1 (by omega)) c3
      refine ⟨fun k h1 h2 => ?_, fun k h1 h2 => ?_⟩
      · rcases (by omega : k < i ∨ k = i) with h | h
        · rw [hlfo k (by omega)]
          exact hinv.1 k h1 h
        · subst h
          rw [hlfi]
          exact ⟨g2, by omega, g4, g5⟩
      · rcases (by omega : k < i ∨ k = i) with h | h
        · rw [store_other _ _ _ _ (by omega : k ≠ i)]
          obtain ⟨b0, b1, b2, b3⟩ := hinv.2 k h1 h
          refine ⟨b0, b1, fun s h3 h4 => ?_, fun s h3 h4 => ?_⟩
          · rw [hlfo s (by omega), hlfo _ (by omega)]
            exact b2 s h3 h4
          · rw [hlfo s (by omega), hlfo _ (by omega)]
            exact b3 s h3 h4
        · subst h
          rw [store_same]
          exact ⟨c0, c1, c2, c3⟩
    · rw [if_neg hin]
      exact ⟨fun k h1 h2 => hinv.1 k h1 (by omega), fun k h1 h2 => hinv.2 k h1 (by omega)⟩

/-- After `track_compute_circuit_tables` with a positive closure radius on a
preprocessed track, both tables are right on every fix. -/
theorem track_compute_circuit_tables_spec {t : track_t} (hp : Preprocessed t) (e : ℚ)
    (he : 0 < e) :
    CircuitTablesUpTo t e t.ntrkpts (track_compute_circuit_tables t e).last_finish
      (track_compute_circuit_tables t e).best_start :=
  track_compute_circuit_tables_loop_spec hp e he t.ntrkpts.toNat 0 (alloc 0) (alloc 0) 0
    (le_refl _) (by omega) ⟨fun k h1 h2 => by omega, fun k h1 h2 => by omega⟩ (le_refl _)
    (Or.inr rfl) (fun s h1 h2 => by omega) (fun s h1 h2 => by omega)

/-! ## `track_frcfd_aller_retour` -/

theorem track_frcfd_aller_retour_loop_spec {t : track_t} (hp : Preprocessed t) (e h : ℚ)
    (hc : CircuitTablesUpTo t e t.ntrkpts t.last_finish t.best_start) :
    ∀ (fuel : Nat) (tp1 : Int) (bound : ℚ) (indexes : List Int), 0 ≤ tp1 →
      (t.ntrkpts - 2 - tp1).toNat ≤ fuel → AllerRetourInv t e h tp1 bound indexes →
      AllerRetourInv t e h (t.ntrkpts - 2)
        (track_frcfd_aller_retour_loop t fuel tp1 bound indexes).1
        (track_frcfd_aller_retour_loop t fuel tp1 bound indexes).2 := by
  intro fuel
  induction fuel with
  | zero =>
    intro tp1 bound indexes _ hf hinv
    exact ⟨fun s a c f h1 h2 => hinv.1 s a c f h1 (by omega), hinv.2⟩
  | succ fuel ih =>
    intro tp1 bound indexes h0 hf hinv
    unfold track_frcfd_aller_retour_loop
    by_cases hlt : tp1 < t.ntrkpts - 2
    · rw [if_pos hlt]
      simp only
      obtain ⟨b0, b1, b2, _⟩ := hc.2 tp1 h0 (by omega)
      obtain ⟨l0, l1, l2, _⟩ := hc.1 (t.best_start tp1) b0 (by omega)
      rw [if_neg (by omega : ¬ t.last_finish (t.best_start tp1) < 0)]
      obtain ⟨B, hall, hcase⟩ := track_furthest_from_inv hp tp1 (tp1 + 1)
        (t.last_finish (t.best_start tp1) + 1) h0 (by omega) (by omega) (by omega) bound 0.0
      have hcover : ∀ s c f, OutAndReturn t e s tp1 c f → t.delta tp1 c ≤ B := by
        rintro s c f ⟨g0, g1, g2, g3, g4, g5⟩
        have hf1 : f ≤ t.last_finish s := by
          by_contra hcon
          have := (hc.1 s g0 (by omega)).2.2.2 f (by omega) g4
          linarith
        have hf2 := b2 s g0 g1
        exact hall c (by omega) (by omega) (by omega)
      rcases hcase with ⟨h1, h2⟩ | ⟨r, h1, _, h3, h4, h5, h6, _⟩
      · rw [h2]
        simp only
        rw [if_neg (by omega)]
        apply ih (tp1 + 1) _ _ (by omega) (by omega)
        refine ⟨fun s a c f g1 g2 => ?_, hinv.2⟩
        rcases (by omega : a < tp1 ∨ a = tp1) with hh | hh
        · exact hinv.1 s a c f g1 hh
        · subst hh
          rw [← h1]
          exact hcover s c f g1
      · rw [h4]
        simp only
        rw [if_pos ⟨by omega, h6⟩]
        apply ih (tp1 + 1) _ _ (by omega) (by omega)
        have hb : h ≤ bound := by
          rcases hinv.2 with ⟨q, _⟩ | ⟨_, _, _, _, _, _, _, q⟩
          · exact q.ge
          · exact q.le
        refine ⟨fun s a c f g1 g2 => ?_, Or.inr ⟨t.best_start tp1, tp1, r,
          t.last_finish (t.best_start tp1), ⟨b0, b1, by omega, by omega, l1, l2⟩, rfl, rfl,
          by linarith⟩⟩
        rcases (by omega : a < tp1 ∨ a = tp1) with hh | hh
        · exact le_trans (hinv.1 s a c f g1 hh) (le_of_lt h6)
        · subst hh
          have hq := hcover s c f g1
          rw [h5] at hq
          exact hq
    · rw [if_neg hlt]
      exact ⟨fun s a c f h1 h2 => hinv.1 s a c f h1 (by omega), hinv.2⟩

/-- The result of `track_frcfd_aller_retour` on a preprocessed track with the
circuit tables of a positive closure radius `e`: twice the greatest
`δ(tp1, tp2)` over the out-and-returns with `tp1 < ntrkpts - 2`, or the initial
bound when none of them exceeds it. -/
theorem track_frcfd_aller_retour_spec (t : track_t) (hp : Preprocessed t) (e : ℚ)
    (he : 0 < e) (b : ℚ) :
    AllerRetourInv (track_compute_circuit_tables t e) e (b / 2.0) (t.ntrkpts - 2)
      ((track_frcfd_aller_retour (track_compute_circuit_tables t e) b).1 / 2)
      (track_frcfd_aller_retour (track_compute_circuit_tables t e) b).2 := by
  have h := track_frcfd_aller_retour_loop_spec (hp.circuit_tables e) e (b / 2.0)
    (track_compute_circuit_tables_spec hp e he) (t.ntrkpts - 2).toNat 0 (b / 2.0)
    [-1, -1, -1, -1] (le_refl _) (by simp) ⟨fun s a c f g1 g2 => by
      have := g1.1
      have := g1.2.1
      omega, Or.inl ⟨rfl, rfl⟩⟩
  have e2 : (track_frcfd_aller_retour (track_compute_circuit_tables t e) b).1 / 2 =
      (track_frcfd_aller_retour_loop (track_compute_circuit_tables t e)
        (t.ntrkpts - 2).toNat 0 (b / 2.0) [-1, -1, -1, -1]).1 := by
    unfold track_frcfd_aller_retour
    simp only [track_compute_circuit_tables_ntrkpts]
    norm_num
  rw [e2]
  exact h

/-- C2, counterexample: on the track 0, 5, 1 (thousandths) with closure radius
1/1000 the fixes `0 ≤ 0 < 1 ≤ 2` are an out-and-return in the sense of the claim
(start and finish exactly 1/1000 apart) with `2·δ(0,1) = 10/1000`, yet with
initial bound 0 `track_frcfd_aller_retour` returns 0 and writes no index. -/
theorem C2_aller_retour_closure_edge :
    OutAndReturnClosed closure_edge_track (1 / 1000) 0 0 1 2 ∧
    2 * track_delta closure_edge_track 0 1 = 10 / 1000 ∧
    track_frcfd_aller_retour closure_edge_track 0 = (0, [-1, -1, -1, -1]) := by
  unfold OutAndReturnClosed
  decide!

/-- On the two-fix track the fixes `0 ≤ 0 < 1 ≤ 1` are an out-and-return whose
ends are closer than the closure radius, yet `track_frcfd_aller_retour` with
initial bound 0 writes no index: its loop stops before `tp1 = ntrkpts - 2`. -/
theorem aller_retour_skips_last_pair :
    OutAndReturn two_fix_track (7 / 1000) 0 0 1 1 ∧
    0 < 2 * track_delta two_fix_track 0 1 ∧
    track_frcfd_aller_retour two_fix_track 0 = (0, [-1, -1, -1, -1]) := by
  unfold OutAndReturn
  decide!

/-- C2, amended: after `track_compute_circuit_tables` with a closure radius
`e > 0` on a preprocessed track, for every initial bound `b`, and provided an
out-and-return whose first turnpoint is the last-but-one fix is never the only
longest one above `b`, `track_frcfd_aller_retour` (iterations in order) returns
the greater of `b` and `2·D`, where `D` is the greatest `δ(tp1, tp2)` over the
out-and-returns `start ≤ tp1 < tp2 ≤ finish` whose start and finish are closer
than `e` (strictly); when `2·D > b` the four indexes written are such an
out-and-return with `δ(tp1, tp2) = D`, and otherwise all four are `-1`. -/
theorem C2_aller_retour_max (t : track_t) (hp : Preprocessed t) (e : ℚ) (he : 0 < e) (b : ℚ)
    (hlast : ∀ s, OutAndReturn (track_compute_circuit_tables t e) e s (t.ntrkpts - 2)
        (t.ntrkpts - 1) (t.ntrkpts - 1) →
      2 * track_delta t (t.ntrkpts - 2) (t.ntrkpts - 1) ≤ b ∨
      ∃ s' a c f, OutAndReturn (track_compute_circuit_tables t e) e s' a c f ∧
        a < t.ntrkpts - 2 ∧
        track_delta t (t.ntrkpts - 2) (t.ntrkpts - 1) ≤ track_delta t a c) :
    b ≤ (track_frcfd_aller_retour (track_compute_circuit_tables t e) b).1 ∧
    (∀ s a c f, OutAndReturn (track_compute_circuit_tables t e) e s a c f →
      2 * track_delta t a c ≤
        (track_frcfd_aller_retour (track_compute_circuit_tables t e) b).1) ∧
    ((∃ s a c f, OutAndReturn (track_compute_circuit_tables t e) e s a c f ∧
        b < 2 * track_delta t a c) →
      ∃ s a c f, OutAndReturn (track_compute_circuit_tables t e) e s a c f ∧
        (track_frcfd_aller_retour (track_compute_circuit_tables t e) b).2 = [s, a, c, f] ∧
        2 * track_delta t a c =
          (track_frcfd_aller_retour (track_compute_circuit_tables t e) b).1) ∧
    ((∀ s a c f, OutAndReturn (track_compute_circuit_tables t e) e s a c f →
        2 * track_delta t a c ≤ b) →
      (track_frcfd_aller_retour (track_compute_circuit_tables t e) b).1 = b ∧
      (track_frcfd_aller_retour (track_compute_circuit_tables t e) b).2 =
        [-1, -1, -1, -1]) := by
  obtain ⟨hall, hcase⟩ := track_frcfd_aller_retour_spec t hp e he b
  simp only [track_delta, track_compute_circuit_tables_delta] at hall hcase hlast ⊢
  have hb : b ≤ (track_frcfd_aller_retour (track_compute_circuit_tables t e) b).1 := by
    rcases hcase with ⟨q, _⟩ | ⟨_, _, _, _, _, _, _, q⟩
    · norm_num at q; linarith
    · norm_num at q; linarith
  have hall' : ∀ s a c f, OutAndReturn (track_compute_circuit_tables t e) e s a c f →
      2 * t.delta a c ≤ (track_frcfd_aller_retour (track_compute_circuit_tables t e) b).1 := by
    intro s a c f g
    rcases (by omega : a < t.ntrkpts - 2 ∨ t.ntrkpts - 2 ≤ a) with hh | hh
    · have := hall s a c f g hh
      linarith
    · obtain ⟨g0, g1, g2, g3, g4, g5⟩ := g
      simp only [track_compute_circuit_tables_ntrkpts] at g4
      have ha : a = t.ntrkpts - 2 := by omega
      have hc' : c = t.ntrkpts - 1 := by omega
      have hf : f = t.ntrkpts - 1 := by omega
      subst ha hc' hf
      rcases hlast s ⟨g0, g1, g2, g3, by simp, g5⟩ with q | ⟨s', a', c', f', q1, q2, q3⟩
      · linarith
      · have := hall s' a' c' f' q1 q2
        linarith
  refine ⟨hb, hall', ?_, ?_⟩
  · rintro ⟨s, a, c, f, g, hgt⟩
    rcases hcase with ⟨q, _⟩ | ⟨s', a', c', f', q1, q2, q3, _⟩
    · have := hall' s a c f g
      norm_num at q
      linarith
    · exact ⟨s', a', c', f', q1, q2, by linarith⟩
  · intro hle
    rcases hcase with ⟨q, q'⟩ | ⟨s', a', c', f', q1, _, q3, q4⟩
    · norm_num at q
      exact ⟨by linarith, q'⟩
    · have := hle s' a' c' f' q1
      norm_num at q4
      linarith

/-- C2, amended, applied to the track 0, 5, 1 with closure radius 3/2 and
initial bound 0. -/
theorem C2_aller_retour_max_witness :
    (Preprocessed out_and_return_track ∧ (0 : ℚ) < 3 / 2 ∧
      ∀ s, OutAndReturn (track_compute_circuit_tables out_and_return_track (3 / 2)) (3 / 2) s
          (out_and_return_track.ntrkpts - 2) (out_and_return_track.ntrkpts - 1)
          (out_and_return_track.ntrkpts - 1) →
        2 * track_delta out_and_return_track (out_and_return_track.ntrkpts - 2)
          (out_and_return_track.ntrkpts - 1) ≤ 0 ∨
        ∃ s' a c f,
          OutAndReturn (track_compute_circuit_tables out_and_return_track (3 / 2)) (3 / 2)
            s' a c f ∧
          a < out_and_return_track.ntrkpts - 2 ∧
          track_delta out_and_return_track (out_and_return_track.ntrkpts - 2)
            (out_and_return_track.ntrkpts - 1) ≤ track_delta out_and_return_track a c) ∧
    ((0 : ℚ) ≤
      (track_frcfd_aller_retour (track_compute_circuit_tables out_and_return_track (3 / 2))
        0).1 ∧
    (∀ s a c f,
      OutAndReturn (track_compute_circuit_tables out_and_return_track (3 / 2)) (3 / 2) s a c f →
      2 * track_delta out_and_return_track a c ≤
        (track_frcfd_aller_retour (track_compute_circuit_tables out_and_return_track (3 / 2))
          0).1) ∧
    ((∃ s a c f,
        OutAndReturn (track_compute_circuit_tables out_and_return_track (3 / 2)) (3 / 2)
          s a c f ∧
        0 < 2 * track_delta out_and_return_track a c) →
      ∃ s a c f,
        OutAndReturn (track_compute_circuit_tables out_and_return_track (3 / 2)) (3 / 2)
          s a c f ∧
        (track_frcfd_aller_retour (track_compute_circuit_tables out_and_return_track (3 / 2))
          0).2 = [s, a, c, f] ∧
        2 * track_delta out_and_return_track a c =
          (track_frcfd_aller_retour (track_compute_circuit_tables out_and_return_track (3 / 2))
            0).1) ∧
    ((∀ s a c f,
        OutAndReturn (track_compute_circuit_tables out_and_return_track (3 / 2)) (3 / 2)
          s a c f →
        2 * track_delta out_and_return_track a c ≤ 0) →
      (track_frcfd_aller_retour (track_compute_circuit_tables out_and_return_track (3 / 2))
        0).1 = 0 ∧
      (track_frcfd_aller_retour (track_compute_circuit_tables out_and_return_track (3 / 2))
        0).2 = [-1, -1, -1, -1])) :=
  ⟨⟨plane_track_preprocessed _, by norm_num,
      fun _ _ => Or.inr ⟨0, 0, 1, 2, by unfold OutAndReturn; decide!, by decide!, by decide!⟩⟩,
    C2_aller_retour_max out_and_return_track (plane_track_preprocessed _) (3 / 2)
      (by norm_num) 0
      (fun _ _ => Or.inr ⟨0, 0, 1, 2, by unfold OutAndReturn; decide!, by decide!, by decide!⟩)⟩

/-! ## `track_frcfd_triangle_fai`: what the search does not miss -/

/-- In an FAI triangle the legs at `tp2` lie between the two bounds that the
search derives from the closing leg. -/
theorem FaiShape.leg_bounds {l1 l2 l3 : ℚ} (h : FaiShape l1 l2 l3) :
    0.28 * l3 / 0.44 ≤ l1 ∧ l1 ≤ 0.44 * l3 / 0.28 ∧
    0.28 * l3 / 0.44 ≤ l2 ∧ l2 ≤ 0.44 * l3 / 0.28 := by
  obtain ⟨h1, h2, h3⟩ := h
  norm_num at h1 h2 h3 ⊢
  refine ⟨?_, ?_, ?_, ?_⟩ <;> linarith

/-- When the closing leg is below 44% of the perimeter, the legs at `tp2` are
strictly above the lower bound derived from it. -/
theorem FaiShape.leg_bounds_strict {l1 l2 l3 : ℚ} (h : FaiShape l1 l2 l3)
    (hs : l3 < 0.44 * (l1 + l2 + l3)) :
    0.28 * l3 / 0.44 < l1 ∧ 0.28 * l3 / 0.44 < l2 := by
  obtain ⟨h1, h2, h3⟩ := h
  norm_num at h1 h2 h3 hs ⊢
  constructor <;> linarith

theorem fai_shape_deficit_pos {l1 l2 sh lo : ℚ} (h : fai_shape_deficit l1 l2 sh lo > 0.0) :
    (l1 < sh ∧ fai_shape_deficit l1 l2 sh lo ≤ sh - l1) ∨
    (l1 > lo ∧ fai_shape_deficit l1 l2 sh lo ≤ l1 - lo) ∨
    (l2 < sh ∧ fai_shape_deficit l1 l2 sh lo ≤ sh - l2) ∨
    (l2 > lo ∧ fai_shape_deficit l1 l2 sh lo ≤ l2 - lo) := by
  unfold fai_shape_deficit at h ⊢
  simp only at h ⊢
  norm_num at h ⊢
  split_ifs at h ⊢ <;> simp_all

theorem fai_leg_deficit_pos {d l1 l2 l3 tlb : ℚ} (hd : d ≤ 0)
    (h : fai_leg_deficit d l1 l2 l3 tlb > 0.0) :
    (l1 < tlb ∧ fai_leg_deficit d l1 l2 l3 tlb ≤ tlb - l1) ∨
    (l2 < tlb ∧ fai_leg_deficit d l1 l2 l3 tlb ≤ tlb - l2) ∨
    (l3 < tlb ∧ fai_leg_deficit d l1 l2 l3 tlb ≤ tlb - l3) := by
  unfold fai_leg_deficit at h ⊢
  simp only at h ⊢
  norm_num at h ⊢
  split_ifs at h ⊢ <;> simp_all
  linarith

/-- Moving one end of a leg forward changes the leg by at most the arc length
travelled, in either direction and for either orientation of the leg. -/
theorem Preprocessed.leg_change {t : track_t} (hp : Preprocessed t) (x j k : Int)
    (hx : 0 ≤ x) (hx' : x < t.ntrkpts) (hj : 0 ≤ j) (hjk : j ≤ k) (hk : k < t.ntrkpts) :
    t.delta x k ≤ t.delta x j + (t.sigma_delta k - t.sigma_delta j) ∧
    t.delta x j ≤ t.delta x k + (t.sigma_delta k - t.sigma_delta j) ∧
    t.delta k x ≤ t.delta j x + (t.sigma_delta k - t.sigma_delta j) ∧
    t.delta j x ≤ t.delta k x + (t.sigma_delta k - t.sigma_delta j) := by
  have h1 := hp.delta_triangle x j k hx hx' hj (by omega) (by omega) hk
  have h2 := hp.delta_triangle x k j hx hx' (by omega) hk hj (by omega)
  have h3 := hp.delta_le_sigma j k hj hjk hk
  have h4 := hp.delta_symm k j (by omega) hk hj (by omega)
  have h5 := hp.delta_symm k x (by omega) hk hx hx'
  have h6 := hp.delta_symm j x hj (by omega) hx hx'
  refine ⟨?_, ?_, ?_, ?_⟩ <;> linarith

theorem track_first_at_least_loop_spec {t : track_t} (hp : Preprocessed t) (i begin_ end_ : Int)
    (bound : ℚ) (hi : 0 ≤ i) (hi' : i < t.ntrkpts) (hb : 0 ≤ begin_) (he : end_ ≤ t.ntrkpts) :
    ∀ (fuel : Nat) (j : Int), begin_ ≤ j → (end_ - j).toNat ≤ fuel →
      (∀ k, begin_ ≤ k → k < j → k < end_ → t.delta i k ≤ bound) →
      (track_first_at_least_loop t i end_ bound fuel j = -1 ∧
        ∀ k, begin_ ≤ k → k < end_ → t.delta i k ≤ bound) ∨
      (begin_ ≤ track_first_at_least_loop t i end_ bound fuel j ∧
        track_first_at_least_loop t i end_ bound fuel j < end_ ∧
        bound < t.delta i (track_first_at_least_loop t i end_ bound fuel j) ∧
        ∀ k, begin_ ≤ k → k < track_first_at_least_loop t i end_ bound fuel j →
          t.delta i k ≤ bound) := by
  intro fuel
  induction fuel with
  | zero =>
    intro j _ hf hall
    exact Or.inl ⟨rfl, fun k h1 h2 => hall k h1 (by omega) h2⟩
  | succ fuel ih =>
    intro j hbj hf hall
    unfold track_first_at_least_loop
    simp only [track_delta]
    by_cases hje : j < end_
    · rw [if_pos hje]
      by_cases hgt : t.delta i j > bound
      · rw [if_pos hgt]
        exact Or.inr ⟨hbj, hje, hgt, fun k h1 h2 => hall k h1 h2 (by omega)⟩
      · rw [if_neg hgt]
        obtain ⟨r1, r2, _⟩ := track_fast_forward_spec hp j (bound - t.delta i j) (by omega)
        apply ih _ (by omega) (by omega)
        intro k h1 h2 h3
        rcases lt_trichotomy k j with h | h | h
        · exact hall k h1 h h3
        · subst h; exact not_lt.mp hgt
        · have hs := r2 k h h2 (by omega)
          have hl := (hp.leg_change i j k hi hi' (by omega) (by omega) (by omega)).1
          linarith
    · rw [if_neg hje]
      exact Or.inl ⟨rfl, fun k h1 h2 => hall k h1 (by omega) h2⟩

/-- The function `track_first_at_least` on a preprocessed track: `-1` when no fix of the
range is farther than `bound` from `i`, else the first such fix. -/
theorem track_first_at_least_spec {t : track_t} (hp : Preprocessed t) (i begin_ end_ : Int)
    (bound : ℚ) (hi : 0 ≤ i) (hi' : i < t.ntrkpts) (hb : 0 ≤ begin_) (he : end_ ≤ t.ntrkpts) :
    (track_first_at_least t i begin_ end_ bound = -1 ∧
      ∀ k, begin_ ≤ k → k < end_ → t.delta i k ≤ bound) ∨
    (begin_ ≤ track_first_at_least t i begin_ end_ bound ∧
      track_first_at_least t i begin_ end_ bound < end_ ∧
      bound < t.delta i (track_first_at_least t i begin_ end_ bound) ∧
      ∀ k, begin_ ≤ k → k < track_first_at_least t i begin_ end_ bound →
        t.delta i k ≤ bound) :=
  track_first_at_least_loop_spec hp i begin_ end_ bound hi hi' hb he (end_ - begin_).toNat
    begin_ (le_refl _) (le_refl _) (fun k h1 h2 => by omega)

theorem track_last_at_least_loop_spec {t : track_t} (hp : Preprocessed t) (i begin_ end_ : Int)
    (bound : ℚ) (hi : 0 ≤ i) (hi' : i < t.ntrkpts) (hb : 0 ≤ begin_) (he : end_ ≤ t.ntrkpts) :
    ∀ (fuel : Nat) (j : Int), j < end_ → (j + 1 - begin_).toNat ≤ fuel →
      (∀ k, j < k → k < end_ → begin_ ≤ k → t.delta i k ≤ bound) →
      (track_last_at_least_loop t i begin_ bound fuel j = -1 ∧
        ∀ k, begin_ ≤ k → k < end_ → t.delta i k ≤ bound) ∨
      (begin_ ≤ track_last_at_least_loop t i begin_ bound fuel j ∧
        track_last_at_least_loop t i begin_ bound fuel j < end_ ∧
        bound < t.delta i (track_last_at_least_loop t i begin_ bound fuel j) ∧
        ∀ k, track_last_at_least_loop t i begin_ bound fuel j < k → k < end_ →
          t.delta i k ≤ bound) := by
  intro fuel
  induction fuel with
  | zero =>
    intro j _ hf hall
    exact Or.inl ⟨rfl, fun k h1 h2 => hall k (by omega) h2 h1⟩
  | succ fuel ih =>
    intro j hje hf hall
    unfold track_last_at_least_loop
    simp only [track_delta]
    by_cases hjb : j ≥ begin_
    · rw [if_pos hjb]
      by_cases hgt : t.delta i j > bound
      · rw [if_pos hgt]
        exact Or.inr ⟨hjb, hje, hgt, fun k h1 h2 => hall k h1 h2 (by omega)⟩
      · rw [if_neg hgt]
        obtain ⟨r1, r2, _⟩ := track_fast_backward_spec hp j (bound - t.delta i j) (by omega)
        apply ih _ (by omega) (by omega)
        intro k h1 h2 h3
        rcases lt_trichotomy k j with h | h | h
        · have hs := r2 k h1 h (by omega)
          have hl := (hp.leg_change i k j hi hi' (by omega) (by omega) (by omega)).2.1
          linarith
        · subst h; exact not_lt.mp hgt
        · exact hall k h h2 h3
    · rw [if_neg hjb]
      exact Or.inl ⟨rfl, fun k h1 h2 => hall k (by omega) h2 h1⟩

/-- The function `track_last_at_least` on a preprocessed track: `-1` when no fix of the
range is farther than `bound` from `i`, else the last such fix. -/
theorem track_last_at_least_spec {t : track_t} (hp : Preprocessed t) (i begin_ end_ : Int)
    (bound : ℚ) (hi : 0 ≤ i) (hi' : i < t.ntrkpts) (hb : 0 ≤ begin_) (he : end_ ≤ t.ntrkpts) :
    (track_last_at_least t i begin_ end_ bound = -1 ∧
      ∀ k, begin_ ≤ k → k < end_ → t.delta i k ≤ bound) ∨
    (begin_ ≤ track_last_at_least t i begin_ end_ bound ∧
      track_last_at_least t i begin_ end_ bound < end_ ∧
      bound < t.delta i (track_last_at_least t i begin_ end_ bound) ∧
      ∀ k, track_last_at_least t i begin_ end_ bound < k → k < end_ →
        t.delta i k ≤ bound) :=
  track_last_at_least_loop_spec hp i begin_ end_ bound hi hi' hb he (end_ - begin_).toNat
    (end_ - 1) (by omega) (by omega) (fun k h1 h2 => by omega)

theorem FaiState.fai_bound_ge {t : track_t} {e b : ℚ} {st : fai_state} (h : FaiState t e b st) :
    b ≤ st.bound := by
  rcases h.2 with ⟨h1, _⟩ | ⟨h1, _⟩
  · exact h1.ge
  · exact h1

theorem track_frcfd_triangle_fai_tp2_complete {t : track_t} (hp : Preprocessed t) (e b : ℚ)
    (start a d finish : Int) (hs0 : 0 ≤ start) (hsa : start ≤ a) (hdf : d ≤ finish)
    (hfn : finish < t.ntrkpts) (hclose : t.delta start finish < e) (tp2last : Int)
    (hlast : tp2last < d) (first : Int) (hfirst : a < first) :
    ∀ (fuel : Nat) (tp2 : Int) (st : fai_state), first ≤ tp2 →
      (tp2last + 1 - tp2).toNat ≤ fuel → FaiState t e b st →
      (∀ c, first ≤ c → c < tp2 → c ≤ tp2last → FaiTriangle t a c d →
        perimeter t a c d ≤ st.bound) →
      FaiState t e b (track_frcfd_triangle_fai_tp2 t start a d finish (t.delta d a)
        (0.28 * t.delta d a / 0.44) (0.44 * t.delta d a / 0.28) tp2last fuel tp2 st) ∧
      st.bound ≤ (track_frcfd_triangle_fai_tp2 t start a d finish (t.delta d a)
        (0.28 * t.delta d a / 0.44) (0.44 * t.delta d a / 0.28) tp2last fuel tp2 st).bound ∧
      ∀ c, first ≤ c → c ≤ tp2last → FaiTriangle t a c d →
        perimeter t a c d ≤ (track_frcfd_triangle_fai_tp2 t start a d finish (t.delta d a)
          (0.28 * t.delta d a / 0.44) (0.44 * t.delta d a / 0.28) tp2last fuel tp2 st).bound := by
  intro fuel
  induction fuel with
  | zero =>
    intro tp2 st _ hf hst hcov
    exact ⟨hst, le_refl _, fun c h1 h2 => hcov c h1 (by omega) h2⟩
  | succ fuel ih =>
    intro tp2 st hft hf hst hcov
    rw [track_frcfd_triangle_fai_tp2_step]
    split_ifs with h0 h1 h2 h3
    · -- a leg at `tp2` is outside the bounds derived from `leg3`
      obtain ⟨r1, r2, _⟩ := track_fast_forward_spec hp tp2
        (fai_shape_deficit (t.delta a tp2) (t.delta tp2 d) (0.28 * t.delta d a / 0.44)
          (0.44 * t.delta d a / 0.28)) (by omega)
      apply ih _ st (by omega) (by omega) hst
      intro c g1 g2 g3 g4
      rcases lt_trichotomy c tp2 with h | h | h
      · exact hcov c g1 h g3 g4
      · subst h
        exfalso
        obtain ⟨q1, q2, q3, q4⟩ := FaiShape.leg_bounds g4
        rcases fai_shape_deficit_pos h1 with ⟨z, _⟩ | ⟨z, _⟩ | ⟨z, _⟩ | ⟨z, _⟩ <;> linarith
      · exfalso
        have hs := r2 c h g2 (by omega)
        obtain ⟨la, lb, _, _⟩ := hp.leg_change a tp2 c (by omega) (by omega) (by omega)
          (by omega) (by omega)
        obtain ⟨_, _, lc, ld⟩ := hp.leg_change d tp2 c (by omega) (by omega) (by omega)
          (by omega) (by omega)
        obtain ⟨q1, q2, q3, q4⟩ := FaiShape.leg_bounds g4
        rcases fai_shape_deficit_pos h1 with ⟨z, z'⟩ | ⟨z, z'⟩ | ⟨z, z'⟩ | ⟨z, z'⟩ <;> linarith
    · -- a leg is below 28% of the perimeter
      have hd1 := not_lt.mp h1
      obtain ⟨r1, r2, _⟩ := track_fast_forward_spec hp tp2
        (0.5 * fai_leg_deficit (fai_shape_deficit (t.delta a tp2) (t.delta tp2 d)
          (0.28 * t.delta d a / 0.44) (0.44 * t.delta d a / 0.28)) (t.delta a tp2)
          (t.delta tp2 d) (t.delta d a)
          (0.28 * (t.delta a tp2 + t.delta tp2 d + t.delta d a))) (by omega)
      apply ih _ st (by omega) (by omega) hst
      intro c g1 g2 g3 g4
      rcases lt_trichotomy c tp2 with h | h | h
      · exact hcov c g1 h g3 g4
      · subst h
        exfalso
        obtain ⟨q1, q2, q3⟩ := g4
        rcases fai_leg_deficit_pos (by norm_num at hd1 ⊢; exact hd1) h2 with
          ⟨z, _⟩ | ⟨z, _⟩ | ⟨z, _⟩ <;> linarith
      · exfalso
        have hs := r2 c h g2 (by omega)
        obtain ⟨la, lb, _, _⟩ := hp.leg_change a tp2 c (by omega) (by omega) (by omega)
          (by omega) (by omega)
        obtain ⟨_, _, lc, ld⟩ := hp.leg_change d tp2 c (by omega) (by omega) (by omega)
          (by omega) (by omega)
        obtain ⟨q1, q2, q3⟩ := g4
        have hpos : (0 : ℚ) < fai_leg_deficit (fai_shape_deficit (t.delta a tp2) (t.delta tp2 d)
          (0.28 * t.delta d a / 0.44) (0.44 * t.delta d a / 0.28)) (t.delta a tp2)
          (t.delta tp2 d) (t.delta d a)
          (0.28 * (t.delta a tp2 + t.delta tp2 d + t.delta d a)) := by
          norm_num at h2 ⊢; exact h2
        norm_num at q1 q2 q3 hs
        rcases fai_leg_deficit_pos (by norm_num at hd1 ⊢; exact hd1) h2 with
          ⟨z, z'⟩ | ⟨z, z'⟩ | ⟨z, z'⟩ <;> norm_num at z z' <;> linarith
    · -- a valid triangle, shorter than the bound
      obtain ⟨r1, r2, _⟩ := track_fast_forward_spec hp tp2
        (0.5 * (st.bound - (t.delta a tp2 + t.delta tp2 d + t.delta d a))) (by omega)
      apply ih _ st (by omega) (by omega) hst
      intro c g1 g2 g3 g4
      rcases lt_trichotomy c tp2 with h | h | h
      · exact hcov c g1 h g3 g4
      · subst h
        unfold perimeter
        linarith
      · have hs := r2 c h g2 (by omega)
        obtain ⟨la, lb, _, _⟩ := hp.leg_change a tp2 c (by omega) (by omega) (by omega)
          (by omega) (by omega)
        obtain ⟨_, _, lc, ld⟩ := hp.leg_change d tp2 c (by omega) (by omega) (by omega)
          (by omega) (by omega)
        unfold perimeter
        norm_num at hs
        linarith
    · -- a valid triangle at least as long as the bound: it is recorded
      have hge := not_lt.mp h3
      obtain ⟨q1, q2, q3⟩ := fai_leg_deficit_nonpos h2
      obtain ⟨i1, i2, i3⟩ := ih (tp2 + 1)
        ⟨t.delta a tp2 + t.delta tp2 d + t.delta d a,
          0.28 * (t.delta a tp2 + t.delta tp2 d + t.delta d a), [start, a, tp2, d, finish]⟩
        (by omega) (by omega)
        ⟨rfl, Or.inr ⟨le_trans hst.fai_bound_ge hge, start, a, tp2, d, finish, rfl, hs0, hsa,
          by omega, by omega, hdf, hfn, hclose, rfl, q1, q2, q3⟩⟩
        (by
          intro c g1 g2 g3 g4
          rcases (by omega : c < tp2 ∨ c = tp2) with h | h
          · exact le_trans (hcov c g1 h g3 g4) hge
          · subst h; exact le_refl _)
      exact ⟨i1, le_trans hge i2, i3⟩
    · exact ⟨hst, le_refl _, fun c g1 g2 => hcov c g1 (by omega) g2⟩

theorem FaiCandidate.strict {t : track_t} {a c d : Int} (h : FaiCandidate t a c d) :
    0.28 * t.delta d a / 0.44 < t.delta a c ∧ 0.28 * t.delta d a / 0.44 < t.delta c d :=
  FaiShape.leg_bounds_strict h.2.2.1 h.2.2.2

theorem track_frcfd_triangle_fai_tp3_complete {t : track_t} (hp : Preprocessed t) (e b : ℚ)
    (start a finish : Int) (hs0 : 0 ≤ start) (hsa : start ≤ a) (hfn : finish < t.ntrkpts)
    (hclose : t.delta start finish < e) (tp3first tp3last : Int) (h3f : a + 2 ≤ tp3first)
    (h3l : tp3last ≤ finish) :
    ∀ (fuel : Nat) (tp3 : Int) (st : fai_state), tp3 ≤ tp3last →
      (tp3 + 1 - tp3first).toNat ≤ fuel → FaiState t e b st →
      (∀ d c, tp3 < d → d ≤ tp3last → FaiCandidate t a c d → perimeter t a c d ≤ st.bound) →
      FaiState t e b (track_frcfd_triangle_fai_tp3 t start a finish tp3first fuel tp3 st) ∧
      st.bound ≤ (track_frcfd_triangle_fai_tp3 t start a finish tp3first fuel tp3 st).bound ∧
      ∀ d c, tp3first ≤ d → d ≤ tp3last → FaiCandidate t a c d →
        perimeter t a c d ≤
          (track_frcfd_triangle_fai_tp3 t start a finish tp3first fuel tp3 st).bound := by
  intro fuel
  induction fuel with
  | zero =>
    intro tp3 st _ hf hst hcov
    exact ⟨hst, le_refl _, fun d c h1 h2 => hcov d c (by omega) h2⟩
  | succ fuel ih =>
    intro tp3 st ht3 hf hst hcov
    unfold track_frcfd_triangle_fai_tp3
    simp only [track_delta]
    split_ifs with c0 c1 c2 c3
    · -- the closing leg is below `legbound`
      obtain ⟨r1, r2, _⟩ := track_fast_backward_spec hp tp3 (st.legbound - t.delta tp3 a)
        (by omega)
      apply ih _ st (by omega) (by omega) hst
      intro d c g1 g2 g3
      have hlb := hst.1
      rcases lt_trichotomy d tp3 with h | h | h
      · have hs := r2 d g1 h (by have := g3.1; have := g3.2.1; omega)
        have hl := (hp.leg_change a d tp3 (by omega) (by omega)
          (by have := g3.1; have := g3.2.1; omega) (by omega) (by omega)).2.2.2
        have q3 := g3.2.2.1.2.2
        unfold perimeter
        norm_num at q3 hlb
        linarith
      · subst h
        have q3 := g3.2.2.1.2.2
        unfold perimeter
        norm_num at q3 hlb
        linarith
      · exact hcov d c h g2 g3
    · -- no `tp2` far enough from `tp1`
      apply ih _ st (by omega) (by omega) hst
      intro d c g1 g2 g3
      rcases (by omega : tp3 < d ∨ d = tp3) with h | h
      · exact hcov d c h g2 g3
      · subst h
        exfalso
        rcases track_first_at_least_spec hp a (a + 1) (d - 1) (0.28 * t.delta d a / 0.44)
          (by omega) (by omega) (by omega) (by omega) with ⟨_, q⟩ | ⟨q, _⟩
        · have := q c (by have := g3.1; omega) (by have := g3.2.1; omega)
          have := g3.strict.1
          linarith
        · omega
    · -- no `tp2` far enough from `tp3`
      apply ih _ st (by omega) (by omega) hst
      intro d c g1 g2 g3
      rcases (by omega : tp3 < d ∨ d = tp3) with h | h
      · exact hcov d c h g2 g3
      · subst h
        exfalso
        rcases track_first_at_least_spec hp a (a + 1) (d - 1) (0.28 * t.delta d a / 0.44)
          (by omega) (by omega) (by omega) (by omega) with ⟨q, _⟩ | ⟨q1, q2, q3, q4⟩
        · omega
        · have hc1 : track_first_at_least t a (a + 1) (d - 1) (0.28 * t.delta d a / 0.44) ≤ c := by
            by_contra hcon
            have := q4 c (by have := g3.1; omega) (by omega)
            have := g3.strict.1
            linarith
          rcases track_last_at_least_spec hp d
            (track_first_at_least t a (a + 1) (d - 1) (0.28 * t.delta d a / 0.44)) d
            (0.28 * t.delta d a / 0.44) (by omega) (by omega) (by omega) (by omega) with
            ⟨_, p⟩ | ⟨p, _⟩
          · have := p c hc1 (by have := g3.2.1; omega)
            have := g3.strict.2
            have := hp.delta_symm d c (by omega) (by omega) (by have := g3.1; omega)
              (by have := g3.2.1; omega)
            linarith
          · omega
    · -- the `tp2` loop runs over `[tp2first, tp2last]`
      rcases track_first_at_least_spec hp a (a + 1) (tp3 - 1) (0.28 * t.delta tp3 a / 0.44)
        (by omega) (by omega) (by omega) (by omega) with ⟨q, _⟩ | ⟨q1, q2, q3, q4⟩
      · omega
      rcases track_last_at_least_spec hp tp3
        (track_first_at_least t a (a + 1) (tp3 - 1) (0.28 * t.delta tp3 a / 0.44)) tp3
        (0.28 * t.delta tp3 a / 0.44) (by omega) (by omega) (by omega) (by omega) with
        ⟨p, _⟩ | ⟨p1, p2, p3, p4⟩
      · omega
      obtain ⟨i1, i2, i3⟩ := track_frcfd_triangle_fai_tp2_complete hp e b start a tp3 finish
        hs0 hsa (by omega) hfn hclose
        (track_last_at_least t tp3
          (track_first_at_least t a (a + 1) (tp3 - 1) (0.28 * t.delta tp3 a / 0.44)) tp3
          (0.28 * t.delta tp3 a / 0.44)) p2
        (track_first_at_least t a (a + 1) (tp3 - 1) (0.28 * t.delta tp3 a / 0.44))
        (by omega) _ _ st (le_refl _) (le_refl _) hst (fun c g1 g2 => by omega)
      obtain ⟨j1, j2, j3⟩ := ih (tp3 - 1) _ (by omega) (by omega) i1 (by
        intro d c g1 g2 g3
        rcases (by omega : tp3 < d ∨ d = tp3) with h | h
        · exact le_trans (hcov d c h g2 g3) i2
        · subst h
          have hc1 : track_first_at_least t a (a + 1) (d - 1) (0.28 * t.delta d a / 0.44) ≤ c := by
            by_contra hcon
            have := q4 c (by have := g3.1; omega) (by omega)
            have := g3.strict.1
            linarith
          have hc2 : c ≤ track_last_at_least t d
              (track_first_at_least t a (a + 1) (d - 1) (0.28 * t.delta d a / 0.44)) d
              (0.28 * t.delta d a / 0.44) := by
            by_contra hcon
            have := p4 c (by omega) (by have := g3.2.1; omega)
            have := g3.strict.2
            have := hp.delta_symm d c (by omega) (by omega) (by have := g3.1; omega)
              (by have := g3.2.1; omega)
            linarith
          exact i3 c hc1 hc2 g3.2.2.1)
      exact ⟨j1, le_trans i2 j2, j3⟩
    · exact ⟨hst, le_refl _, fun d c g1 g2 => hcov d c (by omega) g2⟩

theorem track_frcfd_triangle_fai_tp1_complete {t : track_t} (hp : Preprocessed t) (e b : ℚ)
    (hc : CircuitTablesUpTo t e t.ntrkpts t.last_finish t.best_start) :
    ∀ (fuel : Nat) (tp1 : Int) (st : fai_state), 0 ≤ tp1 →
      (t.ntrkpts - 2 - tp1).toNat ≤ fuel → FaiState t e b st →
      (∀ a c d, a < tp1 → FaiAdmissible t e a c d → perimeter t a c d ≤ st.bound) →
      FaiState t e b (track_frcfd_triangle_fai_tp1 t fuel tp1 st) ∧
      st.bound ≤ (track_frcfd_triangle_fai_tp1 t fuel tp1 st).bound ∧
      ∀ a c d, FaiAdmissible t e a c d →
        perimeter t a c d ≤ (track_frcfd_triangle_fai_tp1 t fuel tp1 st).bound := by
  intro fuel
  induction fuel with
  | zero =>
    intro tp1 st _ hf hst hcov
    refine ⟨hst, le_refl _, fun a c d g => hcov a c d ?_ g⟩
    obtain ⟨⟨g1, g2, _⟩, s, f, _, _, g5, g6, _⟩ := g
    omega
  | succ fuel ih =>
    intro tp1 st h0 hf hst hcov
    unfold track_frcfd_triangle_fai_tp1
    by_cases hlt : tp1 < t.ntrkpts - 2
    · rw [if_pos hlt]
      simp only
      obtain ⟨b0, b1, b2, _⟩ := hc.2 tp1 h0 (by omega)
      obtain ⟨l0, l1, l2, _⟩ := hc.1 (t.best_start tp1) b0 (by omega)
      rw [if_neg (by omega : ¬ t.last_finish (t.best_start tp1) < 0)]
      have hlb := hst.1
      -- an admissible triangle at `tp1` has `tp3` inside the window of the tables
      have hwin : ∀ c d, FaiAdmissible t e tp1 c d →
          tp1 + 2 ≤ d ∧ d ≤ t.last_finish (t.best_start tp1) := by
        rintro c d ⟨⟨g1, g2, _⟩, s, f, g3, g4, g5, g6, g7⟩
        have hf1 : f ≤ t.last_finish s := by
          by_contra hcon
          have := (hc.1 s g3 (by omega)).2.2.2 f (by omega) g6
          linarith
        have := b2 s g3 g4
        omega
      -- a closing leg not above `legbound` cannot improve on the bound
      have hshort : ∀ c d, FaiAdmissible t e tp1 c d → t.delta tp1 d ≤ st.legbound →
          perimeter t tp1 c d ≤ st.bound := by
        intro c d g hle
        obtain ⟨w1, w2⟩ := hwin c d g
        have q3 := g.1.2.2.1.2.2
        have hsym := hp.delta_symm tp1 d h0 (by omega) (by omega) (by omega)
        unfold perimeter
        norm_num at q3 hlb
        linarith
      have hstep : ∀ st' : fai_state, FaiState t e b st' → st.bound ≤ st'.bound →
          (∀ c d, FaiAdmissible t e tp1 c d → perimeter t tp1 c d ≤ st'.bound) →
          FaiState t e b (track_frcfd_triangle_fai_tp1 t fuel (tp1 + 1) st') ∧
          st.bound ≤ (track_frcfd_triangle_fai_tp1 t fuel (tp1 + 1) st').bound ∧
          ∀ a c d, FaiAdmissible t e a c d →
            perimeter t a c d ≤ (track_frcfd_triangle_fai_tp1 t fuel (tp1 + 1) st').bound := by
        intro st' hst' hmono hnew
        obtain ⟨j1, j2, j3⟩ := ih (tp1 + 1) st' (by omega) (by omega) hst' (by
          intro a c d g1 g2
          rcases (by omega : a < tp1 ∨ a = tp1) with h | h
          · exact le_trans (hcov a c d h g2) hmono
          · subst h; exact hnew c d g2)
        exact ⟨j1, le_trans hmono j2, j3⟩
      rcases track_first_at_least_spec hp tp1 (tp1 + 2) (t.last_finish (t.best_start tp1) + 1)
        st.legbound h0 (by omega) (by omega) (by omega) with ⟨q, qall⟩ | ⟨q1, q2, q3, q4⟩
      · rw [if_pos (by omega)]
        refine hstep st hst (le_refl _) (fun c d g => hshort c d g ?_)
        obtain ⟨w1, w2⟩ := hwin c d g
        exact qall d w1 (by omega)
      · rw [if_neg (by omega)]
        rcases track_last_at_least_spec hp tp1
          (track_first_at_least t tp1 (tp1 + 2) (t.last_finish (t.best_start tp1) + 1)
            st.legbound) (t.last_finish (t.best_start tp1) + 1) st.legbound h0 (by omega)
          (by omega) (by omega) with ⟨p, pall⟩ | ⟨p1, p2, p3, p4⟩
        · rw [if_pos (by omega)]
          refine hstep st hst (le_refl _) (fun c d g => hshort c d g ?_)
          obtain ⟨w1, w2⟩ := hwin c d g
          rcases lt_or_le d (track_first_at_least t tp1 (tp1 + 2)
            (t.last_finish (t.best_start tp1) + 1) st.legbound) with h | h
          · exact q4 d w1 h
          · exact pall d h (by omega)
        · rw [if_neg (by omega)]
          obtain ⟨i1, i2, i3⟩ := track_frcfd_triangle_fai_tp3_complete hp e b
            (t.best_start tp1) tp1 (t.last_finish (t.best_start tp1)) b0 b1 l1 l2
            (track_first_at_least t tp1 (tp1 + 2) (t.last_finish (t.best_start tp1) + 1)
              st.legbound)
            (track_last_at_least t tp1
              (track_first_at_least t tp1 (tp1 + 2) (t.last_finish (t.best_start tp1) + 1)
                st.legbound) (t.last_finish (t.best_start tp1) + 1) st.legbound)
            q1 (by omega) _ _ st (le_refl _) (le_refl _) hst (fun d c g1 g2 => by omega)
          refine hstep _ i1 i2 (fun c d g => ?_)
          obtain ⟨w1, w2⟩ := hwin c d g
          rcases lt_or_le d (track_first_at_least t tp1 (tp1 + 2)
            (t.last_finish (t.best_start tp1) + 1) st.legbound) with h | h
          · exact le_trans (hshort c d g (q4 d w1 h)) i2
          · rcases le_or_lt d (track_last_at_least t tp1
              (track_first_at_least t tp1 (tp1 + 2) (t.last_finish (t.best_start tp1) + 1)
                st.legbound) (t.last_finish (t.best_start tp1) + 1) st.legbound) with h' | h'
            · exact i3 d c h h' g.1
            · exact le_trans (hshort c d g (p4 d h' (by omega))) i2
    · rw [if_neg hlt]
      refine ⟨hst, le_refl _, fun a c d g => hcov a c d ?_ g⟩
      obtain ⟨⟨g1, g2, _⟩, s, f, _, _, g5, g6, _⟩ := g
      omega

/-- On the open triangle track with closure radius 1/1000 the fixes `0 < 1 < 3`
lie inside the window `start = 0`, `finish = 4` whose ends are exactly 1/1000
apart, every leg is 4/1000, a third of the perimeter 12/1000, which exceeds the
initial bound 0; yet `track_frcfd_triangle_fai` returns 0 and writes no index:
the circuit tables close a window only when its ends are strictly closer than
the radius. -/
theorem triangle_fai_closure_edge :
    ((0 : Int) ≤ 0 ∧ (3 : Int) ≤ 4 ∧ (4 : Int) < open_triangle_track.ntrkpts ∧
      track_delta open_triangle_track 0 4 ≤ 1 / 1000) ∧
    FaiShape (track_delta open_triangle_track 0 1) (track_delta open_triangle_track 1 3)
      (track_delta open_triangle_track 3 0) ∧
    track_delta open_triangle_track 0 1 + track_delta open_triangle_track 1 3 +
      track_delta open_triangle_track 3 0 = 12 / 1000 ∧
    track_frcfd_triangle_fai open_triangle_track 0 = (0, [-1, -1, -1, -1, -1]) := by
  unfold FaiShape
  decide!

/-- On the three-vertex track the triangle `0 < 1 < 2` has three equal legs and
lies inside the closed window `start = 0`, `finish = 3`, yet
`track_frcfd_triangle_fai` with initial bound 0 writes no index: the range
searched for `tp2` ends at `tp3 - 2`, so a `tp2` just before `tp3` is never
found first. -/
theorem triangle_fai_misses_adjacent_turnpoint :
    track_delta three_vertex_track 0 3 < 1 / 1000 ∧
    FaiShape (track_delta three_vertex_track 0 1) (track_delta three_vertex_track 1 2)
      (track_delta three_vertex_track 2 0) ∧
    track_frcfd_triangle_fai three_vertex_track 0 = (0, [-1, -1, -1, -1, -1]) := by
  unfold FaiShape
  decide!

/-- On the flat FAI track the triangle `0 < 1 < 3` has legs of exactly 28%, 28%
and 44% of its perimeter and lies inside the closed window `start = 0`,
`finish = 4`, yet `track_frcfd_triangle_fai` with initial bound 0 writes no
index: `track_first_at_least` looks for a leg strictly above the bound derived
from the closing leg. -/
theorem triangle_fai_misses_44_percent_leg :
    track_delta flat_fai_track 0 4 < 1 / 1000 ∧
    FaiShape (track_delta flat_fai_track 0 1) (track_delta flat_fai_track 1 3)
      (track_delta flat_fai_track 3 0) ∧
    track_delta flat_fai_track 3 0 =
      0.44 * (track_delta flat_fai_track 0 1 + track_delta flat_fai_track 1 3 +
        track_delta flat_fai_track 3 0) ∧
    track_frcfd_triangle_fai flat_fai_track 0 = (0, [-1, -1, -1, -1, -1]) := by
  unfold FaiShape
  decide!

/-- What `track_frcfd_triangle_fai` does find: after
`track_compute_circuit_tables` with a closure radius `e > 0` on a preprocessed
track, for every initial bound `b`, the bound that
`track_frcfd_triangle_fai` returns is at least the perimeter of every triangle
`tp1 < tp2 < tp3` that lies inside a window `start ≤ tp1`, `tp3 ≤ finish` whose
ends are closer than `e` (strictly), has every leg at least 28% of its
perimeter, has its closing leg `δ(tp3, tp1)` below 44% of the perimeter, and
whose `tp2` is not the fix just before `tp3`.  If such a triangle has a
perimeter above `b`, a triangle is reported: the indexes written are
`start ≤ tp1 < tp2 < tp3 ≤ finish` inside the track with start and finish closer
than `e`, the triangle obeys the 28% rule and its perimeter is the returned
bound. -/
theorem triangle_fai_complete_inside (t : track_t) (hp : Preprocessed t) (e : ℚ) (he : 0 < e)
    (b : ℚ) :
    (∀ a c d, FaiAdmissible (track_compute_circuit_tables t e) e a c d →
      perimeter (track_compute_circuit_tables t e) a c d ≤
        (track_frcfd_triangle_fai (track_compute_circuit_tables t e) b).1) ∧
    ((∃ a c d, FaiAdmissible (track_compute_circuit_tables t e) e a c d ∧
        b < perimeter (track_compute_circuit_tables t e) a c d) →
      ∃ s a c d f,
        (track_frcfd_triangle_fai (track_compute_circuit_tables t e) b).2 = [s, a, c, d, f] ∧
        0 ≤ s ∧ s ≤ a ∧ a < c ∧ c < d ∧ d ≤ f ∧ f < t.ntrkpts ∧
        track_delta t s f < e ∧
        perimeter (track_compute_circuit_tables t e) a c d =
          (track_frcfd_triangle_fai (track_compute_circuit_tables t e) b).1 ∧
        FaiTriangle (track_compute_circuit_tables t e) a c d) := by
  obtain ⟨h1, _, h3⟩ := track_frcfd_triangle_fai_tp1_complete (hp.circuit_tables e) e b
    (track_compute_circuit_tables_spec hp e he) (t.ntrkpts - 2).toNat 0
    ⟨b, 0.28 * b, [-1, -1, -1, -1, -1]⟩ (le_refl _) (by simp) ⟨rfl, Or.inl ⟨rfl, rfl⟩⟩
    (fun a c d g1 g2 => by
      obtain ⟨⟨_, _, _⟩, s, f, q1, q2, _⟩ := g2
      omega)
  refine ⟨h3, ?_⟩
  rintro ⟨a, c, d, g, hgt⟩
  have hge := h3 a c d g
  rcases h1.2 with ⟨q, _⟩ | ⟨_, q⟩
  · exfalso
    rw [q] at hge
    linarith
  · exact q

/-- The theorem `triangle_fai_complete_inside` applied to the triangle track with
closure radius 1 and initial bound 0; the triangle `0 < 1 < 3` of perimeter 12 is
one it covers. -/
theorem triangle_fai_complete_inside_example :
    (Preprocessed triangle_base_track ∧ (0 : ℚ) < 1 ∧
      FaiAdmissible (track_compute_circuit_tables triangle_base_track 1) 1 0 1 3 ∧
      0 < perimeter (track_compute_circuit_tables triangle_base_track 1) 0 1 3) ∧
    ((∀ a c d, FaiAdmissible (track_compute_circuit_tables triangle_base_track 1) 1 a c d →
      perimeter (track_compute_circuit_tables triangle_base_track 1) a c d ≤
        (track_frcfd_triangle_fai (track_compute_circuit_tables triangle_base_track 1) 0).1) ∧
    ((∃ a c d, FaiAdmissible (track_compute_circuit_tables triangle_base_track 1) 1 a c d ∧
        0 < perimeter (track_compute_circuit_tables triangle_base_track 1) a c d) →
      ∃ s a c d f,
        (track_frcfd_triangle_fai (track_compute_circuit_tables triangle_base_track 1) 0).2 =
          [s, a, c, d, f] ∧
        0 ≤ s ∧ s ≤ a ∧ a < c ∧ c < d ∧ d ≤ f ∧ f < triangle_base_track.ntrkpts ∧
        track_delta triangle_base_track s f < 1 ∧
        perimeter (track_compute_circuit_tables triangle_base_track 1) a c d =
          (track_frcfd_triangle_fai (track_compute_circuit_tables triangle_base_track 1) 0).1 ∧
        FaiTriangle (track_compute_circuit_tables triangle_base_track 1) a c d)) :=
  ⟨⟨plane_track_preprocessed _, by norm_num,
      ⟨by unfold FaiCandidate FaiTriangle FaiShape perimeter; decide!,
        0, 4, by decide!⟩,
      by unfold perimeter; decide!⟩,
    triangle_fai_complete_inside triangle_base_track (plane_track_preprocessed _) 1
      (by norm_num) 0⟩

/-- C4, failing input: the track of the specification's own example, which visits
the three vertices of a triangle with equal sides once each and returns to its
first fix.  With the circuit tables for a closure radius of 1/1000 the window of
fix 0 is `start = 0`, `finish = 3` and its ends coincide; the triangle
`0 < 1 < 2` inside it has three legs of 4/1000, each a third of the perimeter
12/1000, which exceeds the initial bound 0.  Yet `track_frcfd_triangle_fai`
returns 0 and writes no index.  The first candidate for `tp2` is searched in
`[tp1 + 1, tp3 - 1)`, which for `tp1 = 0`, `tp3 = 2` is empty whatever the bound,
while the last candidate is searched in `[tp2first, tp3)`: with the end `tp3` in
both searches fix 1 is found and the loop over `tp2` records the triangle
`[0, 0, 1, 2, 3]` of perimeter 12/1000.  In the FFVL league with an Earth radius
of 6371 the routes found on this track are the three open distances, the out and
return and the flat triangle; none is a "triangle FAI". -/
theorem C4_triangle_fai_misses_equilateral :
    three_vertex_track = track_compute_circuit_tables three_vertex_base_track (1 / 1000) ∧
    (three_vertex_track.ntrkpts = 4 ∧ three_vertex_track.best_start 0 = 0 ∧
      three_vertex_track.last_finish 0 = 3 ∧ track_delta three_vertex_track 0 3 = 0) ∧
    (track_delta three_vertex_track 0 1 = 4 / 1000 ∧
      track_delta three_vertex_track 1 2 = 4 / 1000 ∧
      track_delta three_vertex_track 2 0 = 4 / 1000 ∧
      FaiShape (track_delta three_vertex_track 0 1) (track_delta three_vertex_track 1 2)
        (track_delta three_vertex_track 2 0)) ∧
    track_frcfd_triangle_fai three_vertex_track 0 = (0, [-1, -1, -1, -1, -1]) ∧
    (∀ bound, track_first_at_least three_vertex_track 0 (0 + 1) (2 - 1) bound = -1) ∧
    (track_first_at_least three_vertex_track 0 (0 + 1) 2
        (0.28 * track_delta three_vertex_track 2 0 / 0.44) = 1 ∧
      track_last_at_least three_vertex_track 2 1 2
        (0.28 * track_delta three_vertex_track 2 0 / 0.44) = 1 ∧
      (track_frcfd_triangle_fai_tp2 three_vertex_track 0 0 2 3
        (track_delta three_vertex_track 2 0)
        (0.28 * track_delta three_vertex_track 2 0 / 0.44)
        (0.44 * track_delta three_vertex_track 2 0 / 0.28) 1 ((1 : Int) + 1 - 1).toNat 1
        ⟨0, 0.28 * 0, [-1, -1, -1, -1, -1]⟩).bound = 12 / 1000 ∧
      (track_frcfd_triangle_fai_tp2 three_vertex_track 0 0 2 3
        (track_delta three_vertex_track 2 0)
        (0.28 * track_delta three_vertex_track 2 0 / 0.44)
        (0.44 * track_delta three_vertex_track 2 0 / 0.28) 1 ((1 : Int) + 1 - 1).toNat 1
        ⟨0, 0.28 * 0, [-1, -1, -1, -1, -1]⟩).indexes = [0, 0, 1, 2, 3]) ∧
    (track_optimize_frcfd three_vertex_base_track 6371 (-1)).map (fun r => r.name) =
      ["distance libre sans point de contournement",
        "distance libre avec un point de contournement",
        "distance libre avec deux points de contournement",
        "parcours en aller-retour", "triangle plat"] := by
  refine ⟨rfl, by decide!, by unfold FaiShape; decide!, by decide!, fun _ => rfl,
    by decide!, by decide!⟩

/-! ## The loop counters suffice

A loop that advances by more than one index at a time is modelled with a
counter that starts at the number of indexes left.  Each lemma below shows that
one more unit of counter does not change the result, so the counter never runs
out before the loop condition fails. -/

theorem track_fast_forward_loop_counter (t : track_t) (target : ℚ) :
    ∀ (fuel : Nat) (i : Int), i < t.ntrkpts → (t.ntrkpts - i).toNat ≤ fuel →
      track_fast_forward_loop t target (fuel + 1) i = track_fast_forward_loop t target fuel i := by
  intro fuel
  induction fuel with
  | zero => intro i h1 h2; omega
  | succ k ih =>
    intro i h1 h2
    rw [track_fast_forward_loop]
    conv_rhs => rw [track_fast_forward_loop]
    simp only
    have hgt := track_forward_gt t i (target - t.sigma_delta i)
    split_ifs with c1 c2
    · rfl
    · rfl
    · exact ih _ (by omega) (by omega)

theorem track_fast_backward_loop_counter (t : track_t) (target : ℚ) :
    ∀ (fuel : Nat) (i : Int), 0 ≤ i → (i + 1).toNat ≤ fuel →
      track_fast_backward_loop t target (fuel + 1) i =
        track_fast_backward_loop t target fuel i := by
  intro fuel
  induction fuel with
  | zero => intro i h1 h2; omega
  | succ k ih =>
    intro i h1 h2
    rw [track_fast_backward_loop]
    conv_rhs => rw [track_fast_backward_loop]
    simp only
    have hgt := track_backward_lt t i (t.sigma_delta i - target)
    split_ifs with c1 c2
    · rfl
    · rfl
    · exact ih _ (by omega) (by omega)

theorem scan_max_counter {σ : Type} (t : track_t) (f : Int → ℚ) (amt : ℚ → ℚ → ℚ)
    (upd : Int → ℚ → σ) (end_ : Int) :
    ∀ (fuel : Nat) (j : Int) (bound : ℚ) (s : σ), (end_ - j).toNat ≤ fuel →
      scan_max t f amt upd end_ (fuel + 1) j bound s = scan_max t f amt upd end_ fuel j bound s := by
  intro fuel
  induction fuel with
  | zero =>
    intro j bound s h
    unfold scan_max
    rw [if_neg (by omega)]
  | succ k ih =>
    intro j bound s h
    rw [scan_max]
    conv_rhs => rw [scan_max]
    have hgt := track_fast_forward_gt t j (amt bound (f j))
    split_ifs with c1 c2
    · exact ih _ _ _ (by omega)
    · exact ih _ _ _ (by omega)
    · rfl

theorem track_first_at_least_loop_counter (t : track_t) (i end_ : Int) (bound : ℚ) :
    ∀ (fuel : Nat) (j : Int), (end_ - j).toNat ≤ fuel →
      track_first_at_least_loop t i end_ bound (fuel + 1) j =
        track_first_at_least_loop t i end_ bound fuel j := by
  intro fuel
  induction fuel with
  | zero =>
    intro j h
    unfold track_first_at_least_loop
    rw [if_neg (by omega)]
  | succ k ih =>
    intro j h
    rw [track_first_at_least_loop]
    conv_rhs => rw [track_first_at_least_loop]
    simp only
    have hgt := track_fast_forward_gt t j (bound - track_delta t i j)
    split_ifs with c1 c2
    · rfl
    · exact ih _ (by omega)
    · rfl

theorem track_last_at_least_loop_counter (t : track_t) (i begin_ : Int) (bound : ℚ) :
    ∀ (fuel : Nat) (j : Int), (j + 1 - begin_).toNat ≤ fuel →
      track_last_at_least_loop t i begin_ bound (fuel + 1) j =
        track_last_at_least_loop t i begin_ bound fuel j := by
  intro fuel
  induction fuel with
  | zero =>
    intro j h
    unfold track_last_at_least_loop
    rw [if_neg (by omega)]
  | succ k ih =>
    intro j h
    rw [track_last_at_least_loop]
    conv_rhs => rw [track_last_at_least_loop]
    simp only
    have hgt := track_fast_backward_lt t j (bound - track_delta t i j)
    split_ifs with c1 c2
    · rfl
    · exact ih _ (by omega)
    · rfl

theorem track_frcfd_triangle_fai_tp2_counter (t : track_t) (start tp1 tp3 finish : Int)
    (leg3 shortestlegbound longestlegbound : ℚ) (tp2last : Int) :
    ∀ (fuel : Nat) (tp2 : Int) (st : fai_state), (tp2last + 1 - tp2).toNat ≤ fuel →
      track_frcfd_triangle_fai_tp2 t start tp1 tp3 finish leg3 shortestlegbound
        longestlegbound tp2last (fuel + 1) tp2 st =
      track_frcfd_triangle_fai_tp2 t start tp1 tp3 finish leg3 shortestlegbound
        longestlegbound tp2last fuel tp2 st := by
  intro fuel
  induction fuel with
  | zero =>
    intro tp2 st h
    rw [track_frcfd_triangle_fai_tp2_step, if_neg (by omega)]
    rfl
  | succ k ih =>
    intro tp2 st h
    rw [track_frcfd_triangle_fai_tp2_step]
    conv_rhs => rw [track_frcfd_triangle_fai_tp2_step]
    have hgt := fun d => track_fast_forward_gt t tp2 d
    split_ifs with c0 c1 c2 c3
    · exact ih _ _ (by have := hgt (fai_shape_deficit (t.delta tp1 tp2) (t.delta tp2 tp3)
        shortestlegbound longestlegbound); omega)
    · exact ih _ _ (by have := hgt (0.5 * fai_leg_deficit (fai_shape_deficit (t.delta tp1 tp2)
        (t.delta tp2 tp3) shortestlegbound longestlegbound) (t.delta tp1 tp2)
        (t.delta tp2 tp3) leg3 (0.28 * (t.delta tp1 tp2 + t.delta tp2 tp3 + leg3))); omega)
    · exact ih _ _ (by have := hgt (0.5 * (st.bound -
        (t.delta tp1 tp2 + t.delta tp2 tp3 + leg3))); omega)
    · exact ih _ _ (by omega)
    · rfl

theorem track_frcfd_triangle_fai_tp3_counter (t : track_t) (start tp1 finish tp3first : Int) :
    ∀ (fuel : Nat) (tp3 : Int) (st : fai_state), (tp3 + 1 - tp3first).toNat ≤ fuel →
      track_frcfd_triangle_fai_tp3 t start tp1 finish tp3first (fuel + 1) tp3 st =
        track_frcfd_triangle_fai_tp3 t start tp1 finish tp3first fuel tp3 st := by
  intro fuel
  induction fuel with
  | zero =>
    intro tp3 st h
    unfold track_frcfd_triangle_fai_tp3
    rw [if_neg (by omega)]
  | succ k ih =>
    intro tp3 st h
    rw [track_frcfd_triangle_fai_tp3]
    conv_rhs => rw [track_frcfd_triangle_fai_tp3]
    simp only
    have hlt := track_fast_backward_lt t tp3 (st.legbound - track_delta t tp3 tp1)
    split_ifs with c0 c1 c2 c3
    · exact ih _ _ (by omega)
    · exact ih _ _ (by omega)
    · exact ih _ _ (by omega)
    · exact ih _ _ (by omega)
    · rfl

/-! ## `track_compute_circuit_tables`: the claims on `last_finish` and `best_start` -/

/-- C11, counterexample: on the track 0, 5, 1 (thousandths) with closure radius
`ε = 1/1000 > 0` the table has `last_finish[0] = 0`, yet fix 2, an index in
`last_finish[0] + 1 .. n − 1`, has `δ(0,2) = ε`, so `δ(0,2) > ε` fails and the
greatest `j` with `δ(0,j) ≤ ε` is 2, not `last_finish[0]`. -/
theorem C11_last_finish_closure_edge :
    closure_edge_track =
      track_compute_circuit_tables
        ( track_initialize (plane_track [(0, 0), (5 / 1000, 0), (1 / 1000, 0)])) (1 / 1000) ∧
    (0 : ℚ) < 1 / 1000 ∧
    closure_edge_track.ntrkpts = 3 ∧
    closure_edge_track.last_finish 0 = 0 ∧
    track_delta closure_edge_track 0 2 = 1 / 1000 ∧
    ¬ (∀ j, closure_edge_track.last_finish 0 + 1 ≤ j → j ≤ closure_edge_track.ntrkpts - 1 →
        track_delta closure_edge_track 0 j > 1 / 1000) := by
  refine ⟨rfl, by norm_num, by decide!, by decide!, by decide!, ?_⟩
  intro h
  have h2 := h 2 (by decide!) (by decide!)
  revert h2
  decide!

/-- C11, amended: after `track_compute_circuit_tables(ε)` with `ε > 0` on a
preprocessed track, for every fix `i`: `i ≤ last_finish[i] < n`,
`δ(i, last_finish[i]) < ε` strictly, and `δ(i,j) ≥ ε` for every `j` in
`last_finish[i] + 1 .. n − 1`; so `last_finish[i]` is the greatest index `j ≥ i`
with `δ(i,j) < ε`. -/
theorem C11_last_finish_strict (t : track_t) (hp : Preprocessed t) (e : ℚ) (he : 0 < e)
    (i : Int) (h0 : 0 ≤ i) (hi : i < t.ntrkpts) :
    i ≤ (track_compute_circuit_tables t e).last_finish i ∧
    (track_compute_circuit_tables t e).last_finish i < t.ntrkpts ∧
    track_delta t i ((track_compute_circuit_tables t e).last_finish i) < e ∧
    (∀ j, (track_compute_circuit_tables t e).last_finish i < j → j < t.ntrkpts →
      e ≤ track_delta t i j) ∧
    (∀ j, i ≤ j → j < t.ntrkpts → track_delta t i j < e →
      j ≤ (track_compute_circuit_tables t e).last_finish i) := by
  obtain ⟨h1, h2, h3, h4⟩ := (track_compute_circuit_tables_spec hp e he).1 i h0 hi
  refine ⟨h1, h2, h3, h4, ?_⟩
  intro j _ hj hlt
  by_contra hc
  have := h4 j (by omega) hj
  unfold track_delta at hlt
  linarith

/-- C11, witness: the amended statement on the track 0, 5, 1 (thousandths) with
closure radius 2/1000, at fix 0. -/
theorem C11_last_finish_strict_witness :
    (0 : ℚ) < 2 / 1000 ∧ (0 : Int) ≤ 0 ∧
    (0 : Int) < ( track_initialize (plane_track [(0, 0), (5 / 1000, 0), (1 / 1000, 0)])).ntrkpts ∧
    (track_compute_circuit_tables
      ( track_initialize (plane_track [(0, 0), (5 / 1000, 0), (1 / 1000, 0)]))
      (2 / 1000)).last_finish 0 = 2 ∧
    track_delta ( track_initialize (plane_track [(0, 0), (5 / 1000, 0), (1 / 1000, 0)])) 0
      ((track_compute_circuit_tables
        ( track_initialize (plane_track [(0, 0), (5 / 1000, 0), (1 / 1000, 0)]))
        (2 / 1000)).last_finish 0) < 2 / 1000 :=
  ⟨by norm_num, by decide, by decide!, by decide!,
    (C11_last_finish_strict _ (plane_track_preprocessed _) (2 / 1000) (by norm_num) 0
      (by decide) (by decide!)).2.2.1⟩

/-- C12: after `track_compute_circuit_tables(ε)` with `ε > 0` on a preprocessed
track, for every fix `i`: `best_start[i]` lies in `[0, i]`, `last_finish` attains
at it its maximum over `[0, i]`, strictly more than at every smaller index (it is
the smallest such index), and `best_start[i] ≤ i ≤ last_finish[best_start[i]]`. -/
theorem C12_best_start_argmax (t : track_t) (hp : Preprocessed t) (e : ℚ) (he : 0 < e)
    (i : Int) (h0 : 0 ≤ i) (hi : i < t.ntrkpts) :
    0 ≤ (track_compute_circuit_tables t e).best_start i ∧
    (track_compute_circuit_tables t e).best_start i ≤ i ∧
    (∀ s, 0 ≤ s → s ≤ i → (track_compute_circuit_tables t e).last_finish s ≤
      (track_compute_circuit_tables t e).last_finish
        ((track_compute_circuit_tables t e).best_start i)) ∧
    (∀ s, 0 ≤ s → s < (track_compute_circuit_tables t e).best_start i →
      (track_compute_circuit_tables t e).last_finish s <
      (track_compute_circuit_tables t e).last_finish
        ((track_compute_circuit_tables t e).best_start i)) ∧
    i ≤ (track_compute_circuit_tables t e).last_finish
      ((track_compute_circuit_tables t e).best_start i) := by
  have hs := track_compute_circuit_tables_spec hp e he
  obtain ⟨h1, h2, h3, h4⟩ := hs.2 i h0 hi
  refine ⟨h1, h2, h3, h4, ?_⟩
  have h5 := (hs.1 i h0 hi).1
  have h6 := h3 i h0 (le_refl _)
  omega

/-- C12, witness: on the zigzag track with closure radius 2, at fix 3. -/
theorem C12_best_start_argmax_witness :
    (0 : ℚ) < 2 ∧ (0 : Int) ≤ 3 ∧ (3 : Int) < zigzag_track.ntrkpts ∧
    (track_compute_circuit_tables zigzag_track 2).best_start 3 ≤ 3 ∧
    3 ≤ (track_compute_circuit_tables zigzag_track 2).last_finish
      ((track_compute_circuit_tables zigzag_track 2).best_start 3) :=
  ⟨by norm_num, by decide, by decide!,
    (C12_best_start_argmax zigzag_track (plane_track_preprocessed _) 2 (by norm_num) 3
      (by decide) (by decide!)).2.1,
    (C12_best_start_argmax zigzag_track (plane_track_preprocessed _) 2 (by norm_num) 3
      (by decide) (by decide!)).2.2.2.2⟩

/-! ## `track_initialize`: the cumulative arc length bounds the chord -/

/-- C13: after `track_initialize`, when `δ` satisfies the triangle inequality
(and, being an angle that `coord_delta` takes from `acos`, is not negative
between successive fixes): `sigma_delta[0] = 0`, and for all `i < j` in `[0, n)`
`sigma_delta[i] ≤ sigma_delta[j]` and `δ(i,j) ≤ sigma_delta[j] − sigma_delta[i]`. -/
theorem C13_sigma_delta_chord (t : track_t)
    (hnn : ∀ k, 0 ≤ k → k + 1 < t.ntrkpts → 0 ≤ t.delta k (k + 1))
    (htri : ∀ a b c, 0 ≤ a → a < t.ntrkpts → 0 ≤ b → b < t.ntrkpts →
      0 ≤ c → c < t.ntrkpts → t.delta a c ≤ t.delta a b + t.delta b c) :
    ( track_initialize t).sigma_delta 0 = 0 ∧
    ∀ i j, 0 ≤ i → i < j → j < t.ntrkpts →
      ( track_initialize t).sigma_delta i ≤ ( track_initialize t).sigma_delta j ∧
      track_delta ( track_initialize t) i j ≤
        ( track_initialize t).sigma_delta j - ( track_initialize t).sigma_delta i := by
  obtain ⟨r1, r2, _⟩ := track_initialize_sigma_loop_spec t (t.ntrkpts - 1).toNat 1
    (store (alloc 0) 0 0) 0 (le_refl _) (le_refl _) (fun k h1 h2 => by omega)
  have hs : ( track_initialize t).sigma_delta =
      (track_initialize_sigma_loop t (t.ntrkpts - 1).toNat 1 (store (alloc 0) 0 0) 0).1 := rfl
  have hd : ∀ a b, track_delta ( track_initialize t) a b = t.delta a b := fun _ _ => rfl
  refine ⟨?_, ?_⟩
  · rw [hs, r2, store_same]
  · have key : ∀ (m : Nat) (i : Int), 0 ≤ i → i + m + 1 < t.ntrkpts →
        ( track_initialize t).sigma_delta i ≤ ( track_initialize t).sigma_delta (i + m + 1) ∧
        t.delta i (i + m + 1) ≤
          ( track_initialize t).sigma_delta (i + m + 1) - ( track_initialize t).sigma_delta i := by
      intro m
      induction m with
      | zero =>
        intro i h0 hi
        have h1 := (r1 i h0 (by simpa using hi)).1
        have h2 := hnn i h0 (by simpa using hi)
        rw [← hs] at h1
        simp only [Nat.cast_zero, add_zero]
        rw [h1]
        constructor <;> linarith
      | succ m ih =>
        intro i h0 hi
        push_cast at hi ⊢
        obtain ⟨a1, a2⟩ := ih i h0 (by omega)
        have h1 := (r1 (i + m + 1) (by omega) (by omega)).1
        have h2 := hnn (i + m + 1) (by omega) (by omega)
        have h3 := htri i (i + m + 1) (i + m + 1 + 1) h0 (by omega) (by omega) (by omega)
          (by omega) (by omega)
        rw [← hs] at h1
        rw [show i + (m + 1 : Int) + 1 = i + m + 1 + 1 by ring, h1]
        constructor <;> linarith
    intro i j h0 hij hj
    have hk := key (j - i - 1).toNat i h0 (by
      rw [Int.toNat_of_nonneg (by omega)]; omega)
    rw [Int.toNat_of_nonneg (by omega)] at hk
    rw [show i + (j - i - 1) + 1 = j by ring] at hk
    rw [hd]
    exact hk

/-- C13, witness: the five-fix zigzag track in the plane, fixes 1 and 4. -/
theorem C13_sigma_delta_chord_witness :
    zigzag_track.sigma_delta 0 = 0 ∧
    zigzag_track.sigma_delta 1 ≤ zigzag_track.sigma_delta 4 ∧
    track_delta zigzag_track 1 4 ≤ zigzag_track.sigma_delta 4 - zigzag_track.sigma_delta 1 :=
  have h := C13_sigma_delta_chord (plane_track [(0, 0), (3, 0), (1, 0), (4, 1), (2, 2)])
    (fun k _ _ => by simp only [plane_track]; positivity)
    (fun a b c _ _ _ _ _ _ => by
      simp only [plane_track]
      have h1 := abs_sub_le
        (([(0, 0), (3, 0), (1, 0), (4, 1), (2, 2)] : List (ℚ × ℚ)).getD a.toNat (0, 0)).1
        (([(0, 0), (3, 0), (1, 0), (4, 1), (2, 2)] : List (ℚ × ℚ)).getD b.toNat (0, 0)).1
        (([(0, 0), (3, 0), (1, 0), (4, 1), (2, 2)] : List (ℚ × ℚ)).getD c.toNat (0, 0)).1
      have h2 := abs_sub_le
        (([(0, 0), (3, 0), (1, 0), (4, 1), (2, 2)] : List (ℚ × ℚ)).getD a.toNat (0, 0)).2
        (([(0, 0), (3, 0), (1, 0), (4, 1), (2, 2)] : List (ℚ × ℚ)).getD b.toNat (0, 0)).2
        (([(0, 0), (3, 0), (1, 0), (4, 1), (2, 2)] : List (ℚ × ℚ)).getD c.toNat (0, 0)).2
      linarith)
  ⟨h.1, (h.2 1 4 (by decide) (by decide) (by decide!)).1, (h.2 1 4 (by decide) (by decide) (by decide!)).2⟩

/-! ## What the searches do on any track -/

theorem Grown.le {σ : Type} {b : ℚ} {s0 : σ} {bound : ℚ} {s : σ} (h : Grown b s0 bound s) :
    b ≤ bound := by
  rcases h with ⟨h, _⟩ | h
  · exact h.ge
  · exact h.le

theorem Grown.trans {σ : Type} {b : ℚ} {s0 : σ} {b1 : ℚ} {s1 : σ} {b2 : ℚ} {s2 : σ}
    (h1 : Grown b s0 b1 s1) (h2 : Grown b1 s1 b2 s2) : Grown b s0 b2 s2 := by
  rcases h2 with ⟨h2, h3⟩ | h2
  · rw [h2, h3]
    exact h1
  · exact Or.inr (lt_of_le_of_lt h1.le h2)

/-- A maximising scan leaves bound and record alone or raises the bound. -/
theorem scan_max_grown {σ : Type} (t : track_t) (f : Int → ℚ) (amt : ℚ → ℚ → ℚ)
    (upd : Int → ℚ → σ) (end_ : Int) (fuel : Nat) (j : Int) (bound : ℚ) (s : σ) :
    Grown bound s (scan_max t f amt upd end_ fuel j bound s).1
      (scan_max t f amt upd end_ fuel j bound s).2 := by
  rcases scan_max_sound t f amt upd j end_ bound s fuel j bound s (le_refl _)
    (Or.inl ⟨rfl, rfl⟩) with h | ⟨r, _, _, _, h4, h5⟩
  · exact Or.inl h
  · exact Or.inr (by rw [h4]; exact h5)

/-- On any track, `track_furthest_from` either returns `-1` and leaves `*out`
alone, or returns an index of the range and stores its distance, which exceeds
the bound passed in. -/
theorem track_furthest_from_sound (t : track_t) (i begin_ end_ : Int) (b out : ℚ) :
    track_furthest_from t i begin_ end_ b out = (-1, out) ∨
    ∃ r, begin_ ≤ r ∧ r < end_ ∧
      track_furthest_from t i begin_ end_ b out = (r, t.delta i r) ∧ b < t.delta i r := by
  unfold track_furthest_from
  rw [track_furthest_from_loop_eq]
  rcases scan_max_sound t (fun j => track_delta t i j) (fun b d => b - d)
    (fun j d => (j, d)) begin_ end_ b (-1, out)
    (end_ - begin_).toNat begin_ b (-1, out) (le_refl _) (Or.inl ⟨rfl, rfl⟩) with
    ⟨_, h⟩ | ⟨r, h1, h2, h3, _, h5⟩
  · exact Or.inl h
  · exact Or.inr ⟨r, h1, h2, h3, h5⟩

/-- Over an empty range `track_furthest_from` returns `-1`. -/
theorem track_furthest_from_empty (t : track_t) (i begin_ end_ : Int) (b out : ℚ)
    (h : end_ ≤ begin_) : track_furthest_from t i begin_ end_ b out = (-1, out) := by
  unfold track_furthest_from
  rw [show (end_ - begin_).toNat = 0 by omega]
  rfl

/-- Over an empty range `track_first_at_least` returns `-1`. -/
theorem track_first_at_least_empty (t : track_t) (i begin_ end_ : Int) (b : ℚ)
    (h : end_ ≤ begin_) : track_first_at_least t i begin_ end_ b = -1 := by
  unfold track_first_at_least
  rw [show (end_ - begin_).toNat = 0 by omega]
  rfl

theorem OpenSound.open_bound_ge {t : track_t} {b bound : ℚ} {indexes : List Int}
    (h : OpenSound t b bound indexes) : b ≤ bound := by
  rcases h with ⟨h, _⟩ | ⟨_, _, _, _, _, _, _, h⟩
  · exact h.ge
  · exact h.le

theorem track_open_distance_loop_sound (t : track_t) (b : ℚ) :
    ∀ (fuel : Nat) (start : Int) (bound : ℚ) (indexes : List Int), 0 ≤ start →
      OpenSound t b bound indexes →
      OpenSound t b (track_open_distance_loop t fuel start bound indexes).1
        (track_open_distance_loop t fuel start bound indexes).2 := by
  intro fuel
  induction fuel with
  | zero => intro start bound indexes _ h; exact h
  | succ fuel ih =>
    intro start bound indexes h0 h
    unfold track_open_distance_loop
    by_cases hlt : start < t.ntrkpts - 1
    · rw [if_pos hlt]
      rcases track_furthest_from_sound t start (start + 1) t.ntrkpts bound bound with
        h1 | ⟨r, h1, h2, h3, h4⟩
      · rw [h1]
        simp only
        rw [if_neg (by simp)]
        exact ih _ _ _ (by omega) h
      · rw [h3]
        simp only
        have hb := h.open_bound_ge
        apply ih _ _ _ (by omega)
        by_cases hr : r ≠ -1
        · rw [if_pos hr]
          exact Or.inr ⟨start, r, h0, by omega, h2, rfl, rfl, by linarith⟩
        · omega
    · rw [if_neg hlt]
      exact h

/-- On any track and for every initial bound, `track_open_distance` writes
nothing and returns the bound, or writes a pair of fixes whose distance it
returns, above the bound. -/
theorem track_open_distance_sound (t : track_t) (b : ℚ) :
    OpenSound t b (track_open_distance t b).1 (track_open_distance t b).2 :=
  track_open_distance_loop_sound t b _ 0 b _ (le_refl _) (Or.inl ⟨rfl, rfl⟩)

/-- On any track `track_open_distance1` writes nothing and returns the bound, or
raises it. -/
theorem track_open_distance1_grown (t : track_t) (b : ℚ) :
    Grown b [-1, -1, -1] (track_open_distance1 t b).1 (track_open_distance1 t b).2 := by
  unfold track_open_distance1
  rw [track_open_distance1_loop_eq]
  exact scan_max_grown _ _ _ _ _ _ _ _ _

theorem track_open_distance2_outer_grown (t : track_t) :
    ∀ (fuel : Nat) (tp1 : Int) (bound : ℚ) (indexes : List Int),
      Grown bound indexes (track_open_distance2_outer t fuel tp1 bound indexes).1
        (track_open_distance2_outer t fuel tp1 bound indexes).2 := by
  intro fuel
  induction fuel with
  | zero => intro tp1 bound indexes; exact Or.inl ⟨rfl, rfl⟩
  | succ fuel ih =>
    intro tp1 bound indexes
    unfold track_open_distance2_outer
    by_cases hlt : tp1 < t.ntrkpts - 2
    · rw [if_pos hlt]
      simp only
      refine Grown.trans ?_ (ih _ _ _)
      rw [track_open_distance2_inner_eq]
      exact scan_max_grown _ _ _ _ _ _ _ _ _
    · rw [if_neg hlt]
      exact Or.inl ⟨rfl, rfl⟩

/-- On any track `track_open_distance2` writes nothing and returns the bound, or
raises it. -/
theorem track_open_distance2_grown (t : track_t) (b : ℚ) :
    Grown b [-1, -1, -1, -1] (track_open_distance2 t b).1 (track_open_distance2 t b).2 :=
  track_open_distance2_outer_grown t _ _ _ _

theorem Open3Sound.open3_bound_ge {t : track_t} {b bound : ℚ} {indexes : List Int}
    (h : Open3Sound t b bound indexes) : b ≤ bound := by
  rcases h with ⟨h, _⟩ | ⟨_, _, _, _, _, _, _, _, _, h⟩
  · exact h.ge
  · exact h.le

theorem track_open_distance3_tp3_eq (t : track_t) (tp1 tp2 : Int) (leg1 leg2 : ℚ) :
    ∀ (fuel : Nat) (tp3 : Int) (bound : ℚ) (indexes : List Int),
      track_open_distance3_tp3 t tp1 tp2 leg1 leg2 fuel tp3 bound indexes =
      scan_max t (fun tp3 => leg1 + leg2 + track_delta t tp2 tp3 + (t.after tp3).distance)
        (fun b d => 0.5 * (b - d))
        (fun tp3 _ => [(t.before tp1).index, tp1, tp2, tp3, (t.after tp3).index])
        (t.ntrkpts - 1) fuel tp3 bound indexes := by
  intro fuel
  induction fuel with
  | zero => intro tp3 bound indexes; rfl
  | succ fuel ih =>
    intro tp3 bound indexes
    unfold track_open_distance3_tp3 scan_max
    simp only
    split_ifs <;> first | rfl | apply ih

theorem track_open_distance3_tp2_sound (t : track_t) (b : ℚ) (tp1 : Int) (h1 : 1 ≤ tp1) :
    ∀ (fuel : Nat) (tp2 : Int) (bound : ℚ) (indexes : List Int), tp1 < tp2 →
      Open3Sound t b bound indexes →
      Open3Sound t b
        (track_open_distance3_tp2 t tp1 (t.before tp1).distance fuel tp2 bound indexes).1
        (track_open_distance3_tp2 t tp1 (t.before tp1).distance fuel tp2 bound indexes).2 := by
  intro fuel
  induction fuel with
  | zero => intro tp2 bound indexes _ h; exact h
  | succ fuel ih =>
    intro tp2 bound indexes h12 h
    unfold track_open_distance3_tp2
    by_cases hlt : tp2 < t.ntrkpts - 2
    · rw [if_pos hlt]
      simp only
      apply ih _ _ _ (by omega)
      rw [track_open_distance3_tp3_eq]
      rcases scan_max_sound t
        (fun tp3 => (t.before tp1).distance + track_delta t tp1 tp2 + track_delta t tp2 tp3 +
          (t.after tp3).distance)
        (fun b d => 0.5 * (b - d))
        (fun tp3 _ => [(t.before tp1).index, tp1, tp2, tp3, (t.after tp3).index])
        (tp2 + 1) (t.ntrkpts - 1) bound indexes (t.ntrkpts - 1 - (tp2 + 1)).toNat (tp2 + 1)
        bound indexes (le_refl _) (Or.inl ⟨rfl, rfl⟩) with ⟨g1, g2⟩ | ⟨r, g1, g2, g3, g4, g5⟩
      · rw [g1, g2]
        exact h
      · have hb := h.open3_bound_ge
        refine Or.inr ⟨tp1, tp2, r, h1, h12, by omega, g2, g3, ?_, ?_⟩
        · rw [g4]
          rfl
        · rw [g4]
          linarith
    · rw [if_neg hlt]
      exact h

theorem track_open_distance3_tp1_sound (t : track_t) (b : ℚ) :
    ∀ (fuel : Nat) (tp1 : Int) (bound : ℚ) (indexes : List Int), 1 ≤ tp1 →
      Open3Sound t b bound indexes →
      Open3Sound t b (track_open_distance3_tp1 t fuel tp1 bound indexes).1
        (track_open_distance3_tp1 t fuel tp1 bound indexes).2 := by
  intro fuel
  induction fuel with
  | zero => intro tp1 bound indexes _ h; exact h
  | succ fuel ih =>
    intro tp1 bound indexes h1 h
    unfold track_open_distance3_tp1
    by_cases hlt : tp1 < t.ntrkpts - 3
    · rw [if_pos hlt]
      simp only
      exact ih _ _ _ (by omega)
        (track_open_distance3_tp2_sound t b tp1 h1 _ _ _ _ (by omega) h)
    · rw [if_neg hlt]
      exact h

/-- On any track and for every initial bound, `track_open_distance3` writes
nothing and returns the bound, or writes three turnpoints with the tabulated
start and finish and returns their distance, above the bound. -/
theorem track_open_distance3_sound (t : track_t) (b : ℚ) :
    Open3Sound t b (track_open_distance3 t b).1 (track_open_distance3 t b).2 :=
  track_open_distance3_tp1_sound t b _ 1 b _ (le_refl _) (Or.inl ⟨rfl, rfl⟩)

theorem track_frcfd_aller_retour_loop_grown (t : track_t) :
    ∀ (fuel : Nat) (tp1 : Int) (bound : ℚ) (indexes : List Int),
      Grown bound indexes (track_frcfd_aller_retour_loop t fuel tp1 bound indexes).1
        (track_frcfd_aller_retour_loop t fuel tp1 bound indexes).2 := by
  intro fuel
  induction fuel with
  | zero => intro tp1 bound indexes; exact Or.inl ⟨rfl, rfl⟩
  | succ fuel ih =>
    intro tp1 bound indexes
    unfold track_frcfd_aller_retour_loop
    simp only
    split_ifs with h1 h2 h3
    · exact ih _ _ _
    · exact Grown.trans (Or.inr h3.2) (ih _ _ _)
    · exact ih _ _ _
    · exact Or.inl ⟨rfl, rfl⟩

/-- On any track and tables `track_frcfd_aller_retour` writes nothing and
returns the bound, or raises it. -/
theorem track_frcfd_aller_retour_grown (t : track_t) (b : ℚ) :
    Grown b [-1, -1, -1, -1] (track_frcfd_aller_retour t b).1
      (track_frcfd_aller_retour t b).2 := by
  unfold track_frcfd_aller_retour
  simp only
  rcases track_frcfd_aller_retour_loop_grown t (t.ntrkpts - 2).toNat 0 (b / 2.0)
    [-1, -1, -1, -1] with ⟨h1, h2⟩ | h
  · left
    rw [h1, h2]
    exact ⟨by norm_num; ring, rfl⟩
  · right
    norm_num at h ⊢
    linarith

theorem track_frcfd_triangle_fai_tp2_mono (t : track_t) (b : ℚ) (start tp1 tp3 finish : Int)
    (leg3 shortestlegbound longestlegbound : ℚ) (tp2last : Int) :
    ∀ (fuel : Nat) (tp2 : Int) (st : fai_state), b ≤ st.bound →
      b ≤ (track_frcfd_triangle_fai_tp2 t start tp1 tp3 finish leg3
        shortestlegbound longestlegbound tp2last fuel tp2 st).bound := by
  intro fuel
  induction fuel with
  | zero => intro tp2 st h; exact h
  | succ fuel ih =>
    intro tp2 st h
    rw [track_frcfd_triangle_fai_tp2_step]
    split_ifs with h1 h2 h3 h4
    · exact ih _ _ h
    · exact ih _ _ h
    · exact ih _ _ h
    · apply ih
      simp only
      linarith
    · exact h

theorem track_frcfd_triangle_fai_tp3_mono (t : track_t) (b : ℚ)
    (start tp1 finish tp3first : Int) :
    ∀ (fuel : Nat) (tp3 : Int) (st : fai_state), b ≤ st.bound →
      b ≤ (track_frcfd_triangle_fai_tp3 t start tp1 finish tp3first fuel tp3 st).bound := by
  intro fuel
  induction fuel with
  | zero => intro tp3 st h; exact h
  | succ fuel ih =>
    intro tp3 st h
    unfold track_frcfd_triangle_fai_tp3
    simp only
    split_ifs
    · exact ih _ _ h
    · exact ih _ _ h
    · exact ih _ _ h
    · exact ih _ _ (track_frcfd_triangle_fai_tp2_mono t b _ _ _ _ _ _ _ _ _ _ _ h)
    · exact h

theorem track_frcfd_triangle_fai_tp1_mono (t : track_t) (b : ℚ) :
    ∀ (fuel : Nat) (tp1 : Int) (st : fai_state), b ≤ st.bound →
      b ≤ (track_frcfd_triangle_fai_tp1 t fuel tp1 st).bound := by
  intro fuel
  induction fuel with
  | zero => intro tp1 st h; exact h
  | succ fuel ih =>
    intro tp1 st h
    unfold track_frcfd_triangle_fai_tp1
    simp only
    split_ifs
    · exact ih _ _ h
    · exact ih _ _ h
    · exact ih _ _ h
    · exact ih _ _ (track_frcfd_triangle_fai_tp3_mono t b _ _ _ _ _ _ _ h)
    · exact h

/-- On any track and tables `track_frcfd_triangle_fai` returns at least the
bound passed in. -/
theorem track_frcfd_triangle_fai_mono (t : track_t) (b : ℚ) :
    b ≤ (track_frcfd_triangle_fai t b).1 :=
  track_frcfd_triangle_fai_tp1_mono t b _ _ _ (le_refl _)

/-- On any track and tables `track_frcfd_triangle_plat` returns at least the
bound passed in. -/
theorem track_frcfd_triangle_plat_mono (t : track_t) (b : ℚ) :
    b ≤ (track_frcfd_triangle_plat t b).1 :=
  (track_frcfd_triangle_plat_tp1_inv t b _ 0 b _ (Or.inl ⟨rfl, rfl⟩)).plat_bound_ge

/-! ## The circuit tables on any track, and searches without a window -/

theorem last_finish_loop_range (t : track_t) (i : Int) (e : ℚ) :
    ∀ (fuel : Nat) (j r : Int), last_finish_loop t i e fuel j = some r → i ≤ r ∧ r ≤ j := by
  intro fuel
  induction fuel with
  | zero =>
    intro j r h
    simp [last_finish_loop] at h
  | succ fuel ih =>
    intro j r h
    unfold last_finish_loop at h
    simp only at h
    split_ifs at h with h1 h2
    · simp only [Option.some.injEq] at h
      omega
    · have := ih _ _ h
      have := track_fast_backward_lt t j (track_delta t i j - e)
      omega

theorem track_compute_circuit_tables_loop_range (t : track_t) (e : ℚ) :
    ∀ (fuel : Nat) (i : Int) (last_finish best_start : Int → Int) (cbs : Int), 0 ≤ i →
      (∀ k, 0 ≤ last_finish k ∧ (last_finish k ≤ 0 ∨ last_finish k ≤ t.ntrkpts - 1)) →
      ∀ k, 0 ≤ (track_compute_circuit_tables_loop t e fuel i last_finish best_start cbs).1 k ∧
        ((track_compute_circuit_tables_loop t e fuel i last_finish best_start cbs).1 k ≤ 0 ∨
          (track_compute_circuit_tables_loop t e fuel i last_finish best_start cbs).1 k ≤
            t.ntrkpts - 1) := by
  intro fuel
  induction fuel with
  | zero => intro i last_finish best_start cbs _ h; exact h
  | succ fuel ih =>
    intro i last_finish best_start cbs h0 h
    unfold track_compute_circuit_tables_loop
    by_cases hlt : i < t.ntrkpts
    · rw [if_pos hlt]
      simp only
      apply ih _ _ _ _ (by omega)
      intro k
      cases hl : last_finish_loop t i e (t.ntrkpts - i).toNat (t.ntrkpts - 1) with
      | none => exact h k
      | some r =>
        have hr := last_finish_loop_range t i e _ _ _ hl
        simp only
        unfold store
        split_ifs
        · omega
        · exact h k
    · rw [if_neg hlt]
      exact h

/-- On any track and for every closure radius, each entry of `last_finish`
after `track_compute_circuit_tables` is zero or the index of a fix. -/
theorem track_compute_circuit_tables_last_finish_range (t : track_t) (e : ℚ) (k : Int) :
    0 ≤ (track_compute_circuit_tables t e).last_finish k ∧
    ((track_compute_circuit_tables t e).last_finish k ≤ 0 ∨
      (track_compute_circuit_tables t e).last_finish k ≤ t.ntrkpts - 1) :=
  track_compute_circuit_tables_loop_range t e _ 0 _ _ _ (le_refl _)
    (fun _ => ⟨le_refl _, Or.inl (le_refl _)⟩) k

/-- When no window reaches beyond its first turnpoint, the loop of
`track_frcfd_aller_retour` changes nothing. -/
theorem track_frcfd_aller_retour_loop_no_window (t : track_t)
    (hw : ∀ k, 0 ≤ k → k < t.ntrkpts - 1 → t.last_finish (t.best_start k) ≤ k) :
    ∀ (fuel : Nat) (tp1 : Int) (bound : ℚ) (indexes : List Int), 0 ≤ tp1 →
      track_frcfd_aller_retour_loop t fuel tp1 bound indexes = (bound, indexes) := by
  intro fuel
  induction fuel with
  | zero => intro tp1 bound indexes _; rfl
  | succ fuel ih =>
    intro tp1 bound indexes h0
    unfold track_frcfd_aller_retour_loop
    by_cases hlt : tp1 < t.ntrkpts - 2
    · rw [if_pos hlt]
      simp only
      rw [track_furthest_from_empty t tp1 (tp1 + 1) _ _ _ (by
        have := hw tp1 h0 (by omega); omega)]
      simp only
      rw [if_neg (by omega : ¬ ((-1 : Int) ≥ 0 ∧ _))]
      split_ifs <;> exact ih _ _ _ (by omega)
    · rw [if_neg hlt]

/-- When no window reaches beyond its first turnpoint,
`track_frcfd_aller_retour` writes no index and returns the bound passed in. -/
theorem track_frcfd_aller_retour_no_window (t : track_t)
    (hw : ∀ k, 0 ≤ k → k < t.ntrkpts - 1 → t.last_finish (t.best_start k) ≤ k) (b : ℚ) :
    track_frcfd_aller_retour t b = (b, [-1, -1, -1, -1]) := by
  unfold track_frcfd_aller_retour
  rw [track_frcfd_aller_retour_loop_no_window t hw _ _ _ _ (le_refl _)]
  simp only [Prod.mk.injEq, and_true]
  norm_num
  ring

theorem track_frcfd_triangle_fai_tp1_no_window (t : track_t)
    (hw : ∀ k, 0 ≤ k → k < t.ntrkpts - 1 → t.last_finish (t.best_start k) ≤ k + 1) :
    ∀ (fuel : Nat) (tp1 : Int) (st : fai_state), 0 ≤ tp1 →
      track_frcfd_triangle_fai_tp1 t fuel tp1 st = st := by
  intro fuel
  induction fuel with
  | zero => intro tp1 st _; rfl
  | succ fuel ih =>
    intro tp1 st h0
    unfold track_frcfd_triangle_fai_tp1
    by_cases hlt : tp1 < t.ntrkpts - 2
    · rw [if_pos hlt]
      simp only
      rw [track_first_at_least_empty t tp1 (tp1 + 2) _ _ (by
        have := hw tp1 h0 (by omega); omega)]
      simp only [Int.reduceNeg, Left.neg_neg_iff, zero_lt_one, ↓reduceIte]
      split_ifs <;> exact ih _ _ (by omega)
    · rw [if_neg hlt]

/-- When no window reaches two fixes beyond its first turnpoint,
`track_frcfd_triangle_fai` writes no index and returns the bound passed in. -/
theorem track_frcfd_triangle_fai_no_window (t : track_t)
    (hw : ∀ k, 0 ≤ k → k < t.ntrkpts - 1 → t.last_finish (t.best_start k) ≤ k + 1) (b : ℚ) :
    track_frcfd_triangle_fai t b = (b, [-1, -1, -1, -1, -1]) := by
  unfold track_frcfd_triangle_fai
  rw [track_frcfd_triangle_fai_tp1_no_window t hw _ _ _ (le_refl _)]

theorem track_frcfd_triangle_plat_tp1_no_window (t : track_t)
    (hw : ∀ k, 0 ≤ k → k < t.ntrkpts - 1 → t.last_finish (t.best_start k) ≤ k + 1) :
    ∀ (fuel : Nat) (tp1 : Int) (bound : ℚ) (indexes : List Int), 0 ≤ tp1 →
      track_frcfd_triangle_plat_tp1 t fuel tp1 bound indexes = (bound, indexes) := by
  intro fuel
  induction fuel with
  | zero => intro tp1 bound indexes _; rfl
  | succ fuel ih =>
    intro tp1 bound indexes h0
    unfold track_frcfd_triangle_plat_tp1
    by_cases hlt : tp1 < t.ntrkpts - 1
    · rw [if_pos hlt]
      simp only
      rw [show (t.last_finish (t.best_start tp1) - (tp1 + 1)).toNat = 0 by
        have := hw tp1 h0 hlt; omega]
      simp only [track_frcfd_triangle_plat_tp3]
      split_ifs <;> first | exact ih _ _ _ (by omega) | rfl
    · rw [if_neg hlt]

/-- When no window reaches two fixes beyond its first turnpoint,
`track_frcfd_triangle_plat` writes no index and returns the bound passed in. -/
theorem track_frcfd_triangle_plat_no_window (t : track_t)
    (hw : ∀ k, 0 ≤ k → k < t.ntrkpts - 1 → t.last_finish (t.best_start k) ≤ k + 1) (b : ℚ) :
    track_frcfd_triangle_plat t b = (b, [-1, -1, -1, -1, -1]) :=
  track_frcfd_triangle_plat_tp1_no_window t hw _ _ _ _ (le_refl _)

/-! ## `track_frcfd_circuit_distance` -/

theorem int_range_nil (lo hi : Int) (h : hi ≤ lo) : int_range lo hi = [] := by
  unfold int_range
  rw [show (hi - lo).toNat = 0 by omega]
  rfl

theorem int_range_cons (lo hi : Int) (h : lo < hi) :
    int_range lo hi = lo :: int_range (lo + 1) hi := by
  unfold int_range
  rw [show (hi - lo).toNat = (hi - (lo + 1)).toNat + 1 by omega, List.range_succ_eq_map]
  simp only [List.map_cons, List.map_map, Nat.cast_zero, add_zero, List.cons.injEq, true_and]
  apply List.map_congr_left
  intro k _
  simp only [Function.comp_apply, Nat.succ_eq_add_one, Nat.cast_add, Nat.cast_one]
  ring

/-- The loop of `track_frcfd_circuit_distance` adds to `distance` the legs
`δ(indexes[k], indexes[k + 1])` for `k = i .. n − 3`. -/
theorem track_frcfd_circuit_distance_loop_eq (t : track_t) (n : Int) (indexes : Int → Int) :
    ∀ (fuel : Nat) (i : Int) (distance : ℚ), (n - 2 - i).toNat ≤ fuel →
      track_frcfd_circuit_distance_loop t n indexes fuel i distance =
        distance + ((int_range i (n - 2)).map fun k =>
          track_delta t (indexes k) (indexes (k + 1))).sum := by
  intro fuel
  induction fuel with
  | zero =>
    intro i distance hf
    rw [track_frcfd_circuit_distance_loop, int_range_nil _ _ (by omega)]
    simp
  | succ fuel ih =>
    intro i distance hf
    rw [track_frcfd_circuit_distance_loop]
    by_cases h : i < n - 2
    · rw [if_pos h, ih _ _ (by omega), int_range_cons _ _ h]
      simp only [List.map_cons, List.sum_cons]
      ring
    · rw [if_neg h, int_range_nil _ _ (by omega)]
      simp

/-- The function `track_frcfd_circuit_distance` is `R` times the closing leg
plus the legs between successive entries 1 to `n − 2`. -/
theorem track_frcfd_circuit_distance_eq (t : track_t) (R : ℚ) (n : Int) (indexes : Int → Int) :
    track_frcfd_circuit_distance t R n indexes =
      R * (track_delta t (indexes (n - 2)) (indexes 1) +
        ((int_range 1 (n - 2)).map fun k =>
          track_delta t (indexes k) (indexes (k + 1))).sum) := by
  unfold track_frcfd_circuit_distance
  rw [track_frcfd_circuit_distance_loop_eq t n indexes _ _ _ (by omega)]

/-- C17: for every `n ≥ 4`, `track_frcfd_circuit_distance(n, indexes)` is
`R · (δ(indexes[n−2], indexes[1]) + Σ_{i=1}^{n−3} δ(indexes[i], indexes[i+1]))`;
it is the same for two arrays that agree on the entries 1 to `n − 2`, so it does
not depend on `indexes[0]` and `indexes[n−1]`; for `n = 4` it is
`2·R·δ(tp1,tp2)` when `δ` is symmetric at the two turnpoints, and on a
preprocessed track with the circuit tables of a positive closure radius it
equals `R` times the bound that `track_frcfd_aller_retour` returns, for the
indexes that search wrote; for `n = 5` it is `R` times the perimeter of the
triangle `indexes[1], indexes[2], indexes[3]`. -/
theorem C17_circuit_distance (t : track_t) (R : ℚ) :
    (∀ (n : Int) (indexes : Int → Int), 4 ≤ n →
      track_frcfd_circuit_distance t R n indexes =
        R * (track_delta t (indexes (n - 2)) (indexes 1) +
          ((int_range 1 (n - 2)).map fun i =>
            track_delta t (indexes i) (indexes (i + 1))).sum)) ∧
    (∀ (n : Int) (indexes indexes2 : Int → Int), 4 ≤ n →
      (∀ i, 1 ≤ i → i ≤ n - 2 → indexes i = indexes2 i) →
      track_frcfd_circuit_distance t R n indexes =
        track_frcfd_circuit_distance t R n indexes2) ∧
    (∀ indexes : Int → Int,
      track_delta t (indexes 2) (indexes 1) = track_delta t (indexes 1) (indexes 2) →
      track_frcfd_circuit_distance t R 4 indexes =
        2 * R * track_delta t (indexes 1) (indexes 2)) ∧
    (∀ e bound : ℚ, Preprocessed t → 0 < e →
      indexes_written (track_frcfd_aller_retour (track_compute_circuit_tables t e) bound).2 →
      track_frcfd_circuit_distance (track_compute_circuit_tables t e) R 4
        (index_array (track_frcfd_aller_retour (track_compute_circuit_tables t e) bound).2) =
        R * (track_frcfd_aller_retour (track_compute_circuit_tables t e) bound).1) ∧
    (∀ indexes : Int → Int,
      track_frcfd_circuit_distance t R 5 indexes =
        R * perimeter t (indexes 1) (indexes 2) (indexes 3)) := by
  have h4 : ∀ (s : track_t) (indexes : Int → Int),
      track_frcfd_circuit_distance s R 4 indexes =
        R * (track_delta s (indexes 2) (indexes 1) +
          track_delta s (indexes 1) (indexes 2)) := by
    intro s indexes
    rw [track_frcfd_circuit_distance_eq]
    norm_num
    rw [int_range_cons 1 2 (by norm_num), int_range_nil (1 + 1) 2 (by norm_num)]
    simp
  refine ⟨fun n indexes _ => track_frcfd_circuit_distance_eq t R n indexes, ?_, ?_, ?_, ?_⟩
  · intro n indexes indexes2 hn hag
    rw [track_frcfd_circuit_distance_eq, track_frcfd_circuit_distance_eq,
      hag (n - 2) (by omega) (le_refl _), hag 1 (le_refl _) (by omega)]
    congr 2
    apply congrArg
    apply List.map_congr_left
    intro k hk
    rw [mem_int_range] at hk
    rw [hag k hk.1 (by omega), hag (k + 1) (by omega) (by omega)]
  · intro indexes hsymm
    rw [h4, hsymm]
    ring
  · intro e bound hp he hw
    have hs := track_frcfd_aller_retour_spec t hp e he bound
    rcases hs.2 with ⟨_, h2⟩ | ⟨s, a, c, f, hoar, hidx, hd, _⟩
    · rw [h2] at hw
      exact absurd hw (by decide)
    · rw [h4, hidx]
      obtain ⟨g0, g1, g2, g3, g4, _⟩ := hoar
      simp only [track_compute_circuit_tables_ntrkpts] at g4
      have e1 : index_array [s, a, c, f] 1 = a := rfl
      have e2 : index_array [s, a, c, f] 2 = c := rfl
      rw [e1, e2]
      unfold track_delta
      simp only [track_compute_circuit_tables_delta] at hd ⊢
      rw [hp.delta_symm c a (by omega) (by omega) (by omega) (by omega), hd]
      ring
  · intro indexes
    rw [track_frcfd_circuit_distance_eq]
    norm_num
    rw [int_range_cons 1 3 (by norm_num), int_range_cons (1 + 1) 3 (by norm_num),
      int_range_nil (1 + 1 + 1) 3 (by norm_num)]
    unfold perimeter track_delta
    norm_num
    left
    ring

/-- C17, witness: on the out-and-back track 0, 0, 10, 0 (thousandths) with the
tables for the closure radius 1/1000 and the earth radius 6371 km, the distance
of the out-and-return that `track_frcfd_aller_retour` writes from bound 0 is
6371 times the bound it returns; and the general formula at `n = 4`. -/
theorem C17_circuit_distance_witness :
    Preprocessed ( track_initialize (plane_track [(0, 0), (0, 0), (10 / 1000, 0), (0, 0)])) ∧
    (0 : ℚ) < 1 / 1000 ∧
    indexes_written (track_frcfd_aller_retour out_and_back_track 0).2 ∧
    track_frcfd_circuit_distance out_and_back_track 6371 4
      (index_array (track_frcfd_aller_retour out_and_back_track 0).2) =
      6371 * (track_frcfd_aller_retour out_and_back_track 0).1 ∧
    (4 : Int) ≤ 4 ∧
    track_frcfd_circuit_distance out_and_back_track 6371 4 (index_array [0, 0, 2, 3]) =
      6371 * (track_delta out_and_back_track (index_array [0, 0, 2, 3] (4 - 2))
          (index_array [0, 0, 2, 3] 1) +
        ((int_range 1 (4 - 2)).map fun i =>
          track_delta out_and_back_track (index_array [0, 0, 2, 3] i)
            (index_array [0, 0, 2, 3] (i + 1))).sum) :=
  ⟨plane_track_preprocessed _, by norm_num, by decide!,
    (C17_circuit_distance
      ( track_initialize (plane_track [(0, 0), (0, 0), (10 / 1000, 0), (0, 0)])) 6371).2.2.2.1
      (1 / 1000) 0 (plane_track_preprocessed _) (by norm_num) (by decide!),
    by decide,
    (C17_circuit_distance out_and_back_track 6371).1 4 (index_array [0, 0, 2, 3]) (by decide)⟩

/-! ## Degenerate tracks -/

/-- C18: on a track of a single fix, for every earth radius, every league
(`track_optimize_frcfd`, `track_optimize_uknxcl`, `track_optimize_ukxcl`) and
every complexity the result holds no route, and every search, for every bound
and whatever the tables hold, leaves all its indexes at `-1`. -/
theorem C18_single_fix_no_route (t : track_t) (hn : t.ntrkpts = 1) (R : ℚ) (complexity : Int) :
    track_optimize_frcfd t R complexity = [] ∧
    track_optimize_uknxcl t R complexity = [] ∧
    track_optimize_ukxcl t R complexity = [] ∧
    (∀ b, (track_open_distance t b).2 = [-1, -1]) ∧
    (∀ b, (track_open_distance1 t b).2 = [-1, -1, -1]) ∧
    (∀ b, (track_open_distance2 t b).2 = [-1, -1, -1, -1]) ∧
    (∀ b, (track_open_distance3 t b).2 = [-1, -1, -1, -1, -1]) ∧
    (∀ b, (track_frcfd_aller_retour t b).2 = [-1, -1, -1, -1]) ∧
    (∀ b, (track_frcfd_triangle_fai t b).2 = [-1, -1, -1, -1, -1]) ∧
    (∀ b, (track_frcfd_triangle_plat t b).2 = [-1, -1, -1, -1, -1]) := by
  have h0 : ∀ b, track_open_distance t b = (b, [-1, -1]) := by
    intro b
    simp [track_open_distance, hn, track_open_distance_loop]
  have h1 : ∀ b, track_open_distance1 t b = (b, [-1, -1, -1]) := by
    intro b
    simp [track_open_distance1, hn, track_open_distance1_loop]
  have h2 : ∀ b, track_open_distance2 t b = (b, [-1, -1, -1, -1]) := by
    intro b
    simp [track_open_distance2, hn, track_open_distance2_outer]
  have h3 : ∀ b, track_open_distance3 t b = (b, [-1, -1, -1, -1, -1]) := by
    intro b
    simp [track_open_distance3, hn, track_open_distance3_tp1]
  have h4 : ∀ (s : track_t) (b : ℚ), s.ntrkpts = 1 →
      (track_frcfd_aller_retour s b).2 = [-1, -1, -1, -1] := by
    intro s b hs
    simp [track_frcfd_aller_retour, hs, track_frcfd_aller_retour_loop]
  have h5 : ∀ (s : track_t) (b : ℚ), s.ntrkpts = 1 →
      track_frcfd_triangle_fai s b = (b, [-1, -1, -1, -1, -1]) := by
    intro s b hs
    simp [track_frcfd_triangle_fai, hs, track_frcfd_triangle_fai_tp1]
  have h6 : ∀ (s : track_t) (b : ℚ), s.ntrkpts = 1 →
      track_frcfd_triangle_plat s b = (b, [-1, -1, -1, -1, -1]) := by
    intro s b hs
    simp [track_frcfd_triangle_plat, hs, track_frcfd_triangle_plat_tp1]
  have hw2 : ¬ indexes_written [-1, -1] := by decide
  have hw3 : ¬ indexes_written [-1, -1, -1] := by decide
  have hw4 : ¬ indexes_written [-1, -1, -1, -1] := by decide
  have hw5 : ¬ indexes_written [-1, -1, -1, -1, -1] := by decide
  have hc : ∀ e, (track_compute_circuit_tables t e).ntrkpts = 1 := fun e => hn
  refine ⟨?_, ?_, ?_, fun b => by rw [h0], fun b => by rw [h1], fun b => by rw [h2],
    fun b => by rw [h3], fun b => h4 t b hn, fun b => by rw [h5 t b hn],
    fun b => by rw [h6 t b hn]⟩
  · unfold track_optimize_frcfd track_optimize_frcfd_run
    simp only [h0, h1, h2, h4 _ _ (hc _), h5 _ _ (hc _), h6 _ _ (hc _), hw2, hw3, hw4, hw5,
      if_false]
    split_ifs <;> rfl
  · unfold track_optimize_uknxcl track_optimize_uknxcl_run
    simp only [h0, h1, h2, h4 _ _ (hc _), h5 _ _ (hc _), h6 _ _ (hc _), hw2, hw3, hw4, hw5,
      if_false]
    split_ifs <;> rfl
  · unfold track_optimize_ukxcl track_optimize_ukxcl_run
    simp only [h0, h3, hw2, hw5, if_false]
    split_ifs <;> rfl

/-- C18, witness: the track of the single fix `(0, 0)`, initialised, with the
earth radius 6371 km and complexity `-1`. -/
theorem C18_single_fix_no_route_witness :
    ( track_initialize (plane_track [(0, 0)])).ntrkpts = 1 ∧
    track_optimize_frcfd ( track_initialize (plane_track [(0, 0)])) 6371 (-1) = [] ∧
    track_optimize_uknxcl ( track_initialize (plane_track [(0, 0)])) 6371 (-1) = [] ∧
    track_optimize_ukxcl ( track_initialize (plane_track [(0, 0)])) 6371 (-1) = [] :=
  have h := C18_single_fix_no_route ( track_initialize (plane_track [(0, 0)])) rfl 6371 (-1)
  ⟨rfl, h.1, h.2.1, h.2.2.1⟩

/-- C19: on a track of exactly two fixes with `δ(0,1) > 0`, for every earth
radius and every complexity, `track_optimize_frcfd` returns exactly one route:
type "distance libre sans point de contournement", distance `R·δ(0,1)`,
multiplier 1.0, circuit flag 0, made of fix 0 named "BD" and fix 1 named "BA". -/
theorem C19_two_fixes_one_route (t : track_t) (hn : t.ntrkpts = 2)
    (hd : 0 < track_delta t 0 1) (R : ℚ) (complexity : Int) :
    track_optimize_frcfd t R complexity =
      [{ league := "Coupe Fédérale de Distance (France)"
         name := "distance libre sans point de contournement"
         distance := R * track_delta t 0 1
         multiplier := 1.0
         circuit := 0
         declared := 0
         wpts := [(0, "BD"), (1, "BA")] }] := by
  have h0 : track_open_distance t 0.0 = (track_delta t 0 1, [0, 1]) := by
    have hd2 : (0.0 : ℚ) < track_delta t 0 1 := by norm_num; exact hd
    simp [track_open_distance, hn, track_open_distance_loop, track_furthest_from,
      track_furthest_from_loop, hd2]
  have h1 : ∀ b, track_open_distance1 t b = (b, [-1, -1, -1]) := by
    intro b
    simp [track_open_distance1, hn, track_open_distance1_loop]
  have h2 : ∀ b, track_open_distance2 t b = (b, [-1, -1, -1, -1]) := by
    intro b
    simp [track_open_distance2, hn, track_open_distance2_outer]
  have h4 : ∀ (s : track_t) (b : ℚ), s.ntrkpts = 2 →
      (track_frcfd_aller_retour s b).2 = [-1, -1, -1, -1] := by
    intro s b hs
    simp [track_frcfd_aller_retour, hs, track_frcfd_aller_retour_loop]
  have h5 : ∀ (s : track_t) (b : ℚ), s.ntrkpts = 2 →
      track_frcfd_triangle_fai s b = (b, [-1, -1, -1, -1, -1]) := by
    intro s b hs
    simp [track_frcfd_triangle_fai, hs, track_frcfd_triangle_fai_tp1]
  have h6 : ∀ (e b : ℚ),
      track_frcfd_triangle_plat (track_compute_circuit_tables t e) b =
        (b, [-1, -1, -1, -1, -1]) := by
    intro e b
    apply track_frcfd_triangle_plat_no_window
    intro k hk0 hk1
    have := track_compute_circuit_tables_last_finish_range t e
      ((track_compute_circuit_tables t e).best_start k)
    simp only [track_compute_circuit_tables_ntrkpts] at hk1
    omega
  have hw0 : indexes_written [0, 1] := by decide
  have hw3 : ¬ indexes_written [-1, -1, -1] := by decide
  have hw4 : ¬ indexes_written [-1, -1, -1, -1] := by decide
  have hw5 : ¬ indexes_written [-1, -1, -1, -1, -1] := by decide
  have hc : ∀ e, (track_compute_circuit_tables t e).ntrkpts = 2 := fun e => hn
  unfold track_optimize_frcfd track_optimize_frcfd_run
  simp only [h0, h1, h2, h4 _ _ (hc _), h5 _ _ (hc _), h6, hw0, hw3, hw4, hw5,
    if_false, if_true]
  split_ifs <;> rfl

/-- C19, witness: two fixes 5/1000 rad apart, with the earth radius 6371 km and
complexity `-1`. -/
theorem C19_two_fixes_one_route_witness :
    two_fix_base_track.ntrkpts = 2 ∧
    0 < track_delta two_fix_base_track 0 1 ∧
    track_optimize_frcfd two_fix_base_track 6371 (-1) =
      [{ league := "Coupe Fédérale de Distance (France)"
         name := "distance libre sans point de contournement"
         distance := 6371 * track_delta two_fix_base_track 0 1
         multiplier := 1.0
         circuit := 0
         declared := 0
         wpts := [(0, "BD"), (1, "BA")] }] :=
  ⟨rfl, by decide!,
    C19_two_fixes_one_route two_fix_base_track rfl (by decide!) 6371 (-1)⟩

/-- C20, counterexample: two fixes 5/1000 rad apart and the closure radius
`ε = 0`.  No two distinct fixes are within `ε`, yet `last_finish[1]` is `0`, not
`1`: the loop stores a finish only when `δ(i,j) < ε`, which not even `δ(1,1) = 0`
satisfies, so whatever arrays it starts from it returns `last_finish` as it
found it. -/
theorem C20_zero_radius_last_finish :
    (∀ i j : Int, 0 ≤ i → i < j → j < two_fix_base_track.ntrkpts →
      ¬ track_delta two_fix_base_track i j ≤ 0) ∧
    (track_compute_circuit_tables two_fix_base_track 0).last_finish 1 = 0 ∧
    (∀ (last_finish best_start : Int → Int),
      (track_compute_circuit_tables_loop two_fix_base_track 0 2 0
        last_finish best_start 0).1 = last_finish) := by
  refine ⟨?_, by decide!, ?_⟩
  · intro i j h0 hij hj
    have hn : two_fix_base_track.ntrkpts = 2 := rfl
    rw [hn] at hj
    have hi : i = 0 := by omega
    have hj1 : j = 1 := by omega
    subst hi
    subst hj1
    decide!
  · intro last_finish best_start
    have hn : two_fix_base_track.ntrkpts = 2 := rfl
    have e0 : last_finish_loop two_fix_base_track 0 0 (2 - 0 : Int).toNat (2 - 1) = none := by
      decide!
    have e1 : last_finish_loop two_fix_base_track (0 + 1) 0 (2 - (0 + 1) : Int).toNat
        (2 - 1) = none := by
      decide!
    simp only [track_compute_circuit_tables_loop, hn, e0, e1]
    norm_num

/-- C20, amended: on a preprocessed track and for a closure radius `ε > 0` such
that no two distinct fixes `i < j` satisfy `δ(i,j) ≤ ε`,
`track_compute_circuit_tables(ε)` sets `last_finish[i] = i` (and
`best_start[i] = i`) for every fix `i`, and after it `track_frcfd_aller_retour`,
`track_frcfd_triangle_fai` and `track_frcfd_triangle_plat` return the bound they
were given and leave all their indexes at `-1`, for every initial bound. -/
theorem C20_no_closure_no_circuit (t : track_t) (hp : Preprocessed t) (e : ℚ) (he : 0 < e)
    (hno : ∀ i j, 0 ≤ i → i < j → j < t.ntrkpts → ¬ track_delta t i j ≤ e) :
    (∀ i, 0 ≤ i → i < t.ntrkpts →
      (track_compute_circuit_tables t e).last_finish i = i ∧
      (track_compute_circuit_tables t e).best_start i = i) ∧
    (∀ b, track_frcfd_aller_retour (track_compute_circuit_tables t e) b =
      (b, [-1, -1, -1, -1])) ∧
    (∀ b, track_frcfd_triangle_fai (track_compute_circuit_tables t e) b =
      (b, [-1, -1, -1, -1, -1])) ∧
    (∀ b, track_frcfd_triangle_plat (track_compute_circuit_tables t e) b =
      (b, [-1, -1, -1, -1, -1])) := by
  have hs := track_compute_circuit_tables_spec hp e he
  have hlf : ∀ i, 0 ≤ i → i < t.ntrkpts →
      (track_compute_circuit_tables t e).last_finish i = i := by
    intro i h0 hi
    obtain ⟨h1, h2, h3, _⟩ := hs.1 i h0 hi
    by_contra hne
    exact hno i _ h0 (by omega) h2 h3.le
  have hbs : ∀ i, 0 ≤ i → i < t.ntrkpts →
      (track_compute_circuit_tables t e).best_start i = i := by
    intro i h0 hi
    obtain ⟨h1, h2, h3, _⟩ := hs.2 i h0 hi
    have h4 := h3 i h0 (le_refl _)
    rw [hlf i h0 hi, hlf _ h1 (by omega)] at h4
    omega
  have hw : ∀ k, 0 ≤ k → k < (track_compute_circuit_tables t e).ntrkpts - 1 →
      (track_compute_circuit_tables t e).last_finish
        ((track_compute_circuit_tables t e).best_start k) ≤ k := by
    intro k h0 hk
    simp only [track_compute_circuit_tables_ntrkpts] at hk
    rw [hbs k h0 (by omega), hlf k h0 (by omega)]
  refine ⟨fun i h0 hi => ⟨hlf i h0 hi, hbs i h0 hi⟩, ?_, ?_, ?_⟩
  · exact fun b => track_frcfd_aller_retour_no_window _ hw b
  · exact fun b => track_frcfd_triangle_fai_no_window _
      (fun k h0 hk => by have := hw k h0 hk; omega) b
  · exact fun b => track_frcfd_triangle_plat_no_window _
      (fun k h0 hk => by have := hw k h0 hk; omega) b

/-- C20, witness: the straight track 0, 3, 6, 9 (thousandths) with the closure
radius 1/1000, below every distance between two distinct fixes. -/
theorem C20_no_closure_no_circuit_witness :
    (0 : ℚ) < 1 / 1000 ∧
    (track_compute_circuit_tables straight_track (1 / 1000)).last_finish 2 = 2 ∧
    track_frcfd_aller_retour (track_compute_circuit_tables straight_track (1 / 1000)) 0 =
      (0, [-1, -1, -1, -1]) ∧
    track_frcfd_triangle_fai (track_compute_circuit_tables straight_track (1 / 1000)) 0 =
      (0, [-1, -1, -1, -1, -1]) ∧
    track_frcfd_triangle_plat (track_compute_circuit_tables straight_track (1 / 1000)) 0 =
      (0, [-1, -1, -1, -1, -1]) :=
  have h := C20_no_closure_no_circuit straight_track (plane_track_preprocessed _) (1 / 1000)
    (by norm_num) (by
      intro i j h0 hij hj
      have hn : straight_track.ntrkpts = 4 := rfl
      rw [hn] at hj
      have hi : i = 0 ∨ i = 1 ∨ i = 2 := by omega
      have hj1 : j = 1 ∨ j = 2 ∨ j = 3 := by omega
      rcases hi with rfl | rfl | rfl <;> rcases hj1 with rfl | rfl | rfl <;>
        first | omega | decide!)
  ⟨by norm_num, (h.1 2 (by decide) (by decide!)).1, h.2.1 0, h.2.2.1 0, h.2.2.2 0⟩

/-! ## The league functions -/

/-- A route is in the result after a conditional push exactly when it was there
before or is the route pushed. -/
theorem mem_push_route {α : Type} (w : Prop) [Decidable w] (l : List α) (x r : α) :
    r ∈ (if w then l ++ [x] else l) ↔ r ∈ l ∨ (w ∧ r = x) := by
  split_ifs with h <;> simp [h]

/-- C15: for every track and earth radius, and every complexity `c ≥ 0`, the
result of `track_optimize_frcfd` holds a one-turnpoint open route only if
`c ≥ 1`, a two-turnpoint open route or an aller-retour route only if `c ≥ 2`, and
a triangle (FAI or plat) route only if `c ≥ 3`; with `c = −1` all six searches
are run and the result is the result for any `c ≥ 3`; with `c = 1` only the
first two searches are run and every route of the result is one of the two
open routes, with circuit flag 0. -/
theorem C15_frcfd_complexity_gates (t : track_t) (R : ℚ) :
    (∀ c : Int, 0 ≤ c → ∀ r ∈ track_optimize_frcfd t R c,
      (r.name = "distance libre avec un point de contournement" → 1 ≤ c) ∧
      (r.name = "distance libre avec deux points de contournement" → 2 ≤ c) ∧
      (r.name = "parcours en aller-retour" → 2 ≤ c) ∧
      (r.name = "triangle FAI" → 3 ≤ c) ∧
      (r.name = "triangle plat" → 3 ≤ c)) ∧
    (track_optimize_frcfd_run t R (-1)).bounds.length = 6 ∧
    (∀ c : Int, 3 ≤ c → track_optimize_frcfd t R c = track_optimize_frcfd t R (-1)) ∧
    (track_optimize_frcfd_run t R 1).bounds =
      [(track_open_distance t 0.0).1,
        (track_open_distance1 t (track_open_distance t 0.0).1).1] ∧
    (∀ r ∈ track_optimize_frcfd t R 1, r.circuit = 0 ∧
      (r.name = "distance libre sans point de contournement" ∨
        r.name = "distance libre avec un point de contournement")) := by
  refine ⟨?_, ?_, ?_, ?_, ?_⟩
  · intro c hc r hr
    unfold track_optimize_frcfd track_optimize_frcfd_run at hr
    by_cases h1 : c < 1
    · rw [if_pos ⟨by omega, h1⟩] at hr
      simp only [mem_push_route, List.not_mem_nil, false_or] at hr
      obtain ⟨_, rfl⟩ := hr
      simp [route_push_trkpts, result_push_new_route]
    · by_cases h2 : c < 2
      · rw [if_neg (by omega), if_pos ⟨by omega, h2⟩] at hr
        simp only [mem_push_route, List.not_mem_nil, false_or] at hr
        rcases hr with ⟨_, rfl⟩ | ⟨_, rfl⟩
        · simp [route_push_trkpts, result_push_new_route]
        · simp only [route_push_trkpts, result_push_new_route]
          simp
          omega
      · by_cases h3 : c < 3
        · rw [if_neg (by omega), if_neg (by omega), if_pos ⟨by omega, h3⟩] at hr
          simp only [mem_push_route, List.not_mem_nil, false_or] at hr
          rcases hr with ((⟨_, rfl⟩ | ⟨_, rfl⟩) | ⟨_, rfl⟩) | ⟨_, rfl⟩ <;>
            simp [route_push_trkpts, result_push_new_route] <;> omega
        · exact ⟨fun _ => by omega, fun _ => by omega, fun _ => by omega, fun _ => by omega,
            fun _ => by omega⟩
  · unfold track_optimize_frcfd_run
    simp
  · intro c hc
    unfold track_optimize_frcfd track_optimize_frcfd_run
    simp only [ne_eq, not_true_eq_false, false_and, if_false]
    rw [if_neg (by omega), if_neg (by omega), if_neg (by omega)]
  · unfold track_optimize_frcfd_run
    simp
  · intro r hr
    unfold track_optimize_frcfd track_optimize_frcfd_run at hr
    rw [if_neg (by omega), if_pos ⟨by omega, by omega⟩] at hr
    simp only [mem_push_route, List.not_mem_nil, false_or] at hr
    rcases hr with ⟨_, rfl⟩ | ⟨_, rfl⟩ <;>
      simp [route_push_trkpts, result_push_new_route]

/-- C15, witness: the triangle track, with the earth radius 6371 km.  At
complexity 0 it yields the plain open route alone, at complexity 3 what
complexity `-1` yields. -/
theorem C15_frcfd_complexity_gates_witness :
    (0 : Int) ≤ 0 ∧ (3 : Int) ≤ 3 ∧
    (∀ r ∈ track_optimize_frcfd triangle_base_track 6371 0,
      (r.name = "distance libre avec un point de contournement" → (1 : Int) ≤ 0) ∧
      (r.name = "distance libre avec deux points de contournement" → (2 : Int) ≤ 0) ∧
      (r.name = "parcours en aller-retour" → (2 : Int) ≤ 0) ∧
      (r.name = "triangle FAI" → (3 : Int) ≤ 0) ∧
      (r.name = "triangle plat" → (3 : Int) ≤ 0)) ∧
    track_optimize_frcfd triangle_base_track 6371 3 =
      track_optimize_frcfd triangle_base_track 6371 (-1) :=
  ⟨by decide, by decide,
    (C15_frcfd_complexity_gates triangle_base_track 6371).1 0 (by decide),
    (C15_frcfd_complexity_gates triangle_base_track 6371).2.2.1 3 (by decide)⟩

/-- C14, counterexample: two fixes 5/1000 rad apart (31.9 km), earth radius
6371 km, complexity `-1`.  In `track_optimize_frcfd` and in
`track_optimize_uknxcl` the three open-distance searches return 5/1000, then
`track_frcfd_aller_retour`, which is started from `15.0 / R` and not from
`bound`, returns 15/6371, which is less. -/
theorem C14_aller_retour_restarts_bound :
    (track_optimize_frcfd_run two_fix_base_track 6371 (-1)).bounds =
      [5 / 1000, 5 / 1000, 5 / 1000, 15 / 6371, 15 / 6371, 15 / 6371] ∧
    (track_optimize_uknxcl_run two_fix_base_track 6371 (-1)).bounds =
      [5 / 1000, 5 / 1000, 5 / 1000, 15 / 6371, 15 / 6371, 15 / 6371] ∧
    (track_open_distance2 two_fix_base_track
      (track_open_distance1 two_fix_base_track
        (track_open_distance two_fix_base_track 0.0).1).1).1 = 5 / 1000 ∧
    (track_frcfd_aller_retour (track_compute_circuit_tables two_fix_base_track (3.0 / 6371))
      (15.0 / 6371)).1 = 15 / 6371 ∧
    (15 / 6371 : ℚ) < 5 / 1000 := by
  decide!

/-- C14, amended: in every league function run with complexity `-1`, on every
track and for every earth radius, each search returns at least the bound passed
to it.  In `track_optimize_frcfd` and `track_optimize_uknxcl` the bounds of the
three open-distance searches do not decrease, from 0; `track_frcfd_aller_retour`
is started from `15.0 / R`, and from there the bounds of the aller-retour, FAI
triangle and flat triangle searches do not decrease.  In `track_optimize_ukxcl`
the open-distance bound is at least `10.0 / R` and the bound of
`track_open_distance3` is at least the open-distance bound and `15.0 / R`. -/
theorem C14_bounds_by_stage (t : track_t) (R : ℚ) :
    (∃ b0 b1 b2 b3 b4 b5, (track_optimize_frcfd_run t R (-1)).bounds = [b0, b1, b2, b3, b4, b5] ∧
      0 ≤ b0 ∧ b0 ≤ b1 ∧ b1 ≤ b2 ∧ 15 / R ≤ b3 ∧ b3 ≤ b4 ∧ b4 ≤ b5) ∧
    (∃ b0 b1 b2 b3 b4 b5, (track_optimize_uknxcl_run t R (-1)).bounds = [b0, b1, b2, b3, b4, b5] ∧
      0 ≤ b0 ∧ b0 ≤ b1 ∧ b1 ≤ b2 ∧ 15 / R ≤ b3 ∧ b3 ≤ b4 ∧ b4 ≤ b5) ∧
    (∃ b0 b1, (track_optimize_ukxcl_run t R (-1)).bounds = [b0, b1] ∧
      10 / R ≤ b0 ∧ b0 ≤ b1 ∧ 15 / R ≤ b1) ∧
    (∀ b, b ≤ (track_open_distance t b).1) ∧
    (∀ b, b ≤ (track_open_distance1 t b).1) ∧
    (∀ b, b ≤ (track_open_distance2 t b).1) ∧
    (∀ b, b ≤ (track_open_distance3 t b).1) ∧
    (∀ b, b ≤ (track_frcfd_aller_retour t b).1) ∧
    (∀ b, b ≤ (track_frcfd_triangle_fai t b).1) ∧
    (∀ b, b ≤ (track_frcfd_triangle_plat t b).1) := by
  have m0 : ∀ (s : track_t) (b : ℚ), b ≤ (track_open_distance s b).1 :=
    fun s b => (track_open_distance_sound s b).open_bound_ge
  have m1 : ∀ (s : track_t) (b : ℚ), b ≤ (track_open_distance1 s b).1 :=
    fun s b => (track_open_distance1_grown s b).le
  have m2 : ∀ (s : track_t) (b : ℚ), b ≤ (track_open_distance2 s b).1 :=
    fun s b => (track_open_distance2_grown s b).le
  have m3 : ∀ (s : track_t) (b : ℚ), b ≤ (track_open_distance3 s b).1 :=
    fun s b => (track_open_distance3_sound s b).open3_bound_ge
  have m4 : ∀ (s : track_t) (b : ℚ), b ≤ (track_frcfd_aller_retour s b).1 :=
    fun s b => (track_frcfd_aller_retour_grown s b).le
  have m5 := track_frcfd_triangle_fai_mono
  have m6 := track_frcfd_triangle_plat_mono
  have z0 : ∀ s : track_t, (0 : ℚ) ≤ (track_open_distance s 0.0).1 := by
    intro s
    have := m0 s 0.0
    norm_num at this ⊢
    exact this
  have z15 : ∀ s : track_t, 15 / R ≤ (track_frcfd_aller_retour s (15.0 / R)).1 := by
    intro s
    have := m4 s (15.0 / R)
    norm_num at this ⊢
    exact this
  refine ⟨?_, ?_, ?_, m0 t, m1 t, m2 t, m3 t, m4 t, m5 t, m6 t⟩
  · refine ⟨_, _, _, _, _, _, ?_, z0 t, m1 t _, m2 t _,
      z15 (track_compute_circuit_tables t (3.0 / R)),
      m5 (track_compute_circuit_tables t (3.0 / R)) _,
      m6 (track_compute_circuit_tables t (3.0 / R)) _⟩
    unfold track_optimize_frcfd_run
    simp
  · refine ⟨_, _, _, _, _, _, ?_, z0 t, m1 t _, m2 t _,
      z15 (track_compute_circuit_tables t (0.4 / R)),
      m5 (track_compute_circuit_tables t (0.4 / R)) _,
      m6 (track_compute_circuit_tables t (0.4 / R)) _⟩
    unfold track_optimize_uknxcl_run
    simp
  · refine ⟨(track_open_distance t (10.0 / R)).1,
      (track_open_distance3 t (if (track_open_distance t (10.0 / R)).1 < 15.0 / R
        then 15.0 / R else (track_open_distance t (10.0 / R)).1)).1, ?_, ?_, ?_, ?_⟩
    · unfold track_optimize_ukxcl_run
      simp
    · have := m0 t (10.0 / R)
      norm_num at this ⊢
      exact this
    · refine le_trans ?_ (m3 _ _)
      split_ifs with h
      · exact h.le
      · exact le_refl _
    · refine le_trans ?_ (m3 _ _)
      split_ifs with h
      · norm_num
      · norm_num at h ⊢
        exact h

/-- C16: for every track, every positive earth radius and every complexity,
`track_optimize_ukxcl` reports an "open distance" route only if some pair of
fixes is more than 10 km apart, its distance `R·bound` being the distance of
such a pair and above 10; and it reports a "turnpoint flight" route only if the
complexity is `-1` or at least 3, its distance being that of three turnpoints
between the tabulated start and finish and greater than both 15 km and the
open-distance bound. -/
theorem C16_ukxcl_floors (t : track_t) (R : ℚ) (hR : 0 < R) (complexity : Int) :
    ∀ r ∈ track_optimize_ukxcl t R complexity,
      (r.name = "open distance" →
        (∃ i j, 0 ≤ i ∧ i < j ∧ j < t.ntrkpts ∧ R * track_delta t i j > 10 ∧
          r.distance = R * track_delta t i j) ∧
        r.distance = R * (track_open_distance t (10.0 / R)).1 ∧ r.distance > 10) ∧
      (r.name = "turnpoint flight" →
        (complexity = -1 ∨ 3 ≤ complexity) ∧
        r.distance > 15 ∧ r.distance > R * (track_open_distance t (10.0 / R)).1 ∧
        ∃ tp1 tp2 tp3, 1 ≤ tp1 ∧ tp1 < tp2 ∧ tp2 < tp3 ∧ tp3 < t.ntrkpts - 1 ∧
          r.distance = R * ((t.before tp1).distance + track_delta t tp1 tp2 +
            track_delta t tp2 tp3 + (t.after tp3).distance)) := by
  have hw2 : ¬ indexes_written [-1, -1] := by decide
  have hw5 : ¬ indexes_written [-1, -1, -1, -1, -1] := by decide
  have hopen : ∀ r : route_t, indexes_written (track_open_distance t (10.0 / R)).2 →
      r.distance = R * (track_open_distance t (10.0 / R)).1 →
      (∃ i j, 0 ≤ i ∧ i < j ∧ j < t.ntrkpts ∧ R * track_delta t i j > 10 ∧
          r.distance = R * track_delta t i j) ∧
        r.distance = R * (track_open_distance t (10.0 / R)).1 ∧ r.distance > 10 := by
    intro r hw hd
    rcases track_open_distance_sound t (10.0 / R) with ⟨_, h2⟩ | ⟨s, f, g1, g2, g3, _, g5, g6⟩
    · rw [h2] at hw
      exact absurd hw hw2
    · have h10 : R * (track_open_distance t (10.0 / R)).1 > 10 := by
        have := mul_lt_mul_of_pos_left g6 hR
        rw [show R * (10.0 / R) = 10 by field_simp; norm_num] at this
        exact this
      refine ⟨⟨s, f, g1, g2, g3, ?_, ?_⟩, hd, by rw [hd]; exact h10⟩
      · unfold track_delta
        rw [g5]
        exact h10
      · unfold track_delta
        rw [g5]
        exact hd
  have hturn : ∀ r : route_t,
      indexes_written (track_open_distance3 t
        (if (track_open_distance t (10.0 / R)).1 < 15.0 / R then 15.0 / R
          else (track_open_distance t (10.0 / R)).1)).2 →
      r.distance = R * (track_open_distance3 t
        (if (track_open_distance t (10.0 / R)).1 < 15.0 / R then 15.0 / R
          else (track_open_distance t (10.0 / R)).1)).1 →
      r.distance > 15 ∧ r.distance > R * (track_open_distance t (10.0 / R)).1 ∧
        ∃ tp1 tp2 tp3, 1 ≤ tp1 ∧ tp1 < tp2 ∧ tp2 < tp3 ∧ tp3 < t.ntrkpts - 1 ∧
          r.distance = R * ((t.before tp1).distance + track_delta t tp1 tp2 +
            track_delta t tp2 tp3 + (t.after tp3).distance) := by
    intro r hw hd
    rcases track_open_distance3_sound t
      (if (track_open_distance t (10.0 / R)).1 < 15.0 / R then 15.0 / R
        else (track_open_distance t (10.0 / R)).1) with
      ⟨_, h2⟩ | ⟨tp1, tp2, tp3, g1, g2, g3, g4, _, g6, g7⟩
    · rw [h2] at hw
      exact absurd hw hw5
    · have h15 : 15.0 / R < (track_open_distance3 t
          (if (track_open_distance t (10.0 / R)).1 < 15.0 / R then 15.0 / R
            else (track_open_distance t (10.0 / R)).1)).1 := by
        refine lt_of_le_of_lt ?_ g7
        split_ifs with h
        · exact le_refl _
        · exact not_lt.mp h
      have hb : (track_open_distance t (10.0 / R)).1 < (track_open_distance3 t
          (if (track_open_distance t (10.0 / R)).1 < 15.0 / R then 15.0 / R
            else (track_open_distance t (10.0 / R)).1)).1 := by
        refine lt_of_le_of_lt ?_ g7
        split_ifs with h
        · exact h.le
        · exact le_refl _
      refine ⟨?_, ?_, tp1, tp2, tp3, g1, g2, g3, g4, ?_⟩
      · have := mul_lt_mul_of_pos_left h15 hR
        rw [show R * (15.0 / R) = 15 by field_simp; norm_num] at this
        rw [hd]
        exact this
      · rw [hd]
        exact mul_lt_mul_of_pos_left hb hR
      · unfold track_delta
        rw [g6]
        exact hd
  intro r hr
  unfold track_optimize_ukxcl track_optimize_ukxcl_run at hr
  by_cases hc : complexity ≠ -1 ∧ complexity < 3
  · rw [if_pos hc] at hr
    simp only [mem_push_route, List.not_mem_nil, false_or] at hr
    obtain ⟨hw, rfl⟩ := hr
    refine ⟨fun _ => hopen _ hw rfl, fun hname => ?_⟩
    simp [route_push_trkpts, result_push_new_route] at hname
  · rw [if_neg hc] at hr
    simp only [mem_push_route, List.not_mem_nil, false_or] at hr
    rcases hr with ⟨hw, rfl⟩ | ⟨hw, rfl⟩
    · refine ⟨fun _ => hopen _ hw rfl, fun hname => ?_⟩
      simp [route_push_trkpts, result_push_new_route] at hname
    · refine ⟨fun hname => ?_, fun _ => ⟨by omega, hturn _ hw rfl⟩⟩
      simp [route_push_trkpts, result_push_new_route] at hname

/-- C16, witness: the five-fix zigzag track with the earth radius 6371 km and
complexity `-1`; it has both routes. -/
theorem C16_ukxcl_floors_witness :
    (0 : ℚ) < 6371 ∧
    (track_optimize_ukxcl zigzag_track 6371 (-1)).map (fun r => r.name) =
      ["open distance", "turnpoint flight"] ∧
    ∀ r ∈ track_optimize_ukxcl zigzag_track 6371 (-1),
      (r.name = "open distance" → r.distance > 10) ∧
      (r.name = "turnpoint flight" → r.distance > 15) :=
  ⟨by norm_num, by decide!, fun r hr =>
    ⟨fun h => ((C16_ukxcl_floors zigzag_track 6371 (by norm_num) (-1) r hr).1 h).2.2,
      fun h => ((C16_ukxcl_floors zigzag_track 6371 (by norm_num) (-1) r hr).2 h).2.1⟩⟩

/-! ## The skips: what they return -/

/-- C21, counterexample: on the five-fix zigzag track, from fix 1 and with
`Δ = 0` or `Δ = -1`, `track_fast_forward` returns 2 and `track_fast_backward`
returns 0, not 1; and on every track, for every index and every `Δ`,
`track_fast_forward` returns an index above the one given and
`track_fast_backward` an index below. -/
theorem C21_fast_forward_moves_on :
    track_fast_forward zigzag_track 1 0 = 2 ∧
    track_fast_forward zigzag_track 1 (-1) = 2 ∧
    track_fast_backward zigzag_track 1 0 = 0 ∧
    track_fast_backward zigzag_track 1 (-1) = 0 ∧
    (∀ (t : track_t) (i : Int) (d : ℚ),
      track_fast_forward t i d ≠ i ∧ track_fast_backward t i d ≠ i) := by
  refine ⟨by decide!, by decide!, by decide!, by decide!, fun t i d => ⟨?_, ?_⟩⟩
  · have := track_fast_forward_gt t i d
    omega
  · have := track_fast_backward_lt t i d
    omega

theorem double_to_int_nonpos {x : ℚ} (h : x ≤ 0) : double_to_int x ≤ 0 := by
  unfold double_to_int
  split_ifs with h0
  · have : x = 0 := le_antisymm h h0
    rw [this]
    simp
  · exact Int.ceil_le.mpr (by simpa using h)

/-- C21, amended: on a track whose `max_delta` is not negative, for every index
`i` and every `Δ ≤ 0`, `track_fast_forward` returns `i + 1` when
`sigma_delta[i] ≤ sigma_delta[i + 1]` (or `i + 1` is past the last fix), and
`track_fast_backward` returns `i - 1` when `sigma_delta[i - 1] ≤ sigma_delta[i]`
(or `i - 1` is before the first fix): a step of one fix, never zero. -/
theorem C21_fast_forward_one_step (t : track_t) (hm : 0 ≤ t.max_delta) (i : Int) (d : ℚ)
    (hd : d ≤ 0) :
    ((i + 1 < t.ntrkpts → t.sigma_delta i ≤ t.sigma_delta (i + 1)) →
      track_fast_forward t i d = i + 1) ∧
    ((0 ≤ i - 1 → t.sigma_delta (i - 1) ≤ t.sigma_delta i) →
      track_fast_backward t i d = i - 1) := by
  have hstep : ¬ double_to_int (d / t.max_delta) > 0 := by
    have := double_to_int_nonpos (div_nonpos_of_nonpos_of_nonneg hd hm)
    omega
  have hf : track_forward t i d = i + 1 := by
    unfold track_forward
    simp only
    rw [if_neg hstep]
  have hb : track_backward t i d = i - 1 := by
    unfold track_backward
    simp only
    rw [if_neg hstep]
  constructor
  · intro hs
    unfold track_fast_forward
    simp only
    rw [hf]
    by_cases hge : i + 1 ≥ t.ntrkpts
    · rw [if_pos hge]
    · rw [if_neg hge]
      obtain ⟨k, hk⟩ : ∃ k, (t.ntrkpts - (i + 1)).toNat = k + 1 :=
        ⟨(t.ntrkpts - (i + 1)).toNat - 1, by omega⟩
      rw [hk, track_fast_forward_loop]
      simp only
      rw [if_pos (by have := hs (by omega); linarith)]
  · intro hs
    unfold track_fast_backward
    simp only
    rw [hb]
    by_cases hlt : i - 1 < 0
    · rw [if_pos hlt]
    · rw [if_neg hlt]
      obtain ⟨k, hk⟩ : ∃ k, (i - 1 + 1).toNat = k + 1 := ⟨(i - 1 + 1).toNat - 1, by omega⟩
      rw [hk, track_fast_backward_loop]
      simp only
      rw [if_pos (by have := hs (by omega); linarith)]

/-- C21, witness: the zigzag track, fix 1, `Δ = -1`. -/
theorem C21_fast_forward_one_step_witness :
    0 ≤ zigzag_track.max_delta ∧ (-1 : ℚ) ≤ 0 ∧
    track_fast_forward zigzag_track 1 (-1) = 1 + 1 ∧
    track_fast_backward zigzag_track 1 (-1) = 1 - 1 :=
  ⟨by decide!, by norm_num,
    (C21_fast_forward_one_step zigzag_track (by decide!) 1 (-1) (by norm_num)).1
      (fun _ => by decide!),
    (C21_fast_forward_one_step zigzag_track (by decide!) 1 (-1) (by norm_num)).2
      (fun _ => by decide!)⟩

theorem arc_track_fast_forward_loop (t : track_t) (target : ℚ) :
    ∀ (fuel : Nat) (i : Int),
      track_fast_forward_loop (arc_track t) target fuel i =
        track_fast_forward_loop t target fuel i := by
  intro fuel
  induction fuel with
  | zero => intro i; rfl
  | succ fuel ih =>
    intro i
    rw [track_fast_forward_loop, track_fast_forward_loop]
    simp only
    have h1 : (arc_track t).sigma_delta = t.sigma_delta := rfl
    have h2 : ∀ e, track_forward (arc_track t) i e = track_forward t i e := fun _ => rfl
    have h3 : (arc_track t).ntrkpts = t.ntrkpts := rfl
    rw [h1, h2, h3, ih]

theorem arc_track_fast_forward (t : track_t) (i : Int) (d : ℚ) :
    track_fast_forward (arc_track t) i d = track_fast_forward t i d := by
  unfold track_fast_forward
  simp only
  have h1 : (arc_track t).sigma_delta = t.sigma_delta := rfl
  have h2 : track_forward (arc_track t) i d = track_forward t i d := rfl
  have h3 : (arc_track t).ntrkpts = t.ntrkpts := rfl
  rw [h1, h2, h3, arc_track_fast_forward_loop]

/-- A track whose `sigma_delta` does not decrease and grows by at most
`max_delta` per fix is preprocessed for the distance along the path. -/
theorem arc_track_preprocessed (t : track_t)
    (hmono : ∀ k, 0 ≤ k → k + 1 < t.ntrkpts → t.sigma_delta k ≤ t.sigma_delta (k + 1))
    (hstep : ∀ k, 0 ≤ k → k + 1 < t.ntrkpts →
      t.sigma_delta (k + 1) - t.sigma_delta k ≤ t.max_delta) :
    Preprocessed (arc_track t) :=
  { delta_self := fun a _ _ => by simp [arc_track]
    delta_symm := fun a b _ _ _ _ => by
      simp only [arc_track]
      exact abs_sub_comm _ _
    delta_triangle := fun a b c _ _ _ _ _ _ => by
      simp only [arc_track]
      exact abs_sub_le _ _ _
    sigma_succ := fun k h1 h2 => by
      have := hmono k h1 h2
      simp only [arc_track]
      rw [abs_sub_comm, abs_of_nonneg (by linarith)]
      ring
    max_step := fun k h1 h2 => by
      have := hmono k h1 h2
      have := hstep k h1 h2
      simp only [arc_track]
      rw [abs_sub_comm, abs_of_nonneg (by linarith)]
      linarith }

/-- The linear scan stops at the first index from `j` on that is past the last
fix or has reached the target. -/
theorem linear_scan_forward_spec (t : track_t) (target : ℚ) :
    ∀ (fuel : Nat) (j : Int), j ≤ t.ntrkpts → (t.ntrkpts - j).toNat ≤ fuel →
      j ≤ linear_scan_forward t target fuel j ∧
      linear_scan_forward t target fuel j ≤ t.ntrkpts ∧
      (∀ k, j ≤ k → k < linear_scan_forward t target fuel j → t.sigma_delta k < target) ∧
      (linear_scan_forward t target fuel j < t.ntrkpts →
        target ≤ t.sigma_delta (linear_scan_forward t target fuel j)) := by
  intro fuel
  induction fuel with
  | zero =>
    intro j h1 h2
    unfold linear_scan_forward
    exact ⟨le_refl _, h1, fun k _ _ => by omega, fun h => by omega⟩
  | succ fuel ih =>
    intro j h1 h2
    unfold linear_scan_forward
    by_cases hc : j < t.ntrkpts ∧ t.sigma_delta j < target
    · rw [if_pos hc]
      obtain ⟨r1, r2, r3, r4⟩ := ih (j + 1) (by omega) (by omega)
      refine ⟨by omega, r2, fun k g1 g2 => ?_, r4⟩
      rcases (by omega : k = j ∨ j + 1 ≤ k) with h | h
      · rw [h]
        exact hc.2
      · exact r3 k h g2
    · rw [if_neg hc]
      refine ⟨le_refl _, h1, fun k _ _ => by omega, fun h => ?_⟩
      by_contra hlt
      exact hc ⟨h, not_le.mp hlt⟩

/-- C22: on a track whose `sigma_delta` does not decrease and grows by at most
`max_delta` per fix, for a fix `i` and every `d`, `track_fast_forward` returns
an index `r > i`; every fix of the track that it jumps over has cumulative arc
length strictly below `sigma_delta[i] + d`; if some `j` in `(i, n)` has
`sigma_delta[j] ≥ sigma_delta[i] + d` then `r` is the least such `j`, and
otherwise `r ≥ n`; capped at `n`, `r` is what the one-by-one linear scan from
`i + 1` returns. -/
theorem C22_fast_forward_least (t : track_t)
    (hmono : ∀ k, 0 ≤ k → k + 1 < t.ntrkpts → t.sigma_delta k ≤ t.sigma_delta (k + 1))
    (hstep : ∀ k, 0 ≤ k → k + 1 < t.ntrkpts →
      t.sigma_delta (k + 1) - t.sigma_delta k ≤ t.max_delta)
    (i : Int) (h0 : 0 ≤ i) (hi : i < t.ntrkpts) (d : ℚ) :
    i < track_fast_forward t i d ∧
    (∀ k, i < k → k < track_fast_forward t i d → k < t.ntrkpts →
      t.sigma_delta k < t.sigma_delta i + d) ∧
    ((∃ j, i < j ∧ j < t.ntrkpts ∧ t.sigma_delta i + d ≤ t.sigma_delta j) →
      track_fast_forward t i d < t.ntrkpts ∧
      t.sigma_delta i + d ≤ t.sigma_delta (track_fast_forward t i d) ∧
      ∀ j, i < j → j < t.ntrkpts → t.sigma_delta i + d ≤ t.sigma_delta j →
        track_fast_forward t i d ≤ j) ∧
    ((¬ ∃ j, i < j ∧ j < t.ntrkpts ∧ t.sigma_delta i + d ≤ t.sigma_delta j) →
      t.ntrkpts ≤ track_fast_forward t i d) ∧
    min (track_fast_forward t i d) t.ntrkpts =
      linear_scan_forward t (t.sigma_delta i + d) (t.ntrkpts - (i + 1)).toNat (i + 1) := by
  obtain ⟨r1, r2, r3⟩ := track_fast_forward_spec (arc_track_preprocessed t hmono hstep) i d h0
  rw [arc_track_fast_forward] at r1 r2 r3
  have e1 : (arc_track t).sigma_delta = t.sigma_delta := rfl
  have e2 : (arc_track t).ntrkpts = t.ntrkpts := rfl
  rw [e1] at r2 r3
  rw [e2] at r2 r3
  obtain ⟨s1, s2, s3, s4⟩ := linear_scan_forward_spec t (t.sigma_delta i + d)
    (t.ntrkpts - (i + 1)).toNat (i + 1) (by omega) (le_refl _)
  have hleast : ∀ j, i < j → j < t.ntrkpts → t.sigma_delta i + d ≤ t.sigma_delta j →
      track_fast_forward t i d ≤ j := by
    intro j g1 g2 g3
    by_contra hc
    have := r2 j g1 (by omega) g2
    linarith
  refine ⟨r1, r2, ?_, ?_, ?_⟩
  · rintro ⟨j, g1, g2, g3⟩
    have hr : track_fast_forward t i d < t.ntrkpts := by
      have := hleast j g1 g2 g3
      omega
    exact ⟨hr, r3 hr, hleast⟩
  · intro hno
    by_contra hc
    exact hno ⟨_, r1, by omega, r3 (by omega)⟩
  · by_cases hr : track_fast_forward t i d < t.ntrkpts
    · rw [min_eq_left hr.le]
      have h3 := r3 hr
      rcases lt_trichotomy (track_fast_forward t i d)
        (linear_scan_forward t (t.sigma_delta i + d) (t.ntrkpts - (i + 1)).toNat (i + 1)) with
        h | h | h
      · have := s3 _ (by omega) h
        linarith
      · exact h
      · have := r2 _ (by omega) h (by omega)
        have := s4 (by omega)
        linarith
    · rw [min_eq_right (by omega)]
      by_contra hne
      have hlt : linear_scan_forward t (t.sigma_delta i + d) (t.ntrkpts - (i + 1)).toNat
          (i + 1) < t.ntrkpts := by omega
      have := s4 hlt
      have := r2 _ (by omega) (by omega) hlt
      linarith

/-- C22, witness: the zigzag track from fix 0 with `d = 5`; the cumulative arc
lengths are 0, 3, 5, 9, 12, and the result is fix 2. -/
theorem C22_fast_forward_least_witness :
    (0 : Int) ≤ 0 ∧ (0 : Int) < zigzag_track.ntrkpts ∧
    track_fast_forward zigzag_track 0 5 = 2 ∧
    min (track_fast_forward zigzag_track 0 5) zigzag_track.ntrkpts =
      linear_scan_forward zigzag_track (zigzag_track.sigma_delta 0 + 5)
        (zigzag_track.ntrkpts - (0 + 1)).toNat (0 + 1) :=
  ⟨by decide, by decide!, by decide!,
    (C22_fast_forward_least zigzag_track
      (fun k h1 h2 => by
        have hn : zigzag_track.ntrkpts = 5 := rfl
        rw [hn] at h2
        have hk : k = 0 ∨ k = 1 ∨ k = 2 ∨ k = 3 := by omega
        rcases hk with rfl | rfl | rfl | rfl <;> decide!)
      (fun k h1 h2 => by
        have hn : zigzag_track.ntrkpts = 5 := rfl
        rw [hn] at h2
        have hk : k = 0 ∨ k = 1 ∨ k = 2 ∨ k = 3 := by omega
        rcases hk with rfl | rfl | rfl | rfl <;> decide!)
      0 (by decide) (by decide!) 5).2.2.2.2⟩

/-! ## `track_furthest_from2`: the greatest two-leg sum -/

/-- The state in which `track_furthest_from2` ends, as a scan invariant. -/
theorem track_furthest_from2_inv {t : track_t} (hp : Preprocessed t) (i j begin_ end_ : Int)
    (hi : 0 ≤ i) (hi' : i < t.ntrkpts) (hj : 0 ≤ j) (hj' : j < t.ntrkpts)
    (hb : 0 ≤ begin_) (he : end_ ≤ t.ntrkpts) (b out : ℚ) :
    ∃ B, ScanInv (fun k => t.delta i k + t.delta k j) (fun k d => (k, d)) begin_ end_ b
      (-1, out) end_ B (track_furthest_from2 t i j begin_ end_ b out) := by
  unfold track_furthest_from2
  rw [track_furthest_from2_loop_eq]
  refine ⟨_, scan_max_spec hp (fun k => t.delta i k + t.delta k j) (fun b d => (b - d) / 2.0)
    (fun k d => (k, d)) 2 begin_ end_ hb he (by norm_num) (fun b d => ?_) ?_ b (-1, out)
    (end_ - begin_).toNat begin_ b (-1, out) (le_refl _) (le_refl _) (ScanInv.init _ _ _ _ _ _)⟩
  · norm_num
    linarith
  · intro k m h1 h2 h3
    obtain ⟨g1, _, _, _⟩ := hp.leg_change i k m hi hi' (by omega) (by omega) (by omega)
    obtain ⟨_, _, g3, _⟩ := hp.leg_change j k m hj hj' (by omega) (by omega) (by omega)
    simp only
    linarith

/-- C23: on a preprocessed track, for fixes `i` and `j`, a range
`[begin_, end_)` with `0 ≤ begin_` and `end_ ≤ ntrkpts` and an initial bound
`b`, `track_furthest_from2` returns `-1` exactly when no `k` of the range has
`δ(i,k) + δ(k,j) > b`;
otherwise it returns the smallest index of the range at which `δ(i,k) + δ(k,j)`
is greatest over the range, and `*out` holds that greatest sum.  (So the skip
by `(bound − d) / 2` never jumps over a `k` whose sum exceeds the bound.) -/
theorem C23_track_furthest_from2_argmax (t : track_t) (hp : Preprocessed t)
    (i j begin_ end_ : Int) (hi : 0 ≤ i) (hi' : i < t.ntrkpts) (hj : 0 ≤ j)
    (hj' : j < t.ntrkpts) (hb : 0 ≤ begin_) (he : end_ ≤ t.ntrkpts)
    (b out : ℚ) :
    ((track_furthest_from2 t i j begin_ end_ b out).1 = -1 ↔
      ∀ k, begin_ ≤ k → k < end_ → track_delta t i k + track_delta t k j ≤ b) ∧
    ((track_furthest_from2 t i j begin_ end_ b out).1 ≠ -1 →
      begin_ ≤ (track_furthest_from2 t i j begin_ end_ b out).1 ∧
      (track_furthest_from2 t i j begin_ end_ b out).1 < end_ ∧
      (∀ k, begin_ ≤ k → k < end_ →
        track_delta t i k + track_delta t k j ≤
          track_delta t i (track_furthest_from2 t i j begin_ end_ b out).1 +
            track_delta t (track_furthest_from2 t i j begin_ end_ b out).1 j) ∧
      (∀ k, begin_ ≤ k → k < (track_furthest_from2 t i j begin_ end_ b out).1 →
        track_delta t i k + track_delta t k j <
          track_delta t i (track_furthest_from2 t i j begin_ end_ b out).1 +
            track_delta t (track_furthest_from2 t i j begin_ end_ b out).1 j) ∧
      (track_furthest_from2 t i j begin_ end_ b out).2 =
        track_delta t i (track_furthest_from2 t i j begin_ end_ b out).1 +
          track_delta t (track_furthest_from2 t i j begin_ end_ b out).1 j) := by
  obtain ⟨B, hall, hcase⟩ :=
    track_furthest_from2_inv hp i j begin_ end_ hi hi' hj hj' hb he b out
  simp only [track_delta]
  rcases hcase with ⟨h1, h2⟩ | ⟨r, h1, _, h3, h4, h5, h6, h7⟩
  · rw [h2]
    refine ⟨⟨fun _ k hk1 hk2 => ?_, fun _ => rfl⟩, fun h => absurd rfl h⟩
    have := hall k hk1 hk2 hk2
    rw [h1] at this
    exact this
  · rw [h4]
    refine ⟨⟨fun h => ?_, fun h => ?_⟩, fun _ => ⟨h1, h3, fun k hk1 hk2 => ?_, h7, rfl⟩⟩
    · simp only at h; omega
    · exact absurd (h r h1 h3) (not_le.mpr h6)
    · have := hall k hk1 hk2 hk2
      rw [h5] at this
      exact this

/-- C23, witness: the zigzag track, fixes 0 and 4, range `[1, 4)`, bound 0: the
sums are 6, 4 and 8, and fix 3 is returned with 8. -/
theorem C23_track_furthest_from2_argmax_witness :
    (Preprocessed zigzag_track ∧ (0 : Int) ≤ 0 ∧ (0 : Int) < zigzag_track.ntrkpts ∧
      (0 : Int) ≤ 4 ∧ (4 : Int) < zigzag_track.ntrkpts ∧ (0 : Int) ≤ 1 ∧
      (4 : Int) ≤ zigzag_track.ntrkpts) ∧
    track_furthest_from2 zigzag_track 0 4 1 4 0 0 = (3, 8) ∧
    (∀ k, (1 : Int) ≤ k → k < 4 →
      track_delta zigzag_track 0 k + track_delta zigzag_track k 4 ≤
        track_delta zigzag_track 0 (track_furthest_from2 zigzag_track 0 4 1 4 0 0).1 +
          track_delta zigzag_track (track_furthest_from2 zigzag_track 0 4 1 4 0 0).1 4) :=
  ⟨⟨plane_track_preprocessed _, by decide, by decide!, by decide, by decide!, by decide,
      by decide!⟩,
    by decide!,
    ((C23_track_furthest_from2_argmax zigzag_track (plane_track_preprocessed _) 0 4 1 4
      (by decide) (by decide!) (by decide) (by decide!) (by decide) (by decide!) 0 0).2 (by decide!)).2.2.1⟩

/-! ## `match_b_record` -/

theorem deref_cons (c : Char) (s : List Char) : deref (c :: s) = c := rfl

theorem not_is_digit_nul : ¬ is_digit (Char.ofNat 0) := by decide

theorem deref_eq_of_ne_nul {s : List Char} {c : Char} (h : deref s = c)
    (hc : c ≠ Char.ofNat 0) : s = c :: s.tail := by
  cases s with
  | nil => exact absurd h.symm hc
  | cons a s => rw [deref_cons] at h; rw [h]; rfl

theorem match_char_cons (c : Char) (s : List Char) : match_char (some (c :: s)) c = some s := by
  simp [match_char, deref]

theorem match_char_some {p : Option (List Char)} {c : Char} {q : List Char}
    (hc : c ≠ Char.ofNat 0) (h : match_char p c = some q) : p = some (c :: q) := by
  cases p with
  | none => simp [match_char] at h
  | some s =>
    unfold match_char at h
    simp only at h
    split_ifs at h with hd
    have hs := deref_eq_of_ne_nul hd hc
    simp only [Option.some.injEq] at h
    rw [hs, h]

theorem match_unsigned_loop_digits :
    ∀ (n : Nat) (ds q : List Char) (r : Int), Digits n ds →
      match_unsigned_loop n (ds ++ q) r =
        (some q, ds.foldl (fun (r : Int) (c : Char) => 10 * r + c.toNat - ('0').toNat) r) := by
  intro n
  induction n with
  | zero =>
    intro ds q r h
    have : ds = [] := List.length_eq_zero.mp h.1
    subst this
    rfl
  | succ n ih =>
    intro ds q r h
    cases ds with
    | nil => exact absurd h.1 (by simp)
    | cons c ds =>
      have hc : '0' ≤ c ∧ c ≤ '9' := h.2 c (List.mem_cons_self _ _)
      rw [List.cons_append, match_unsigned_loop, deref_cons, if_pos hc]
      simp only [List.tail_cons, List.foldl_cons]
      exact ih ds q _ ⟨by simpa using h.1, fun x hx => h.2 x (List.mem_cons_of_mem _ hx)⟩

/-- On `n` digits `match_unsigned` advances past them and stores their value. -/
theorem match_unsigned_digits {n : Nat} {ds : List Char} (h : Digits n ds) (q : List Char)
    (r : Int) : match_unsigned (some (ds ++ q)) n r = (some q, digits_value ds) :=
  match_unsigned_loop_digits n ds q 0 h

theorem match_unsigned_loop_some :
    ∀ (n : Nat) (s q : List Char) (r : Int), (match_unsigned_loop n s r).1 = some q →
      ∃ ds, s = ds ++ q ∧ Digits n ds ∧
        (match_unsigned_loop n s r).2 =
          ds.foldl (fun (r : Int) (c : Char) => 10 * r + c.toNat - ('0').toNat) r := by
  intro n
  induction n with
  | zero =>
    intro s q r h
    simp only [match_unsigned_loop, Option.some.injEq] at h
    exact ⟨[], by simp [h], ⟨rfl, fun c hc => by simp at hc⟩, rfl⟩
  | succ n ih =>
    intro s q r h
    rw [match_unsigned_loop] at h ⊢
    by_cases hd : '0' ≤ deref s ∧ deref s ≤ '9'
    · rw [if_pos hd] at h ⊢
      have hne : deref s ≠ Char.ofNat 0 := fun e => not_is_digit_nul (e ▸ hd)
      have hs := deref_eq_of_ne_nul rfl hne
      obtain ⟨ds, g1, g2, g3⟩ := ih _ _ _ h
      refine ⟨deref s :: ds, ?_, ⟨by simp [g2.1], ?_⟩, ?_⟩
      · rw [List.cons_append, ← g1]
        exact hs
      · intro c hc
        rcases List.mem_cons.mp hc with e | e
        · rw [e]; exact hd
        · exact g2.2 c e
      · rw [g3]
        rfl
    · rw [if_neg hd] at h
      simp at h

/-- When `match_unsigned` returns a pointer, it has read `n` digits from a
pointer that was not null and stored their value. -/
theorem match_unsigned_some {p : Option (List Char)} {n : Nat} {r : Int} {q : List Char}
    (h : (match_unsigned p n r).1 = some q) :
    ∃ ds, p = some (ds ++ q) ∧ Digits n ds ∧ (match_unsigned p n r).2 = digits_value ds := by
  cases p with
  | none => simp [match_unsigned] at h
  | some s =>
    obtain ⟨ds, g1, g2, g3⟩ := match_unsigned_loop_some n s q 0 h
    exact ⟨ds, by rw [g1], g2, g3⟩

theorem match_one_of_loop_some (q : List Char) (r : Char) :
    ∀ (s : List Char) (q2 : List Char), (∀ c ∈ s, c ≠ Char.ofNat 0) →
      (match_one_of_loop q r s).1 = some q2 →
      ∃ c, q = c :: q2 ∧ c ∈ s ∧ (match_one_of_loop q r s).2 = c := by
  intro s
  induction s with
  | nil => intro q2 _ h; simp [match_one_of_loop] at h
  | cons a s ih =>
    intro q2 hs h
    rw [match_one_of_loop] at h ⊢
    by_cases hd : deref q = a
    · rw [if_pos hd] at h ⊢
      simp only [Option.some.injEq] at h
      have := deref_eq_of_ne_nul hd (hs a (List.mem_cons_self _ _))
      exact ⟨a, by rw [← h]; exact this, List.mem_cons_self _ _, hd⟩
    · rw [if_neg hd] at h ⊢
      obtain ⟨c, g1, g2, g3⟩ := ih q2 (fun c hc => hs c (List.mem_cons_of_mem _ hc)) h
      exact ⟨c, g1, List.mem_cons_of_mem _ g2, g3⟩

/-- When `match_one_of` returns a pointer, it has read one of the characters of
`s` from a pointer that was not null and stored it. -/
theorem match_one_of_some {p : Option (List Char)} {s : List Char} {r : Char}
    {q : List Char} (hs : ∀ c ∈ s, c ≠ Char.ofNat 0) (h : (match_one_of p s r).1 = some q) :
    ∃ c, p = some (c :: q) ∧ c ∈ s ∧ (match_one_of p s r).2 = c := by
  cases p with
  | none => simp [match_one_of] at h
  | some q0 =>
    obtain ⟨c, g1, g2, g3⟩ := match_one_of_loop_some q0 r s q hs h
    exact ⟨c, by rw [g1], g2, g3⟩

/-- At one of the characters of `s`, `match_one_of` advances past it and stores
it. -/
theorem match_one_of_mem {c : Char} {s : List Char} (h : c ∈ s) (q : List Char) (r : Char) :
    match_one_of (some (c :: q)) s r = (some q, c) := by
  unfold match_one_of
  simp only
  induction s with
  | nil => simp at h
  | cons a s ih =>
    rw [match_one_of_loop, deref_cons]
    by_cases e : c = a
    · rw [if_pos e]
      rfl
    · rw [if_neg e]
      rcases List.mem_cons.mp h with h | h
      · exact absurd h e
      · exact ih h

theorem skip_until_cr_spec :
    ∀ s : List Char, ∃ body, NoCr body ∧ s = body ++ skip_until_cr s := by
  intro s
  induction s with
  | nil => exact ⟨[], fun c hc => by simp at hc, rfl⟩
  | cons a s ih =>
    rw [skip_until_cr]
    by_cases h : a ≠ Char.ofNat 0 ∧ a ≠ Char.ofNat 13
    · rw [if_pos h]
      obtain ⟨body, g1, g2⟩ := ih
      refine ⟨a :: body, ?_, by rw [List.cons_append, ← g2]⟩
      intro c hc
      rcases List.mem_cons.mp hc with e | e
      · rw [e]; exact h
      · exact g1 c e
    · rw [if_neg h]
      exact ⟨[], fun c hc => by simp at hc, rfl⟩

theorem skip_until_cr_body :
    ∀ (body x : List Char), NoCr body →
      skip_until_cr (body ++ Char.ofNat 13 :: x) = Char.ofNat 13 :: x := by
  intro body
  induction body with
  | nil =>
    intro x _
    rw [List.nil_append, skip_until_cr, if_neg (by simp)]
  | cons a body ih =>
    intro x h
    rw [List.cons_append, skip_until_cr, if_pos (h a (List.mem_cons_self _ _))]
    exact ih x (fun c hc => h c (List.mem_cons_of_mem _ hc))

/-- After characters other than CR and NUL and then CR LF, `match_until_eol`
returns the pointer past the LF. -/
theorem match_until_eol_line (body rest : List Char) (h : NoCr body) :
    match_until_eol (some (body ++ [Char.ofNat 13, Char.ofNat 10] ++ rest)) = some rest := by
  unfold match_until_eol
  simp only [List.append_assoc, List.cons_append, List.nil_append]
  rw [skip_until_cr_body body _ h]
  simp [deref]

/-- When `match_until_eol` returns a pointer, the text read is characters other
than CR and NUL, then CR LF. -/
theorem match_until_eol_some {p : Option (List Char)} {q : List Char}
    (h : match_until_eol p = some q) :
    ∃ body, NoCr body ∧ p = some (body ++ [Char.ofNat 13, Char.ofNat 10] ++ q) := by
  cases p with
  | none => simp [match_until_eol] at h
  | some s =>
    obtain ⟨body, g1, g2⟩ := skip_until_cr_spec s
    unfold match_until_eol at h
    simp only at h
    by_cases h1 : deref (skip_until_cr s) ≠ Char.ofNat 13
    · rw [if_pos h1] at h
      simp at h
    · rw [if_neg h1] at h
      by_cases h2 : deref (skip_until_cr s).tail = Char.ofNat 10
      · rw [if_pos h2] at h
        simp only [Option.some.injEq] at h
        have e1 := deref_eq_of_ne_nul (not_not.mp h1) (by decide)
        have e2 := deref_eq_of_ne_nul h2 (by decide)
        rw [h] at e2
        have e3 : skip_until_cr s = Char.ofNat 13 :: Char.ofNat 10 :: q := by
          rw [e1, e2]
        refine ⟨body, g1, congrArg some (g2.trans ?_)⟩
        rw [e3]
        simp
      · rw [if_neg h2] at h
        simp at h

/-- On a line made of `B`, well-formed fields, characters other than CR and NUL
and CR LF, `match_b_record` stores the time of day, calls `mktime` and, unless
that fails, returns the pointer past the line and the fix of the fields. -/
theorem match_b_record_line (mktime : tm_t → tm_t × Int) (line : List Char) (tm : tm_t)
    (trkpt : trkpt_t) (f : b_record_fields) (body rest : List Char)
    (hl : BRecordLine line f body rest) (hb : NoCr body) :
    match_b_record mktime (some line) tm trkpt =
      if (mktime { tm with tm_hour := digits_value f.hh, tm_min := digits_value f.mm,
                           tm_sec := digits_value f.ss }).2 = -1 then none
      else
        some (some rest,
          (mktime { tm with tm_hour := digits_value f.hh, tm_min := digits_value f.mm,
                            tm_sec := digits_value f.ss }).1,
          { time := (mktime { tm with tm_hour := digits_value f.hh,
                                      tm_min := digits_value f.mm,
                                      tm_sec := digits_value f.ss }).2
            lat := f.lat, lon := f.lon, val := f.val
            alt := digits_value f.alt, ele := digits_value f.ele }) := by
  obtain ⟨⟨w1, w2, w3, w4, w5, w6, w7, w8, w9, w10, w11, w12⟩, rfl⟩ := hl
  have m6 : f.lat_hemi ∈ ['N', 'S'] := by
    rcases w6 with h | h <;> simp [h]
  have m9 : f.lon_hemi ∈ ['E', 'W'] := by
    rcases w9 with h | h <;> simp [h]
  have m10 : f.val ∈ ['A', 'V'] := by
    rcases w10 with h | h <;> simp [h]
  unfold match_b_record b_record_fields.chars b_record_fields.lat b_record_fields.lon
  simp only [List.append_assoc, List.singleton_append, List.cons_append, List.nil_append,
    match_char_cons,
    match_unsigned_digits w1, match_unsigned_digits w2, match_unsigned_digits w3,
    match_unsigned_digits w4, match_unsigned_digits w5, match_one_of_mem m6,
    match_unsigned_digits w7, match_unsigned_digits w8, match_one_of_mem m9,
    match_one_of_mem m10, match_unsigned_digits w11, match_unsigned_digits w12,
    reduceCtorEq, if_false]
  have he := match_until_eol_line body rest hb
  simp only [List.append_assoc, List.cons_append, List.nil_append] at he
  rw [he]
  simp only [reduceCtorEq, if_false, mul_neg, mul_one]

/-- Unless `match_b_record` returns null with `*tm` and `*trkpt` as they were,
the line is `B`, well-formed fields, characters other than CR and NUL, and
CR LF. -/
theorem match_b_record_inv (mktime : tm_t → tm_t × Int) (line : List Char) (tm : tm_t)
    (trkpt : trkpt_t)
    (h : match_b_record mktime (some line) tm trkpt ≠ some (none, tm, trkpt)) :
    ∃ f body rest, BRecordLine line f body rest ∧ NoCr body := by
  have key : ∀ p : Option (List Char), p ≠ none → ∃ q, p = some q := fun p hp =>
    Option.ne_none_iff_exists'.mp hp
  have nn2 : ∀ (a b : Char), a ≠ Char.ofNat 0 → b ≠ Char.ofNat 0 →
      ∀ c ∈ [a, b], c ≠ Char.ofNat 0 := by
    intro a b ha hb c hc
    rcases List.mem_cons.mp hc with e | e
    · rw [e]; exact ha
    · rw [List.mem_singleton.mp e]; exact hb
  unfold match_b_record at h
  simp only at h
  split_ifs at h with g1 g2 g3 g4
  all_goals first
    | exact absurd rfl h
    | skip
  all_goals
    obtain ⟨rest, e13⟩ := key _ g3
    obtain ⟨body, hbody, e12⟩ := match_until_eol_some e13
    obtain ⟨ele, e11, d12, -⟩ := match_unsigned_some e12
    obtain ⟨alt, e10, d11, -⟩ := match_unsigned_some e11
    obtain ⟨val, e9, m10, -⟩ := match_one_of_some (nn2 'A' 'V' (by decide) (by decide)) e10
    obtain ⟨lon_hemi, e8, m9, -⟩ := match_one_of_some (nn2 'E' 'W' (by decide) (by decide)) e9
    obtain ⟨lon_mmin, e7, d8, -⟩ := match_unsigned_some e8
    obtain ⟨lon_deg, e6, d7, -⟩ := match_unsigned_some e7
    obtain ⟨lat_hemi, e5, m6, -⟩ := match_one_of_some (nn2 'N' 'S' (by decide) (by decide)) e6
    obtain ⟨lat_mmin, e4, d5, -⟩ := match_unsigned_some e5
    obtain ⟨lat_deg, e3, d4, -⟩ := match_unsigned_some e4
    obtain ⟨ss, e2, d3, -⟩ := match_unsigned_some e3
    obtain ⟨mm, e1, d2, -⟩ := match_unsigned_some e2
    obtain ⟨hh, e0, d1, -⟩ := match_unsigned_some e1
    have eB := match_char_some (by decide) e0
    simp only [Option.some.injEq] at eB
    refine ⟨⟨hh, mm, ss, lat_deg, lat_mmin, lat_hemi, lon_deg, lon_mmin, lon_hemi, val, alt,
      ele⟩, body, rest, ⟨⟨d1, d2, d3, d4, d5, ?_, d7, d8, ?_, ?_, d11, d12⟩, ?_⟩, hbody⟩
    · simpa using m6
    · simpa using m9
    · simpa using m10
    · rw [eB]
      simp [b_record_fields.chars]

/-- C24, counterexample: the line `B1234565212345N00612345EA0012300456`, then
the characters `x`, CR, `y`, then CR LF.  It consists of `B`, the digits and
letters of a B record and characters up to a terminating CR LF, yet
`match_b_record` returns null, whatever `mktime` does: `match_until_eol` stops
at the first CR and requires LF right after it. -/
theorem C24_stray_cr_rejected :
    BRecordLine stray_cr_line sample_fields ['x', Char.ofNat 13, 'y'] [] ∧
    ∀ (mktime : tm_t → tm_t × Int) (tm : tm_t) (trkpt : trkpt_t),
      match_b_record mktime (some stray_cr_line) tm trkpt = some (none, tm, trkpt) := by
  refine ⟨⟨?_, by decide⟩, fun mktime tm trkpt => ?_⟩
  · unfold b_record_fields.WellFormed Digits
    decide
  · unfold match_b_record
    simp only
    rw [if_neg (by decide), if_neg (by decide), if_pos (by decide)]

/-- C24, amended: `match_b_record` accepts a line exactly when it consists of
`B`, six digits, a latitude of 2 + 5 digits and `N` or `S`, a longitude of 3 + 5
digits and `E` or `W`, a validity letter `A` or `V`, two altitudes of 5 digits,
then characters other than CR (and NUL, the end of the text) up to CR LF, and
`mktime` does not fail.  On acceptance it returns the pointer past the LF,
`trkpt.lat` is `60000·DD + MMmmm` negated exactly in the hemisphere `S`,
`trkpt.lon` is `60000·DDD + MMmmm` negated exactly in the hemisphere `W`, and
`val`, `alt`, `ele` are the parsed fields.  On rejection it returns null and
leaves `*tm` and `*trkpt` as they were.  It exits through `DIE` only on such a
line, when `mktime` returns `-1`. -/
theorem C24_match_b_record (mktime : tm_t → tm_t × Int) (line : List Char) (tm : tm_t)
    (trkpt : trkpt_t) :
    (∀ f body rest, BRecordLine line f body rest → NoCr body →
      (mktime { tm with tm_hour := digits_value f.hh, tm_min := digits_value f.mm,
                        tm_sec := digits_value f.ss }).2 ≠ -1 →
      match_b_record mktime (some line) tm trkpt =
        some (some rest,
          (mktime { tm with tm_hour := digits_value f.hh, tm_min := digits_value f.mm,
                            tm_sec := digits_value f.ss }).1,
          { time := (mktime { tm with tm_hour := digits_value f.hh,
                                      tm_min := digits_value f.mm,
                                      tm_sec := digits_value f.ss }).2
            lat := f.lat, lon := f.lon, val := f.val
            alt := digits_value f.alt, ele := digits_value f.ele })) ∧
    (∀ q tm2 trkpt2, match_b_record mktime (some line) tm trkpt = some (some q, tm2, trkpt2) →
      ∃ f body, BRecordLine line f body q ∧ NoCr body ∧
        trkpt2.lat = f.lat ∧ trkpt2.lon = f.lon ∧ trkpt2.val = f.val ∧
        trkpt2.alt = digits_value f.alt ∧ trkpt2.ele = digits_value f.ele) ∧
    (∀ tm2 trkpt2, match_b_record mktime (some line) tm trkpt = some (none, tm2, trkpt2) →
      tm2 = tm ∧ trkpt2 = trkpt ∧ ¬ ∃ f body rest, BRecordLine line f body rest ∧ NoCr body) ∧
    (match_b_record mktime (some line) tm trkpt = none →
      ∃ f body rest, BRecordLine line f body rest ∧ NoCr body ∧
        (mktime { tm with tm_hour := digits_value f.hh, tm_min := digits_value f.mm,
                          tm_sec := digits_value f.ss }).2 = -1) := by
  refine ⟨?_, ?_, ?_, ?_⟩
  · intro f body rest hl hb hm
    rw [match_b_record_line mktime line tm trkpt f body rest hl hb, if_neg hm]
  · intro q tm2 trkpt2 h
    obtain ⟨f, body, rest, hl, hb⟩ := match_b_record_inv mktime line tm trkpt (by
      rw [h]
      simp)
    rw [match_b_record_line mktime line tm trkpt f body rest hl hb] at h
    split_ifs at h with hm
    simp only [Option.some.injEq, Prod.mk.injEq] at h
    obtain ⟨h1, _, h3⟩ := h
    rw [← h1, ← h3]
    exact ⟨f, body, hl, hb, rfl, rfl, rfl, rfl, rfl⟩
  · intro tm2 trkpt2 h
    by_cases hf : ∃ f body rest, BRecordLine line f body rest ∧ NoCr body
    · obtain ⟨f, body, rest, hl, hb⟩ := hf
      rw [match_b_record_line mktime line tm trkpt f body rest hl hb] at h
      split_ifs at h with hm
      simp at h
    · have := not_not.mp (fun hne => hf (match_b_record_inv mktime line tm trkpt hne))
      rw [this] at h
      simp only [Option.some.injEq, Prod.mk.injEq, true_and] at h
      exact ⟨h.1.symm, h.2.symm, hf⟩
  · intro h
    obtain ⟨f, body, rest, hl, hb⟩ := match_b_record_inv mktime line tm trkpt (by
      rw [h]
      simp)
    refine ⟨f, body, rest, hl, hb, ?_⟩
    rw [match_b_record_line mktime line tm trkpt f body rest hl hb] at h
    by_contra hm
    rw [if_neg hm] at h
    simp at h

/-- C24, witness: the line `B1234565212345N00612345EA0012300456xy` and CR LF
is accepted, with latitude `60000·52 + 12345` and longitude `60000·6 + 12345`. -/
theorem C24_match_b_record_witness :
    BRecordLine plain_b_line sample_fields ['x', 'y'] [] ∧ NoCr ['x', 'y'] ∧
    match_b_record seconds_of_day (some plain_b_line) zero_tm zero_trkpt =
      some (some [], { zero_tm with tm_hour := 12, tm_min := 34, tm_sec := 56 },
        { time := 45296, lat := 3132345, lon := 372345, val := 'A', alt := 123, ele := 456 }) :=
  have hl : BRecordLine plain_b_line sample_fields ['x', 'y'] [] :=
    ⟨by unfold b_record_fields.WellFormed Digits; decide, by decide⟩
  have hb : NoCr ['x', 'y'] := by unfold NoCr; decide
  ⟨hl, hb,
    ((C24_match_b_record seconds_of_day plain_b_line zero_tm zero_trkpt).1 sample_fields
      ['x', 'y'] [] hl hb (by decide)).trans (by decide)⟩

/-! ## `track_open_distance1`: the indexes it copies from the tables -/

/-- C25, counterexample: three fixes along a line by equal steps (abscissae 0,
1/1000, 2/1000) and the initial bound 0.  `track_initialize` leaves
`after[1] = (-1, 0)`: the search for it is seeded with
`after[0].distance - max_delta = 1/1000`, which `δ(1,2)` equals and does not
exceed.  `track_open_distance1` then finds the total `1/1000 + 0 > 0` at
`tp1 = 1` and writes the indexes `0, 1, -1`: the third is no fix. -/
theorem C25_open_distance1_writes_minus_one :
    three_step_track.ntrkpts = 3 ∧
    three_step_track.before 1 = ⟨0, 1 / 1000⟩ ∧
    three_step_track.after 1 = ⟨-1, 0⟩ ∧
    track_open_distance1 three_step_track 0 = (1 / 1000, [0, 1, -1]) ∧
    ¬ ((track_open_distance1 three_step_track 0).2 = [-1, -1, -1] ∨
      ∃ i0 i1 i2, (track_open_distance1 three_step_track 0).2 = [i0, i1, i2] ∧
        0 ≤ i0 ∧ i0 ≤ i1 ∧ i1 ≤ i2 ∧ i2 < three_step_track.ntrkpts) := by
  have h : track_open_distance1 three_step_track 0 = (1 / 1000, [0, 1, -1]) := by decide!
  refine ⟨rfl, by decide!, by decide!, h, ?_⟩
  rw [h]
  rintro (h1 | ⟨i0, i1, i2, h1, h2, h3, h4, _⟩)
  · exact absurd h1 (by decide)
  · simp only [List.cons.injEq, and_true] at h1
    omega

theorem track_initialize_before_loop_entries (t : track_t) :
    ∀ (fuel : Nat) (i : Int) (before : Int → limit_t), 1 ≤ i →
      (t.ntrkpts - i).toNat ≤ fuel →
      (∀ k, 1 ≤ k → k < i → BeforeEntry t k (before k)) →
      (∀ k, i ≤ k → before k = ⟨0, 0⟩) →
      ∀ k, 1 ≤ k → k < t.ntrkpts →
        BeforeEntry t k (track_initialize_before_loop t fuel i before k) := by
  intro fuel
  induction fuel with
  | zero =>
    intro i before _ hf h1 _ k g1 g2
    exact h1 k g1 (by omega)
  | succ fuel ih =>
    intro i before hi hf h1 h2
    unfold track_initialize_before_loop
    by_cases hlt : i < t.ntrkpts
    · rw [if_pos hlt]
      have e0 : (before i).distance = 0 := by rw [h2 i (le_refl _)]
      rw [e0]
      apply ih (i + 1) _ (by omega) (by omega)
      · intro k g1 g2
        unfold store
        by_cases hk : k = i
        · rw [if_pos hk, hk]
          rcases track_furthest_from_sound t i 0 i
            ((before (i - 1)).distance - t.max_delta) (0 : ℚ) with g | ⟨r, r1, r2, r3, _⟩
          · rw [g]
            exact Or.inl ⟨rfl, rfl⟩
          · rw [r3]
            exact Or.inr ⟨r1, r2, rfl⟩
        · rw [if_neg hk]
          exact h1 k g1 (by omega)
      · intro k g
        unfold store
        rw [if_neg (by omega)]
        exact h2 k (by omega)
    · rw [if_neg hlt]
      intro k g1 g2
      exact h1 k g1 (by omega)

theorem track_initialize_after_loop_entries (t : track_t) :
    ∀ (fuel : Nat) (i : Int) (after : Int → limit_t), 1 ≤ i →
      (t.ntrkpts - 1 - i).toNat ≤ fuel →
      (∀ k, 1 ≤ k → k < i → AfterEntry t k (after k)) →
      (∀ k, i ≤ k → after k = ⟨0, 0⟩) →
      ∀ k, 1 ≤ k → k < t.ntrkpts - 1 →
        AfterEntry t k (track_initialize_after_loop t fuel i after k) := by
  intro fuel
  induction fuel with
  | zero =>
    intro i after _ hf h1 _ k g1 g2
    exact h1 k g1 (by omega)
  | succ fuel ih =>
    intro i after hi hf h1 h2
    unfold track_initialize_after_loop
    by_cases hlt : i < t.ntrkpts - 1
    · rw [if_pos hlt]
      have e0 : (after i).distance = 0 := by rw [h2 i (le_refl _)]
      rw [e0]
      apply ih (i + 1) _ (by omega) (by omega)
      · intro k g1 g2
        unfold store
        by_cases hk : k = i
        · rw [if_pos hk, hk]
          rcases track_furthest_from_sound t i (i + 1) t.ntrkpts
            ((after (i - 1)).distance - t.max_delta) (0 : ℚ) with g | ⟨r, r1, r2, r3, _⟩
          · rw [g]
            exact Or.inl ⟨rfl, rfl⟩
          · rw [r3]
            exact Or.inr ⟨(by omega : i < r), r2, rfl⟩
        · rw [if_neg hk]
          exact h1 k g1 (by omega)
      · intro k g
        unfold store
        rw [if_neg (by omega)]
        exact h2 k (by omega)
    · rw [if_neg hlt]
      intro k g1 g2
      exact h1 k g1 (by omega)

/-- After `track_initialize`, for every fix `k` in `[1, ntrkpts - 2]` the entry
`before[k]` is unwritten or an earlier fix with its distance, and `after[k]` is
unwritten or a later fix with its distance. -/
theorem track_initialize_entries (t : track_t) (k : Int) (h1 : 1 ≤ k)
    (h2 : k < t.ntrkpts - 1) :
    BeforeEntry ( track_initialize t) k (( track_initialize t).before k) ∧
    AfterEntry ( track_initialize t) k (( track_initialize t).after k) := by
  obtain ⟨t1, ht1⟩ : ∃ t1 : track_t, t1 =
      { t with
        max_delta := (track_initialize_sigma_loop t (t.ntrkpts - 1).toNat 1
          (store (alloc 0) 0 0) 0).2
        sigma_delta := (track_initialize_sigma_loop t (t.ntrkpts - 1).toNat 1
          (store (alloc 0) 0 0) 0).1 } := ⟨_, rfl⟩
  have hn : t1.ntrkpts = t.ntrkpts := by rw [ht1]
  have hd : t1.delta = t.delta := by rw [ht1]
  have eb : ( track_initialize t).before k =
      track_initialize_before_loop t1 (t.ntrkpts - 1).toNat 1
        (store (alloc ⟨0, 0⟩) 0 ⟨0, 0⟩) k := by
    rw [ht1]
    rfl
  have ea : ( track_initialize t).after k =
      track_initialize_after_loop t1 (t.ntrkpts - 2).toNat 1
        (store (alloc ⟨0, 0⟩) 0
          ⟨(track_furthest_from t1 0 1 t.ntrkpts 0 ((alloc (⟨0, 0⟩ : limit_t)) 0).distance).1,
            (track_furthest_from t1 0 1 t.ntrkpts 0
              ((alloc (⟨0, 0⟩ : limit_t)) 0).distance).2⟩) k := by
    rw [ht1]
    unfold track_initialize
    simp only
    rw [store, if_neg (by omega)]
  constructor
  · have h := track_initialize_before_loop_entries t1
      (t.ntrkpts - 1).toNat 1 (store (alloc ⟨0, 0⟩) 0 ⟨0, 0⟩) (le_refl _) (by omega)
      (fun k g1 g2 => by omega)
      (fun k _ => by unfold store alloc; split_ifs <;> rfl) k h1 (by omega)
    rw [eb]
    unfold BeforeEntry at h ⊢
    rw [hd] at h
    exact h
  · have h := track_initialize_after_loop_entries t1
      (t.ntrkpts - 2).toNat 1
      (store (alloc ⟨0, 0⟩) 0
        ⟨(track_furthest_from t1 0 1 t.ntrkpts 0 ((alloc (⟨0, 0⟩ : limit_t)) 0).distance).1,
          (track_furthest_from t1 0 1 t.ntrkpts 0
            ((alloc (⟨0, 0⟩ : limit_t)) 0).distance).2⟩)
      (le_refl _) (by omega)
      (fun k g1 g2 => by omega)
      (fun k g => by unfold store alloc; rw [if_neg (by omega)]) k h1 (by omega)
    rw [ea]
    unfold AfterEntry at h ⊢
    rw [hd, hn] at h
    exact h

/-- C25, amended: on a track as `track_initialize` builds it, for every initial
bound that is not negative and at least every distance between two fixes (the
league functions pass the bound returned by `track_open_distance`), the three
indexes written by `track_open_distance1` are all `-1` or satisfy
`0 ≤ indexes[0] < indexes[1] < indexes[2] < n`. -/
theorem C25_open_distance1_in_order (t : track_t) (b : ℚ) (hb0 : 0 ≤ b)
    (hb : ∀ i j, 0 ≤ i → i < t.ntrkpts → 0 ≤ j → j < t.ntrkpts → t.delta i j ≤ b) :
    (track_open_distance1 ( track_initialize t) b).2 = [-1, -1, -1] ∨
    ∃ i0 i1 i2, (track_open_distance1 ( track_initialize t) b).2 = [i0, i1, i2] ∧
      0 ≤ i0 ∧ i0 < i1 ∧ i1 < i2 ∧ i2 < t.ntrkpts := by
  unfold track_open_distance1
  rw [track_open_distance1_loop_eq]
  rcases scan_max_sound ( track_initialize t)
    (fun tp1 => (( track_initialize t).before tp1).distance +
      (( track_initialize t).after tp1).distance)
    (fun b d => 0.5 * (b - d))
    (fun tp1 _ => [(( track_initialize t).before tp1).index, tp1,
      (( track_initialize t).after tp1).index])
    1 (( track_initialize t).ntrkpts - 1) b [-1, -1, -1]
    (( track_initialize t).ntrkpts - 2).toNat 1 b [-1, -1, -1] (le_refl _)
    (Or.inl ⟨rfl, rfl⟩) with ⟨_, h⟩ | ⟨r, r1, r2, r3, _, r5⟩
  · exact Or.inl h
  · right
    obtain ⟨hbe, haf⟩ := track_initialize_entries t r r1 r2
    have hn : ( track_initialize t).ntrkpts = t.ntrkpts := rfl
    have hd : ( track_initialize t).delta = t.delta := rfl
    rw [hn] at r2
    simp only at r5
    rcases hbe with ⟨b1, b2⟩ | ⟨b1, b2, b3⟩
    · exfalso
      rcases haf with ⟨a1, a2⟩ | ⟨a1, a2, a3⟩
      · rw [a2, b2] at r5
        linarith
      · rw [a3, b2, hd] at r5
        have := hb r _ (by omega) (by omega) (by omega) a2
        linarith
    · rcases haf with ⟨a1, a2⟩ | ⟨a1, a2, a3⟩
      · exfalso
        rw [a2, b3, hd] at r5
        have := hb r _ (by omega) (by omega) b1 (by omega)
        linarith
      · exact ⟨_, r, _, r3, b1, b2, a1, a2⟩

/-- C25, witness: the five-fix zigzag track, whose fixes are at most 5 apart,
with the initial bound 5: the indexes written are 0, 3, 4. -/
theorem C25_open_distance1_in_order_witness :
    (0 : ℚ) ≤ 5 ∧
    track_open_distance1 zigzag_track 5 = (8, [0, 3, 4]) ∧
    ((track_open_distance1 zigzag_track 5).2 = [-1, -1, -1] ∨
      ∃ i0 i1 i2, (track_open_distance1 zigzag_track 5).2 = [i0, i1, i2] ∧
        0 ≤ i0 ∧ i0 < i1 ∧ i1 < i2 ∧
        i2 < (plane_track [(0, 0), (3, 0), (1, 0), (4, 1), (2, 2)]).ntrkpts) :=
  ⟨by norm_num, by decide!,
    C25_open_distance1_in_order (plane_track [(0, 0), (3, 0), (1, 0), (4, 1), (2, 2)]) 5
      (by norm_num) (fun i j hi hi2 hj hj2 => by
        have hn : (plane_track [(0, 0), (3, 0), (1, 0), (4, 1), (2, 2)]).ntrkpts = 5 := rfl
        rw [hn] at hi2 hj2
        have hi3 : i = 0 ∨ i = 1 ∨ i = 2 ∨ i = 3 ∨ i = 4 := by omega
        have hj3 : j = 0 ∨ j = 1 ∨ j = 2 ∨ j = 3 ∨ j = 4 := by omega
        rcases hi3 with rfl | rfl | rfl | rfl | rfl <;>
          rcases hj3 with rfl | rfl | rfl | rfl | rfl <;> decide!)⟩

/-- The same holes of the tables reach a route: on the track 0, 0, 20, 0, 0
(thousandths) `track_initialize` leaves `after[3] = (-1, 0)`, and
`track_optimize_ukxcl` with the earth radius 6371 km reports a "turnpoint
flight" whose waypoint "Finish" is `trkpts[-1]`. -/
theorem ukxcl_reports_missing_fix :
    spike_track.after 3 = ⟨-1, 0⟩ ∧
    (track_optimize_ukxcl spike_track 6371 (-1)).map (fun r => (r.name, r.wpts)) =
      [("open distance", [(0, "Start"), (2, "Finish")]),
        ("turnpoint flight",
          [(0, "Start"), (1, "TP1"), (2, "TP2"), (3, "TP3"), (-1, "Finish")])] := by
  decide!

/-! ## The circuit searches write ordered, closed indexes -/

theorem track_first_at_least_loop_range (t : track_t) (i end_ : Int) (bound : ℚ) :
    ∀ (fuel : Nat) (j : Int),
      track_first_at_least_loop t i end_ bound fuel j = -1 ∨
      (j ≤ track_first_at_least_loop t i end_ bound fuel j ∧
        track_first_at_least_loop t i end_ bound fuel j < end_) := by
  intro fuel
  induction fuel with
  | zero => intro j; exact Or.inl rfl
  | succ fuel ih =>
    intro j
    unfold track_first_at_least_loop
    simp only
    split_ifs with c1 c2
    · exact Or.inr ⟨le_refl _, c1⟩
    · have hgt := track_fast_forward_gt t j (bound - track_delta t i j)
      rcases ih (track_fast_forward t j (bound - track_delta t i j)) with h | h
      · exact Or.inl h
      · exact Or.inr ⟨by omega, h.2⟩
    · exact Or.inl rfl

/-- On any track `track_first_at_least` returns `-1` or an index of its range. -/
theorem track_first_at_least_range (t : track_t) (i begin_ end_ : Int) (bound : ℚ) :
    track_first_at_least t i begin_ end_ bound = -1 ∨
    (begin_ ≤ track_first_at_least t i begin_ end_ bound ∧
      track_first_at_least t i begin_ end_ bound < end_) :=
  track_first_at_least_loop_range t i end_ bound _ begin_

theorem track_last_at_least_loop_range (t : track_t) (i begin_ : Int) (bound : ℚ) :
    ∀ (fuel : Nat) (j : Int),
      track_last_at_least_loop t i begin_ bound fuel j = -1 ∨
      (begin_ ≤ track_last_at_least_loop t i begin_ bound fuel j ∧
        track_last_at_least_loop t i begin_ bound fuel j ≤ j) := by
  intro fuel
  induction fuel with
  | zero => intro j; exact Or.inl rfl
  | succ fuel ih =>
    intro j
    unfold track_last_at_least_loop
    simp only
    split_ifs with c1 c2
    · exact Or.inr ⟨c1, le_refl _⟩
    · have hlt := track_fast_backward_lt t j (bound - track_delta t i j)
      rcases ih (track_fast_backward t j (bound - track_delta t i j)) with h | h
      · exact Or.inl h
      · exact Or.inr ⟨h.1, by omega⟩
    · exact Or.inl rfl

/-- On any track `track_last_at_least` returns `-1` or an index of its range. -/
theorem track_last_at_least_range (t : track_t) (i begin_ end_ : Int) (bound : ℚ) :
    track_last_at_least t i begin_ end_ bound = -1 ∨
    (begin_ ≤ track_last_at_least t i begin_ end_ bound ∧
      track_last_at_least t i begin_ end_ bound < end_) := by
  rcases track_last_at_least_loop_range t i begin_ bound (end_ - begin_).toNat (end_ - 1) with
    h | h
  · exact Or.inl h
  · exact Or.inr ⟨h.1, by unfold track_last_at_least; omega⟩

theorem track_frcfd_aller_retour_loop_shape (t : track_t) :
    ∀ (fuel : Nat) (tp1 : Int) (bound : ℚ) (indexes : List Int), 0 ≤ tp1 →
      OutAndReturnShape t indexes →
      OutAndReturnShape t (track_frcfd_aller_retour_loop t fuel tp1 bound indexes).2 := by
  intro fuel
  induction fuel with
  | zero => intro tp1 bound indexes _ h; exact h
  | succ fuel ih =>
    intro tp1 bound indexes h0 h
    unfold track_frcfd_aller_retour_loop
    by_cases hlt : tp1 < t.ntrkpts - 2
    · rw [if_pos hlt]
      simp only
      split_ifs with c1 c2
      · exact ih _ _ _ (by omega) h
      · apply ih _ _ _ (by omega)
        rcases track_furthest_from_sound t tp1 (tp1 + 1)
          (t.last_finish (t.best_start tp1) + 1) bound 0.0 with g | ⟨r, g1, g2, g3, _⟩
        · rw [g] at c2
          simp only at c2
          omega
        · rw [g3]
          exact Or.inr ⟨tp1, r, h0, by omega, by omega, by omega, rfl⟩
      · exact ih _ _ _ (by omega) h
    · rw [if_neg hlt]
      exact h

theorem track_frcfd_triangle_plat_tp3_shape (t : track_t) (tp1 : Int) (h0 : 0 ≤ tp1)
    (h1 : tp1 < t.ntrkpts - 1) :
    ∀ (fuel : Nat) (tp3 : Int) (bound : ℚ) (indexes : List Int),
      tp3 ≤ t.last_finish (t.best_start tp1) → TriangleShape t indexes →
      TriangleShape t (track_frcfd_triangle_plat_tp3 t (t.best_start tp1) tp1
        (t.last_finish (t.best_start tp1)) fuel tp3 bound indexes).2 := by
  intro fuel
  induction fuel with
  | zero => intro tp3 bound indexes _ h; exact h
  | succ fuel ih =>
    intro tp3 bound indexes h3 h
    unfold track_frcfd_triangle_plat_tp3
    by_cases hgt : tp3 > tp1 + 1
    · rw [if_pos hgt]
      simp only
      split_ifs with c
      · apply ih _ _ _ (by omega)
        rcases track_furthest_from2_sound t tp1 tp3 (tp1 + 1) tp3
          (bound - track_delta t tp3 tp1) 0.0 with g | ⟨r, g1, g2, g3, _⟩
        · rw [g] at c
          simp only at c
          omega
        · rw [g3]
          exact Or.inr ⟨tp1, r, tp3, h0, h1, by omega, g2, h3, rfl⟩
      · exact ih _ _ _ (by omega) h
    · rw [if_neg hgt]
      exact h

theorem track_frcfd_triangle_plat_tp1_shape (t : track_t) :
    ∀ (fuel : Nat) (tp1 : Int) (bound : ℚ) (indexes : List Int), 0 ≤ tp1 →
      TriangleShape t indexes →
      TriangleShape t (track_frcfd_triangle_plat_tp1 t fuel tp1 bound indexes).2 := by
  intro fuel
  induction fuel with
  | zero => intro tp1 bound indexes _ h; exact h
  | succ fuel ih =>
    intro tp1 bound indexes h0 h
    unfold track_frcfd_triangle_plat_tp1
    by_cases hlt : tp1 < t.ntrkpts - 1
    · rw [if_pos hlt]
      simp only
      split_ifs
      · exact h
      · exact ih _ _ _ (by omega) h
      · exact ih _ _ _ (by omega)
          (track_frcfd_triangle_plat_tp3_shape t tp1 h0 hlt _ _ _ _ (le_refl _) h)
    · rw [if_neg hlt]
      exact h

theorem track_frcfd_triangle_fai_tp2_shape (t : track_t) (tp1 tp3 : Int) (h0 : 0 ≤ tp1)
    (h1 : tp1 < t.ntrkpts - 1) (h3 : tp3 ≤ t.last_finish (t.best_start tp1))
    (leg3 shortestlegbound longestlegbound : ℚ) (tp2last : Int) (hl : tp2last < tp3) :
    ∀ (fuel : Nat) (tp2 : Int) (st : fai_state), tp1 < tp2 → TriangleShape t st.indexes →
      TriangleShape t (track_frcfd_triangle_fai_tp2 t (t.best_start tp1) tp1 tp3
        (t.last_finish (t.best_start tp1)) leg3 shortestlegbound longestlegbound tp2last
        fuel tp2 st).indexes := by
  intro fuel
  induction fuel with
  | zero => intro tp2 st _ h; exact h
  | succ fuel ih =>
    intro tp2 st h2 h
    rw [track_frcfd_triangle_fai_tp2_step]
    split_ifs with c1 c2 c3 c4
    · have := track_fast_forward_gt t tp2 (fai_shape_deficit (t.delta tp1 tp2)
        (t.delta tp2 tp3) shortestlegbound longestlegbound)
      exact ih _ _ (by omega) h
    · have := track_fast_forward_gt t tp2 (0.5 * fai_leg_deficit (fai_shape_deficit
        (t.delta tp1 tp2) (t.delta tp2 tp3) shortestlegbound longestlegbound) (t.delta tp1 tp2)
        (t.delta tp2 tp3) leg3 (0.28 * (t.delta tp1 tp2 + t.delta tp2 tp3 + leg3)))
      exact ih _ _ (by omega) h
    · have := track_fast_forward_gt t tp2
        (0.5 * (st.bound - (t.delta tp1 tp2 + t.delta tp2 tp3 + leg3)))
      exact ih _ _ (by omega) h
    · exact ih _ _ (by omega) (Or.inr ⟨tp1, tp2, tp3, h0, h1, h2, by omega, h3, rfl⟩)
    · exact h

theorem track_frcfd_triangle_fai_tp3_shape (t : track_t) (tp1 : Int) (h0 : 0 ≤ tp1)
    (h1 : tp1 < t.ntrkpts - 1) (tp3first : Int) :
    ∀ (fuel : Nat) (tp3 : Int) (st : fai_state),
      tp3 ≤ t.last_finish (t.best_start tp1) → TriangleShape t st.indexes →
      TriangleShape t (track_frcfd_triangle_fai_tp3 t (t.best_start tp1) tp1
        (t.last_finish (t.best_start tp1)) tp3first fuel tp3 st).indexes := by
  intro fuel
  induction fuel with
  | zero => intro tp3 st _ h; exact h
  | succ fuel ih =>
    intro tp3 st h3 h
    unfold track_frcfd_triangle_fai_tp3
    simp only
    split_ifs with c1 c2 c3 c4
    · have := track_fast_backward_lt t tp3 (st.legbound - track_delta t tp3 tp1)
      exact ih _ _ (by omega) h
    · exact ih _ _ (by omega) h
    · exact ih _ _ (by omega) h
    · apply ih _ _ (by omega)
      have hf := track_first_at_least_range t tp1 (tp1 + 1) (tp3 - 1)
        (0.28 * track_delta t tp3 tp1 / 0.44)
      have hla := track_last_at_least_range t tp3
        (track_first_at_least t tp1 (tp1 + 1) (tp3 - 1) (0.28 * track_delta t tp3 tp1 / 0.44))
        tp3 (0.28 * track_delta t tp3 tp1 / 0.44)
      exact track_frcfd_triangle_fai_tp2_shape t tp1 tp3 h0 h1 h3 _ _ _ _ (by omega) _ _ _
        (by omega) h
    · exact h

theorem track_frcfd_triangle_fai_tp1_shape (t : track_t) :
    ∀ (fuel : Nat) (tp1 : Int) (st : fai_state), 0 ≤ tp1 → TriangleShape t st.indexes →
      TriangleShape t (track_frcfd_triangle_fai_tp1 t fuel tp1 st).indexes := by
  intro fuel
  induction fuel with
  | zero => intro tp1 st _ h; exact h
  | succ fuel ih =>
    intro tp1 st h0 h
    unfold track_frcfd_triangle_fai_tp1
    by_cases hlt : tp1 < t.ntrkpts - 2
    · rw [if_pos hlt]
      simp only
      split_ifs with c1 c2 c3
      · exact ih _ _ (by omega) h
      · exact ih _ _ (by omega) h
      · exact ih _ _ (by omega) h
      · apply ih _ _ (by omega)
        have hla := track_last_at_least_range t tp1
          (track_first_at_least t tp1 (tp1 + 2) (t.last_finish (t.best_start tp1) + 1)
            st.legbound)
          (t.last_finish (t.best_start tp1) + 1) st.legbound
        exact track_frcfd_triangle_fai_tp3_shape t tp1 h0 (by omega) _ _ _ _ (by omega) h
    · rw [if_neg hlt]
      exact h

/-- C26: after `track_compute_circuit_tables(ε)` with `ε > 0` on a preprocessed
track, for every initial bound, each of `track_frcfd_aller_retour`,
`track_frcfd_triangle_fai` and `track_frcfd_triangle_plat` either leaves all its
indexes at `-1` or writes `start ≤ tp1 < tp2 (< tp3) ≤ finish < n` with
`0 ≤ start`, `finish = last_finish[start]` and `δ(start, finish) < ε`. -/
theorem C26_circuit_indexes_closed (t : track_t) (hp : Preprocessed t) (e : ℚ) (he : 0 < e)
    (b : ℚ) :
    ((track_frcfd_aller_retour (track_compute_circuit_tables t e) b).2 = [-1, -1, -1, -1] ∨
      ∃ start tp1 tp2 finish,
        (track_frcfd_aller_retour (track_compute_circuit_tables t e) b).2 =
          [start, tp1, tp2, finish] ∧
        0 ≤ start ∧ start ≤ tp1 ∧ tp1 < tp2 ∧ tp2 ≤ finish ∧ finish < t.ntrkpts ∧
        finish = (track_compute_circuit_tables t e).last_finish start ∧
        track_delta t start finish < e) ∧
    ((track_frcfd_triangle_fai (track_compute_circuit_tables t e) b).2 =
        [-1, -1, -1, -1, -1] ∨
      ∃ start tp1 tp2 tp3 finish,
        (track_frcfd_triangle_fai (track_compute_circuit_tables t e) b).2 =
          [start, tp1, tp2, tp3, finish] ∧
        0 ≤ start ∧ start ≤ tp1 ∧ tp1 < tp2 ∧ tp2 < tp3 ∧ tp3 ≤ finish ∧ finish < t.ntrkpts ∧
        finish = (track_compute_circuit_tables t e).last_finish start ∧
        track_delta t start finish < e) ∧
    ((track_frcfd_triangle_plat (track_compute_circuit_tables t e) b).2 =
        [-1, -1, -1, -1, -1] ∨
      ∃ start tp1 tp2 tp3 finish,
        (track_frcfd_triangle_plat (track_compute_circuit_tables t e) b).2 =
          [start, tp1, tp2, tp3, finish] ∧
        0 ≤ start ∧ start ≤ tp1 ∧ tp1 < tp2 ∧ tp2 < tp3 ∧ tp3 ≤ finish ∧ finish < t.ntrkpts ∧
        finish = (track_compute_circuit_tables t e).last_finish start ∧
        track_delta t start finish < e) := by
  have hs := track_compute_circuit_tables_spec hp e he
  have hwin : ∀ tp1, 0 ≤ tp1 → tp1 < (track_compute_circuit_tables t e).ntrkpts - 1 →
      0 ≤ (track_compute_circuit_tables t e).best_start tp1 ∧
      (track_compute_circuit_tables t e).best_start tp1 ≤ tp1 ∧
      (track_compute_circuit_tables t e).last_finish
        ((track_compute_circuit_tables t e).best_start tp1) < t.ntrkpts ∧
      track_delta t ((track_compute_circuit_tables t e).best_start tp1)
        ((track_compute_circuit_tables t e).last_finish
          ((track_compute_circuit_tables t e).best_start tp1)) < e := by
    intro tp1 h0 h1
    simp only [track_compute_circuit_tables_ntrkpts] at h1
    obtain ⟨b0, b1, _, _⟩ := hs.2 tp1 h0 (by omega)
    obtain ⟨_, l1, l2, _⟩ := hs.1 _ b0 (by omega)
    exact ⟨b0, b1, l1, l2⟩
  refine ⟨?_, ?_, ?_⟩
  · have h := track_frcfd_aller_retour_loop_shape (track_compute_circuit_tables t e)
      ((track_compute_circuit_tables t e).ntrkpts - 2).toNat 0 (b / 2.0) [-1, -1, -1, -1]
      (le_refl _) (Or.inl rfl)
    rcases h with h | ⟨tp1, tp2, g0, g1, g2, g3, g4⟩
    · exact Or.inl h
    · obtain ⟨w0, w1, w2, w3⟩ := hwin tp1 g0 g1
      exact Or.inr ⟨_, tp1, tp2, _, g4, w0, w1, g2, g3, w2, rfl, w3⟩
  · have h := track_frcfd_triangle_fai_tp1_shape (track_compute_circuit_tables t e)
      ((track_compute_circuit_tables t e).ntrkpts - 2).toNat 0
      ⟨b, 0.28 * b, [-1, -1, -1, -1, -1]⟩ (le_refl _) (Or.inl rfl)
    rcases h with h | ⟨tp1, tp2, tp3, g0, g1, g2, g3, g4, g5⟩
    · exact Or.inl h
    · obtain ⟨w0, w1, w2, w3⟩ := hwin tp1 g0 g1
      exact Or.inr ⟨_, tp1, tp2, tp3, _, g5, w0, w1, g2, g3, g4, w2, rfl, w3⟩
  · have h := track_frcfd_triangle_plat_tp1_shape (track_compute_circuit_tables t e)
      ((track_compute_circuit_tables t e).ntrkpts - 1).toNat 0 b [-1, -1, -1, -1, -1]
      (le_refl _) (Or.inl rfl)
    rcases h with h | ⟨tp1, tp2, tp3, g0, g1, g2, g3, g4, g5⟩
    · exact Or.inl h
    · obtain ⟨w0, w1, w2, w3⟩ := hwin tp1 g0 g1
      exact Or.inr ⟨_, tp1, tp2, tp3, _, g5, w0, w1, g2, g3, g4, w2, rfl, w3⟩

/-- C26, witness: the triangle track with the closure radius 1 and the initial
bound 0, where all three searches write indexes. -/
theorem C26_circuit_indexes_closed_witness :
    Preprocessed triangle_base_track ∧ (0 : ℚ) < 1 ∧
    (track_frcfd_aller_retour triangle_track 0).2 = [0, 0, 1, 4] ∧
    (track_frcfd_triangle_fai triangle_track 0).2 = [0, 0, 1, 3, 4] ∧
    (track_frcfd_triangle_plat triangle_track 0).2 = [0, 0, 1, 3, 4] ∧
    ((track_frcfd_triangle_fai (track_compute_circuit_tables triangle_base_track 1) 0).2 =
        [-1, -1, -1, -1, -1] ∨
      ∃ start tp1 tp2 tp3 finish,
        (track_frcfd_triangle_fai (track_compute_circuit_tables triangle_base_track 1) 0).2 =
          [start, tp1, tp2, tp3, finish] ∧
        0 ≤ start ∧ start ≤ tp1 ∧ tp1 < tp2 ∧ tp2 < tp3 ∧ tp3 ≤ finish ∧
        finish < triangle_base_track.ntrkpts ∧
        finish = (track_compute_circuit_tables triangle_base_track 1).last_finish start ∧
        track_delta triangle_base_track start finish < 1) :=
  ⟨plane_track_preprocessed _, by norm_num, by decide!, by decide!, by decide!,
    (C26_circuit_indexes_closed triangle_base_track (plane_track_preprocessed _) 1
      (by norm_num) 0).2.1⟩

/-! ## Termination of the skips and of the loops that use them

Each loop is run here with a budget of iterations; the result is `some` value
only when a `return` or a failed loop test is reached within the budget.  The
lemmas show that the budget `end - begin` (plus the last, failing test) is
always enough and that the value is the one of the model used elsewhere. -/

theorem track_fast_forward_loop_run_eq (t : track_t) (target : ℚ) :
    ∀ (fuel : Nat) (i : Int), i < t.ntrkpts → (t.ntrkpts - i).toNat ≤ fuel →
      track_fast_forward_loop_run t target fuel i =
        some (track_fast_forward_loop t target (t.ntrkpts - i).toNat i) := by
  intro fuel
  induction fuel with
  | zero => intro i h1 h2; omega
  | succ fuel ih =>
    intro i h1 h2
    obtain ⟨k, hk⟩ : ∃ k, (t.ntrkpts - i).toNat = k + 1 := ⟨(t.ntrkpts - i).toNat - 1, by omega⟩
    rw [hk, track_fast_forward_loop_run, track_fast_forward_loop]
    simp only
    have hgt := track_forward_gt t i (target - t.sigma_delta i)
    split_ifs with c1 c2
    · rfl
    · rfl
    · rw [ih _ (by omega) (by omega)]
      congr 1
      obtain ⟨m, hm⟩ : ∃ m, k = (t.ntrkpts - track_forward t i (target - t.sigma_delta i)).toNat
          + m := ⟨k - (t.ntrkpts - track_forward t i (target - t.sigma_delta i)).toNat, by omega⟩
      rw [hm]
      clear hm hk ih
      induction m with
      | zero => rfl
      | succ m ihm =>
        rw [← add_assoc, track_fast_forward_loop_counter t target _ _ (by omega) (by omega)]
        exact ihm

theorem track_fast_backward_loop_run_eq (t : track_t) (target : ℚ) :
    ∀ (fuel : Nat) (i : Int), 0 ≤ i → (i + 1).toNat ≤ fuel →
      track_fast_backward_loop_run t target fuel i =
        some (track_fast_backward_loop t target (i + 1).toNat i) := by
  intro fuel
  induction fuel with
  | zero => intro i h1 h2; omega
  | succ fuel ih =>
    intro i h1 h2
    obtain ⟨k, hk⟩ : ∃ k, (i + 1).toNat = k + 1 := ⟨(i + 1).toNat - 1, by omega⟩
    rw [hk, track_fast_backward_loop_run, track_fast_backward_loop]
    simp only
    have hgt := track_backward_lt t i (t.sigma_delta i - target)
    split_ifs with c1 c2
    · rfl
    · rfl
    · rw [ih _ (by omega) (by omega)]
      congr 1
      obtain ⟨m, hm⟩ : ∃ m, k = (track_backward t i (t.sigma_delta i - target) + 1).toNat
          + m := ⟨k - (track_backward t i (t.sigma_delta i - target) + 1).toNat, by omega⟩
      rw [hm]
      clear hm hk ih
      induction m with
      | zero => rfl
      | succ m ihm =>
        rw [← add_assoc, track_fast_backward_loop_counter t target _ _ (by omega) (by omega)]
        exact ihm

theorem scan_max_counter_add {σ : Type} (t : track_t) (f : Int → ℚ) (amt : ℚ → ℚ → ℚ)
    (upd : Int → ℚ → σ) (end_ : Int) (fuel : Nat) (j : Int) (bound : ℚ) (s : σ)
    (h : (end_ - j).toNat ≤ fuel) (m : Nat) :
    scan_max t f amt upd end_ (fuel + m) j bound s = scan_max t f amt upd end_ fuel j bound s := by
  induction m with
  | zero => rfl
  | succ m ih =>
    rw [← add_assoc, scan_max_counter t f amt upd end_ _ _ _ _ (by omega)]
    exact ih

theorem track_furthest_from_run_eq (t : track_t) (i end_ : Int) :
    ∀ (fuel : Nat) (j : Int) (bound : ℚ) (result : Int) (out : ℚ), (end_ - j).toNat < fuel →
      track_furthest_from_run t i end_ fuel j bound result out =
        some (track_furthest_from_loop t i end_ fuel j bound result out) := by
  intro fuel
  induction fuel with
  | zero => intro j bound result out h; omega
  | succ fuel ih =>
    intro j bound result out h
    rw [track_furthest_from_run, track_furthest_from_loop]
    simp only
    have hgt := track_fast_forward_gt t j (bound - track_delta t i j)
    split_ifs with c1 c2
    · exact ih _ _ _ _ (by omega)
    · exact ih _ _ _ _ (by omega)
    · rfl

theorem track_furthest_from2_run_eq (t : track_t) (i j end_ : Int) :
    ∀ (fuel : Nat) (k : Int) (bound : ℚ) (result : Int) (out : ℚ), (end_ - k).toNat < fuel →
      track_furthest_from2_run t i j end_ fuel k bound result out =
        some (track_furthest_from2_loop t i j end_ fuel k bound result out) := by
  intro fuel
  induction fuel with
  | zero => intro k bound result out h; omega
  | succ fuel ih =>
    intro k bound result out h
    rw [track_furthest_from2_run, track_furthest_from2_loop]
    simp only
    have hgt := track_fast_forward_gt t k
      ((bound - (track_delta t i k + track_delta t k j)) / 2.0)
    split_ifs with c1 c2
    · exact ih _ _ _ _ (by omega)
    · exact ih _ _ _ _ (by omega)
    · rfl

theorem track_nearest_to_run_eq (t : track_t) (i end_ : Int) :
    ∀ (fuel : Nat) (j : Int) (bound : ℚ) (result : Int) (out : ℚ), (end_ - j).toNat < fuel →
      track_nearest_to_run t i end_ fuel j bound result out =
        some (track_nearest_to_loop t i end_ fuel j bound result out) := by
  intro fuel
  induction fuel with
  | zero => intro j bound result out h; omega
  | succ fuel ih =>
    intro j bound result out h
    rw [track_nearest_to_run, track_nearest_to_loop]
    simp only
    have hgt := track_fast_forward_gt t j (track_delta t i j - bound)
    split_ifs with c1 c2
    · exact ih _ _ _ _ (by omega)
    · exact ih _ _ _ _ (by omega)
    · rfl

theorem track_nearest_to_loop_counter (t : track_t) (i end_ : Int) :
    ∀ (fuel : Nat) (j : Int) (bound : ℚ) (result : Int) (out : ℚ), (end_ - j).toNat ≤ fuel →
      track_nearest_to_loop t i end_ (fuel + 1) j bound result out =
        track_nearest_to_loop t i end_ fuel j bound result out := by
  intro fuel
  induction fuel with
  | zero =>
    intro j bound result out h
    unfold track_nearest_to_loop
    rw [if_neg (by omega)]
  | succ k ih =>
    intro j bound result out h
    rw [track_nearest_to_loop]
    conv_rhs => rw [track_nearest_to_loop]
    simp only
    have hgt := track_fast_forward_gt t j (track_delta t i j - bound)
    split_ifs with c1 c2
    · exact ih _ _ _ _ (by omega)
    · exact ih _ _ _ _ (by omega)
    · rfl

theorem track_nearest_to_loop_counter_add (t : track_t) (i end_ : Int) (fuel : Nat) (j : Int)
    (bound : ℚ) (result : Int) (out : ℚ) (h : (end_ - j).toNat ≤ fuel) (m : Nat) :
    track_nearest_to_loop t i end_ (fuel + m) j bound result out =
      track_nearest_to_loop t i end_ fuel j bound result out := by
  induction m with
  | zero => rfl
  | succ m ih =>
    rw [← add_assoc, track_nearest_to_loop_counter t i end_ _ _ _ _ _ (by omega)]
    exact ih

theorem track_first_at_least_run_eq (t : track_t) (i end_ : Int) (bound : ℚ) :
    ∀ (fuel : Nat) (j : Int), (end_ - j).toNat < fuel →
      track_first_at_least_run t i end_ bound fuel j =
        some (track_first_at_least_loop t i end_ bound fuel j) := by
  intro fuel
  induction fuel with
  | zero => intro j h; omega
  | succ fuel ih =>
    intro j h
    rw [track_first_at_least_run, track_first_at_least_loop]
    simp only
    have hgt := track_fast_forward_gt t j (bound - track_delta t i j)
    split_ifs with c1 c2
    · rfl
    · exact ih _ (by omega)
    · rfl

theorem track_first_at_least_loop_counter_add (t : track_t) (i end_ : Int) (bound : ℚ)
    (fuel : Nat) (j : Int) (h : (end_ - j).toNat ≤ fuel) (m : Nat) :
    track_first_at_least_loop t i end_ bound (fuel + m) j =
      track_first_at_least_loop t i end_ bound fuel j := by
  induction m with
  | zero => rfl
  | succ m ih =>
    rw [← add_assoc, track_first_at_least_loop_counter t i end_ bound _ _ (by omega)]
    exact ih

theorem track_last_at_least_run_eq (t : track_t) (i begin_ : Int) (bound : ℚ) :
    ∀ (fuel : Nat) (j : Int), (j + 1 - begin_).toNat < fuel →
      track_last_at_least_run t i begin_ bound fuel j =
        some (track_last_at_least_loop t i begin_ bound fuel j) := by
  intro fuel
  induction fuel with
  | zero => intro j h; omega
  | succ fuel ih =>
    intro j h
    rw [track_last_at_least_run, track_last_at_least_loop]
    simp only
    have hgt := track_fast_backward_lt t j (bound - track_delta t i j)
    split_ifs with c1 c2
    · rfl
    · exact ih _ (by omega)
    · rfl

theorem track_last_at_least_loop_counter_add (t : track_t) (i begin_ : Int) (bound : ℚ)
    (fuel : Nat) (j : Int) (h : (j + 1 - begin_).toNat ≤ fuel) (m : Nat) :
    track_last_at_least_loop t i begin_ bound (fuel + m) j =
      track_last_at_least_loop t i begin_ bound fuel j := by
  induction m with
  | zero => rfl
  | succ m ih =>
    rw [← add_assoc, track_last_at_least_loop_counter t i begin_ bound _ _ (by omega)]
    exact ih

/-- C27: for every track, index and `d`, `track_forward` returns at least
`i + 1` and `track_backward` at most `i - 1`; hence `track_fast_forward` and
`track_fast_backward` reach a `return` for every input, within `n - i - 1`
and `i` iterations of their loop, and move the index strictly; and every loop
of `track_furthest_from`, `track_nearest_to`, `track_furthest_from2`,
`track_first_at_least` and `track_last_at_least`, whose index moves by one or
by such a skip, ends after at most `end_ - begin_` iterations (a budget of one
more test of the loop condition yields the value of the function). -/
theorem C27_skips_and_scans_terminate (t : track_t) :
    (∀ (i : Int) (d : ℚ), i + 1 ≤ track_forward t i d ∧ track_backward t i d ≤ i - 1) ∧
    (∀ (i : Int) (d : ℚ), i < track_fast_forward t i d ∧ track_fast_backward t i d < i) ∧
    (∀ (i : Int) (d : ℚ) (fuel : Nat), (t.ntrkpts - (i + 1)).toNat ≤ fuel →
      track_fast_forward_run t i d fuel = some (track_fast_forward t i d)) ∧
    (∀ (i : Int) (d : ℚ) (fuel : Nat), i.toNat ≤ fuel →
      track_fast_backward_run t i d fuel = some (track_fast_backward t i d)) ∧
    (∀ (i begin_ end_ : Int) (bound out : ℚ) (fuel : Nat), (end_ - begin_).toNat < fuel →
      track_furthest_from_run t i end_ fuel begin_ bound (-1) out =
        some (track_furthest_from t i begin_ end_ bound out)) ∧
    (∀ (i begin_ end_ : Int) (bound out : ℚ) (fuel : Nat), (end_ - begin_).toNat < fuel →
      track_nearest_to_run t i end_ fuel begin_ bound (-1) out =
        some (track_nearest_to t i begin_ end_ bound out)) ∧
    (∀ (i j begin_ end_ : Int) (bound out : ℚ) (fuel : Nat), (end_ - begin_).toNat < fuel →
      track_furthest_from2_run t i j end_ fuel begin_ bound (-1) out =
        some (track_furthest_from2 t i j begin_ end_ bound out)) ∧
    (∀ (i begin_ end_ : Int) (bound : ℚ) (fuel : Nat), (end_ - begin_).toNat < fuel →
      track_first_at_least_run t i end_ bound fuel begin_ =
        some (track_first_at_least t i begin_ end_ bound)) ∧
    (∀ (i begin_ end_ : Int) (bound : ℚ) (fuel : Nat), (end_ - begin_).toNat < fuel →
      track_last_at_least_run t i begin_ bound fuel (end_ - 1) =
        some (track_last_at_least t i begin_ end_ bound)) := by
  refine ⟨fun i d => ?_, fun i d => ⟨track_fast_forward_gt t i d, track_fast_backward_lt t i d⟩,
    ?_, ?_, ?_, ?_, ?_, ?_, ?_⟩
  · have h1 := track_forward_gt t i d
    have h2 := track_backward_lt t i d
    omega
  · intro i d fuel hf
    have hgt := track_forward_gt t i d
    unfold track_fast_forward_run track_fast_forward
    simp only
    split_ifs with c
    · rfl
    · exact track_fast_forward_loop_run_eq t _ fuel _ (by omega) (by omega)
  · intro i d fuel hf
    have hlt := track_backward_lt t i d
    unfold track_fast_backward_run track_fast_backward
    simp only
    split_ifs with c
    · rfl
    · exact track_fast_backward_loop_run_eq t _ fuel _ (by omega) (by omega)
  · intro i begin_ end_ bound out fuel hf
    rw [track_furthest_from_run_eq t i end_ fuel _ _ _ _ hf]
    congr 1
    unfold track_furthest_from
    obtain ⟨m, hm⟩ : ∃ m, fuel = (end_ - begin_).toNat + m :=
      ⟨fuel - (end_ - begin_).toNat, by omega⟩
    rw [hm, track_furthest_from_loop_eq, track_furthest_from_loop_eq,
      scan_max_counter_add _ _ _ _ _ _ _ _ _ (le_refl _)]
  · intro i begin_ end_ bound out fuel hf
    rw [track_nearest_to_run_eq t i end_ fuel _ _ _ _ hf]
    congr 1
    unfold track_nearest_to
    obtain ⟨m, hm⟩ : ∃ m, fuel = (end_ - begin_).toNat + m :=
      ⟨fuel - (end_ - begin_).toNat, by omega⟩
    rw [hm, track_nearest_to_loop_counter_add _ _ _ _ _ _ _ _ (le_refl _)]
  · intro i j begin_ end_ bound out fuel hf
    rw [track_furthest_from2_run_eq t i j end_ fuel _ _ _ _ hf]
    congr 1
    unfold track_furthest_from2
    obtain ⟨m, hm⟩ : ∃ m, fuel = (end_ - begin_).toNat + m :=
      ⟨fuel - (end_ - begin_).toNat, by omega⟩
    rw [hm, track_furthest_from2_loop_eq, track_furthest_from2_loop_eq,
      scan_max_counter_add _ _ _ _ _ _ _ _ _ (le_refl _)]
  · intro i begin_ end_ bound fuel hf
    rw [track_first_at_least_run_eq t i end_ bound fuel _ hf]
    congr 1
    unfold track_first_at_least
    obtain ⟨m, hm⟩ : ∃ m, fuel = (end_ - begin_).toNat + m :=
      ⟨fuel - (end_ - begin_).toNat, by omega⟩
    rw [hm, track_first_at_least_loop_counter_add _ _ _ _ _ _ (le_refl _)]
  · intro i begin_ end_ bound fuel hf
    rw [track_last_at_least_run_eq t i begin_ bound fuel _ (by omega)]
    congr 1
    unfold track_last_at_least
    obtain ⟨m, hm⟩ : ∃ m, fuel = (end_ - begin_).toNat + m :=
      ⟨fuel - (end_ - begin_).toNat, by omega⟩
    rw [hm, track_last_at_least_loop_counter_add _ _ _ _ _ _ (by omega)]

/-- C27, witness: on the five-fix zigzag track, `track_fast_forward` from fix 0
with `d = 5` returns within 4 iterations, and the scan of `track_furthest_from`
for fix 4 over `[0, 4)` ends within 4 iterations and the fifth test. -/
theorem C27_skips_and_scans_terminate_witness :
    (zigzag_track.ntrkpts - (0 + 1)).toNat ≤ 4 ∧
    track_fast_forward_run zigzag_track 0 5 4 = some (track_fast_forward zigzag_track 0 5) ∧
    ((4 : Int) - 0).toNat < 5 ∧
    track_furthest_from_run zigzag_track 4 4 5 0 0 (-1) 0 =
      some (track_furthest_from zigzag_track 4 0 4 0 0) :=
  ⟨by decide!, (C27_skips_and_scans_terminate zigzag_track).2.2.1 0 5 4 (by decide!),
    by decide, (C27_skips_and_scans_terminate zigzag_track).2.2.2.2.1 4 0 4 0 0 5 (by decide)⟩

end Maxxc
